import Mathlib

/-!
# Threaded AVL tree (`avlt.h`)

A verification development for the threaded AVL tree of `src/avlt.h`.

The C++ class keeps its nodes on the free store and links them by raw
pointers; a node's `Right` pointer is either a real child or, when
`isThreaded` is set, a non-owning pointer to the inorder successor.  The
embedding keeps that representation: a node store (`Mem`) indexed by
addresses, nodes holding pointers (`Ptr`), and every member function a
function on the store and on the object's three fields.  A dereference of
a null or released pointer makes the function return `none`.

Loops that follow pointers carry a `fuel` argument; the member functions
instantiate it with the size of the store plus one.  A pointer walk over an
unchanging store that takes more steps than there are cells has visited a
cell twice and would never stop, so running out of this fuel is divergence
of the source loop.
-/

namespace AVLT

/-- A `NODE*`: `none` is `nullptr`, `some a` is the address `a`. -/
abbrev Ptr := Option Nat

/-- The `struct NODE` of the class. -/
structure NODE (K V : Type) where
  Key : K
  Value : V
  Left : Ptr
  Right : Ptr
  isThreaded : Bool
  Height : Int
deriving DecidableEq, Repr

/-- The free store: cell `a` holds the node allocated at address `a`, or
`none` once it has been released by `delete`.  `new NODE()` appends a cell. -/
abbrev Mem (K V : Type) := List (Option (NODE K V))

/-- The data members of an `avlt` object. -/
structure avlt where
  Root : Ptr
  Size : Int
  state : Ptr
deriving DecidableEq, Repr

/-- The machine state seen by a member function: the free store and the
data members of the object it is called on. -/
structure World (K V : Type) where
  mem : Mem K V
  obj : avlt
deriving DecidableEq, Repr

/-- A statement or expression of the source: it runs on a machine state and
either faults (`none`) or yields a result and the next machine state. -/
def Cmd (K V α : Type) := World K V → Option (α × World K V)

section monad
variable {K V : Type}

/-- Sequencing of two statements. -/
@[noinline] def Cmd.bind {α β : Type} (m : Cmd K V α) (f : α → Cmd K V β) : Cmd K V β :=
  fun w => match m w with
    | none => none
    | some (a, w1) => f a w1

/-- An expression without effect. -/
@[noinline] def Cmd.pure {α : Type} (a : α) : Cmd K V α := fun w => some (a, w)

instance : Monad (Cmd K V) where
  pure := Cmd.pure
  bind := Cmd.bind

/-- Run a statement on a machine state. -/
def Cmd.run {α : Type} (m : Cmd K V α) (w : World K V) : Option (α × World K V) := m w

/-- Undefined behaviour (a null or dangling dereference) or divergence. -/
def fault {α : Type} : Cmd K V α := fun _ => none

/-- Read the cell at address `a` of a store. -/
def rd (H : Mem K V) (a : Nat) : Option (NODE K V) := (H.get? a).join

/-- Dereference `*p`: the node `p` points to. -/
def load (p : Ptr) : Cmd K V (NODE K V) := fun w =>
  match p with
  | none => none
  | some a => (rd w.mem a).map fun n => (n, w)

/-- Assignment to fields of `*p`. -/
def store (p : Ptr) (f : NODE K V → NODE K V) : Cmd K V Unit := fun w =>
  match p with
  | none => none
  | some a => (rd w.mem a).map fun n => ((), { w with mem := w.mem.set a (some (f n)) })

/-- Statement `p->Left = q`. -/
def setLeft (p q : Ptr) : Cmd K V Unit := store p fun n => { n with Left := q }
/-- Statement `p->Right = q`. -/
def setRight (p q : Ptr) : Cmd K V Unit := store p fun n => { n with Right := q }
/-- Statement `p->isThreaded = b`. -/
def setThreaded (p : Ptr) (b : Bool) : Cmd K V Unit := store p fun n => { n with isThreaded := b }
/-- Statement `p->Height = h`. -/
def setHeight (p : Ptr) (h : Int) : Cmd K V Unit := store p fun n => { n with Height := h }

/-- Expression `new NODE()` with the fields then assigned: a fresh address. -/
def new (n : NODE K V) : Cmd K V Ptr := fun w =>
  some (some w.mem.length, { w with mem := w.mem ++ [some n] })

/-- Statement `delete p` on a non-null pointer. -/
def delete (p : Ptr) : Cmd K V Unit := fun w =>
  match p with
  | none => none
  | some a => (rd w.mem a).map fun _ => ((), { w with mem := w.mem.set a none })

/-- The member `Root`. -/
def getRoot : Cmd K V Ptr := fun w => some (w.obj.Root, w)
/-- Statement `Root = p`. -/
def setRoot (p : Ptr) : Cmd K V Unit := fun w => some ((), { w with obj := { w.obj with Root := p } })
/-- The member `Size`. -/
def getSize : Cmd K V Int := fun w => some (w.obj.Size, w)
/-- Statement `Size = n`. -/
def setSize (n : Int) : Cmd K V Unit := fun w => some ((), { w with obj := { w.obj with Size := n } })
/-- The member `state`. -/
def getState : Cmd K V Ptr := fun w => some (w.obj.state, w)
/-- Statement `state = p`. -/
def setState (p : Ptr) : Cmd K V Unit := fun w => some ((), { w with obj := { w.obj with state := p } })
/-- The number of cells of the store, the fuel bound of the pointer loops. -/
def storeSize : Cmd K V Nat := fun w => some (w.mem.length, w)

/-- The statement `m` runs from `w` without fault, and its result and final
machine state satisfy `Q`. -/
def wp {α : Type} (m : Cmd K V α) (Q : α → World K V → Prop) (w : World K V) : Prop :=
  ∃ a w', m.run w = some (a, w') ∧ Q a w'

end monad

section source
variable {K V : Type}

/-- Source `_getHeight`: -1 for `nullptr`, else the stored height. -/
def _getHeight (cur : Ptr) : Cmd K V Int :=
  if cur = none then pure (-1)
  else do pure (← load cur).Height

/-- Source `_getActualLeft`. -/
def _getActualLeft (cur : Ptr) : Cmd K V Ptr := do
  pure (← load cur).Left

/-- Source `_getActualRight`: `nullptr` when the right pointer is a thread. -/
def _getActualRight (cur : Ptr) : Cmd K V Ptr := do
  if (← load cur).isThreaded then pure none
  else pure (← load cur).Right

/-- The block `//update parent` that ends both rotations: the new subtree
root `X` is linked below `Parent`, or becomes `Root` when `Parent` is null. -/
def updateParent [LinearOrder K] (Parent X : Ptr) : Cmd K V Unit := do
  if Parent = none then
    setRoot X
  else if (← load Parent).Key > (← load X).Key then
    setLeft Parent X
  else
    setRight Parent X

/-- Source `_LeftRotate(Parent, N)`. -/
def _LeftRotate [LinearOrder K] (Parent N : Ptr) : Cmd K V Unit := do
  let R := (← load N).Right
  let A := (← load N).Left
  let B := (← load R).Left
  let C := (← load R).Right
  setLeft R N
  let BH ← (if B = none then do
      setRight N R
      setThreaded N true
      pure (-1)
    else do
      setRight N B
      _getHeight B)
  updateParent Parent R
  setHeight N (1 + max (← _getHeight A) BH)
  setHeight R (1 + max (← _getHeight N) (← _getHeight C))

/-- Source `_RightRotate(Parent, N)`. -/
def _RightRotate [LinearOrder K] (Parent N : Ptr) : Cmd K V Unit := do
  let L := (← load N).Left
  let A := (← load L).Left
  let B := (← load L).Right
  let C := (← load N).Right
  setRight L N
  let BH ← (if (← load L).isThreaded then do
      setLeft N none
      pure (-1)
    else do
      setLeft N B
      _getHeight B)
  setThreaded L false
  let CH ← (if (← load N).isThreaded then pure (-1) else _getHeight C)
  updateParent Parent L
  setHeight N (1 + max BH CH)
  setHeight L (1 + max (← _getHeight A) (← _getHeight N))

/-- Step 1 of source `insert`: the descent `while (cur != nullptr)`.  The
result `none` is the `return` on a key already in the tree; otherwise `prev`
and the stack `nodes` (top first) when the loop ends. -/
def insert.descend [LinearOrder K] (key : K) :
    Nat → Ptr → Ptr → List Ptr → Cmd K V (Option (Ptr × List Ptr))
  | 0, _, _, _ => fault
  | fuel + 1, cur, prev, nodes =>
    if cur = none then pure (some (prev, nodes))
    else do
      if key = (← load cur).Key then
        pure none
      else if key < (← load cur).Key then
        insert.descend key fuel (← _getActualLeft cur) cur (cur :: nodes)
      else
        insert.descend key fuel (← _getActualRight cur) cur (cur :: nodes)

/-- The statement `if(nodes.empty()) next = nullptr; else next = nodes.top();`
of step 5 of `insert`: the parent of the node just popped. -/
def insert.next (nodes : List Ptr) : Ptr :=
  match nodes with
  | [] => none
  | top :: _ => top

/-- The statement `hL = (cur->Left == nullptr)? -1: cur->Left->Height;` of
step 5 of `insert`. -/
def insert.hL (cur : Ptr) : Cmd K V Int := do
  if (← load cur).Left = none then pure (-1)
  else pure (← load (← load cur).Left).Height

/-- The statement `if(cur->isThreaded) hR = -1; else hR = cur->Right->Height;`
of step 5 of `insert`. -/
def insert.hR (cur : Ptr) : Cmd K V Int := do
  if (← load cur).isThreaded then pure (-1)
  else pure (← load (← load cur).Right).Height

/-- Step 5 of source `insert`: the loop `while(!nodes.empty())` that updates
heights bottom-up and rotates once; `n` is the new node. -/
def insert.rebalance [LinearOrder K] (n : Ptr) : List Ptr → Cmd K V Unit
  | [] => pure ()
  | cur :: nodes => do
    let next := insert.next nodes
    let hL ← insert.hL cur
    let hR ← insert.hR cur
    let diff : Int := if hL > hR then hL - hR else hR - hL
    let hCur : Int := 1 + max hL hR
    if (← load cur).Height = hCur then
      pure ()
    else if diff = 0 ∨ diff = 1 then do
      setHeight cur hCur
      insert.rebalance n nodes
    else if hL > hR then do
      if (← load n).Key < (← load (← load cur).Left).Key then
        _RightRotate next cur
      else do
        _LeftRotate cur (← load cur).Left
        _RightRotate next cur
    else do
      if (← load n).Key < (← load (← load cur).Right).Key then do
        _RightRotate cur (← load cur).Right
        _LeftRotate next cur
      else
        _LeftRotate next cur

/-- Step 3 of source `insert` (and of `_insertNode`): link the new node `n`
below `prev`, or make it the root. -/
def insert.link [LinearOrder K] (key : K) (prev n : Ptr) : Cmd K V Unit := do
  if prev = none then do
    setRight n none
    setRoot n
  else if key < (← load prev).Key then do
    setLeft prev n
    setRight n prev
  else do
    setRight n (← load prev).Right
    setRight prev n
    setThreaded prev false

/-- The value an `int` (32 bits, two's complement) holds for the exact
result `x` of an arithmetic operation: `x` itself within the range of `int`,
the wrapped value beyond it. -/
def wrapInt32 (x : Int) : Int := (x + 2147483648) % 4294967296 - 2147483648

/-- Source `insert(key, value)`.  `Size` is an `int`; `Size++` wraps around
at the end of its range. -/
def insert [LinearOrder K] (key : K) (value : V) : Cmd K V Unit := do
  match (← insert.descend key ((← storeSize) + 1) (← getRoot) none []) with
  | none => pure ()
  | some (prev, nodes) => do
    let n ← new { Key := key, Value := value, Height := 0, Left := none, Right := none,
                  isThreaded := true }
    insert.link key prev n
    setSize (wrapInt32 ((← getSize) + 1))
    insert.rebalance n nodes

/-- Source `size()`. -/
def size : Cmd K V Int := getSize

/-- Source `height()`. -/
def height : Cmd K V Int := do
  if (← getRoot) = none then pure (-1)
  else pure (← load (← getRoot)).Height

/-- The loop of source `search`. -/
def search.loop [LinearOrder K] (key : K) : Nat → Ptr → Cmd K V (Option V)
  | 0, _ => fault
  | fuel + 1, cur =>
    if cur = none then pure none
    else do
      if key = (← load cur).Key then
        pure (some (← load cur).Value)
      else if key < (← load cur).Key then
        search.loop key fuel (← _getActualLeft cur)
      else
        search.loop key fuel (← _getActualRight cur)

/-- Source `search(key, value)`: `some v` is the result `true` with `v`
assigned to `value`; `none` is the result `false`. -/
def search [LinearOrder K] (key : K) : Cmd K V (Option V) := do
  search.loop key ((← storeSize) + 1) (← getRoot)

/-- Source `operator[]`. -/
def index [LinearOrder K] [Inhabited V] (key : K) : Cmd K V V := do
  pure ((← search key).getD default)

/-- The loop of source `operator()`. -/
def successorOf.loop [LinearOrder K] [Inhabited K] (key : K) : Nat → Ptr → Cmd K V K
  | 0, _ => fault
  | fuel + 1, cur =>
    if cur = none then pure default
    else do
      if key = (← load cur).Key then
        if (← load cur).Right = none then pure default
        else pure (← load (← load cur).Right).Key
      else if key < (← load cur).Key then
        successorOf.loop key fuel (← _getActualLeft cur)
      else
        successorOf.loop key fuel (← _getActualRight cur)

/-- Source `operator()`: the key to the "right" of `key`. -/
def successorOf [LinearOrder K] [Inhabited K] (key : K) : Cmd K V K := do
  successorOf.loop key ((← storeSize) + 1) (← getRoot)

/-- The loop of source `operator%`. -/
def heightOf.loop [LinearOrder K] (key : K) : Nat → Ptr → Cmd K V Int
  | 0, _ => fault
  | fuel + 1, cur =>
    if cur = none then pure (-1)
    else do
      if key = (← load cur).Key then
        pure (← load cur).Height
      else if key < (← load cur).Key then
        heightOf.loop key fuel (← _getActualLeft cur)
      else
        heightOf.loop key fuel (← _getActualRight cur)

/-- Source `operator%`: the height stored in the node of `key`. -/
def heightOf [LinearOrder K] (key : K) : Cmd K V Int := do
  heightOf.loop key ((← storeSize) + 1) (← getRoot)

/-- Source `_search(cur, lower, upper, keys)`; the vector `keys` is passed
through.  `fuel` bounds the depth of the recursion. -/
def _search [LinearOrder K] (lower upper : K) : Nat → Ptr → List K → Cmd K V (List K)
  | 0, _, _ => fault
  | fuel + 1, cur, keys =>
    if cur = none then pure keys
    else do
      let keys1 ← (if (← load cur).Key ≥ lower then do
          _search lower upper fuel (← load cur).Left keys
        else pure keys)
      let keys2 ← (if (← load cur).Key ≥ lower ∧ (← load cur).Key ≤ upper then do
          pure (keys1 ++ [(← load cur).Key])
        else pure keys1)
      if (← load cur).Key ≤ upper then
        if (← load cur).isThreaded then
          _search lower upper fuel none keys2
        else
          _search lower upper fuel (← load cur).Right keys2
      else pure keys2

/-- Source `range_search(lower, upper)`. -/
def range_search [LinearOrder K] (lower upper : K) : Cmd K V (List K) := do
  _search lower upper ((← storeSize) + 1) (← getRoot) []

/-- The loop `while (state->Left != nullptr) state = state->Left;` of
`begin` and `next`. -/
def leftmost : Nat → Cmd K V Unit
  | 0 => fault
  | fuel + 1 => do
    if (← load (← getState)).Left ≠ none then do
      setState (← load (← getState)).Left
      leftmost fuel
    else pure ()

/-- Source `begin()`. -/
def begin : Cmd K V Unit := do
  setState (← getRoot)
  if (← getState) ≠ none then
    leftmost ((← storeSize) + 1)
  else pure ()

/-- Source `next(key)`: `some k` is the result `true` with `k` assigned to
`key`; `none` is the result `false`. -/
def next : Cmd K V (Option K) := do
  if (← getState) = none then
    pure none
  else do
    let key := (← load (← getState)).Key
    if (← _getActualRight (← getState)) = none then
      setState (← load (← getState)).Right
    else do
      setState (← load (← getState)).Right
      leftmost ((← storeSize) + 1)
    pure (some key)

/-- The client loop `while (tree.next(key)) ...` of the usage example in the
source, collecting the keys. -/
def drain : Nat → List K → Cmd K V (List K)
  | 0, _ => fault
  | fuel + 1, out => do
    match (← next) with
    | none => pure out
    | some key => drain fuel (out ++ [key])

/-- The usage example `tree.begin(); while (tree.next(key)) ...`. -/
def traverse : Cmd K V (List K) := do
  begin
  drain ((← storeSize) + 1) []

/-- Source `_clearTree(cur)`. -/
def _clearTree : Nat → Ptr → Cmd K V Unit
  | 0, _ => fault
  | fuel + 1, cur =>
    if cur = none then pure ()
    else do
      _clearTree fuel (← load cur).Left
      if (← load cur).isThreaded then
        _clearTree fuel none
      else
        _clearTree fuel (← load cur).Right
      delete cur

/-- Source `clear()`. -/
def clear : Cmd K V Unit := do
  _clearTree ((← storeSize) + 1) (← getRoot)
  setRoot none
  setSize 0
  setState none

/-- The descent loop of source `_insertNode`: `none` is the `return` on a key
already in the tree, otherwise `prev` when the loop ends. -/
def _insertNode.descend [LinearOrder K] (key : K) : Nat → Ptr → Ptr → Cmd K V (Option Ptr)
  | 0, _, _ => fault
  | fuel + 1, cur, prev =>
    if cur = none then pure (some prev)
    else do
      if key = (← load cur).Key then
        pure none
      else if key < (← load cur).Key then
        _insertNode.descend key fuel (← _getActualLeft cur) cur
      else
        _insertNode.descend key fuel (← _getActualRight cur) cur

/-- Source `_insertNode(key, value, height)`. -/
def _insertNode [LinearOrder K] (key : K) (value : V) (height : Int) : Cmd K V Unit := do
  match (← _insertNode.descend key ((← storeSize) + 1) (← getRoot) none) with
  | none => pure ()
  | some prev => do
    let n ← new { Key := key, Value := value, Left := none, Right := none, Height := height,
                  isThreaded := true }
    insert.link key prev n

/-- Source `_insert(cur)`: the preorder walk over the tree that is copied. -/
def _insert [LinearOrder K] : Nat → Ptr → Cmd K V Unit
  | 0, _ => fault
  | fuel + 1, cur =>
    if cur = none then pure ()
    else do
      _insertNode (← load cur).Key (← load cur).Value (← load cur).Height
      _insert fuel (← load cur).Left
      if (← load cur).isThreaded then
        _insert fuel none
      else
        _insert fuel (← load cur).Right

/-- Source copy constructor `avlt(const avlt& other)`, run on the object under
construction; `other` holds the members of the tree that is copied. -/
def copyConstruct [LinearOrder K] (other : avlt) : Cmd K V Unit := do
  setRoot none
  setSize other.Size
  setState none
  _insert ((← storeSize) + 1) other.Root
  setState other.state

/-- The members of the argument `other` of `operator=` when they are read:
`some o` is a distinct object with members `o`, `none` is the object the
operator is called on (`t = t`). -/
def readOther (other : Option avlt) : Cmd K V avlt := fun w =>
  match other with
  | some o => some (o, w)
  | none => some (w.obj, w)

/-- Source `operator=(const avlt& other)`. -/
def assign [LinearOrder K] (other : Option avlt) : Cmd K V Unit := do
  clear
  _insert ((← storeSize) + 1) (← readOther other).Root
  setSize (← readOther other).Size
  setState (← readOther other).state

end source

/-! ## The tree a store represents

The shape the nodes of one tree form in the store, with the address of every
node: the ghost structure over which the invariants of the class are stated. -/

/-- A binary tree of nodes: address, left subtree, key, value, stored height,
real right subtree. -/
inductive Tree (K V : Type) where
  | nil : Tree K V
  | node (a : Nat) (l : Tree K V) (k : K) (v : V) (h : Int) (r : Tree K V) : Tree K V
deriving DecidableEq, Repr

namespace Tree
variable {K V : Type}

/-- The pointer to the root node of a tree. -/
def ptr : Tree K V → Ptr
  | nil => none
  | node a _ _ _ _ _ => some a

/-- Whether the tree is empty. -/
def isNil : Tree K V → Bool
  | nil => true
  | node _ _ _ _ _ _ => false

/-- The height stored in the root node, -1 for the empty tree (`_getHeight`). -/
def ht : Tree K V → Int
  | nil => -1
  | node _ _ _ _ h _ => h

/-- The true height: -1 for the empty tree, else one more than the larger of
the true heights of the two real subtrees. -/
def height : Tree K V → Int
  | nil => -1
  | node _ l _ _ _ r => 1 + max l.height r.height

/-- The addresses of the nodes, in inorder. -/
def addrs : Tree K V → List Nat
  | nil => []
  | node a l _ _ _ r => l.addrs ++ a :: r.addrs

/-- The keys, in inorder. -/
def keys : Tree K V → List K
  | nil => []
  | node _ l k _ _ r => l.keys ++ k :: r.keys

/-- The key/value pairs, in inorder. -/
def toList : Tree K V → List (K × V)
  | nil => []
  | node _ l k v _ r => l.toList ++ (k, v) :: r.toList

/-- The nodes (address, key, value), in inorder. -/
def nodes : Tree K V → List (Nat × K × V)
  | nil => []
  | node a l k v _ r => l.nodes ++ (a, k, v) :: r.nodes

/-- The non-empty subtrees of a tree: one for every node. -/
def subtrees : Tree K V → List (Tree K V)
  | nil => []
  | node a l k v h r => l.subtrees ++ node a l k v h r :: r.subtrees

/-- The number of nodes. -/
def size : Tree K V → Nat
  | nil => 0
  | node _ l _ _ _ r => l.size + 1 + r.size

/-- The content of the right pointer of a node with real right subtree `r`
and inorder successor `s`: the child, or the thread to `s`. -/
def rightPtr (r : Tree K V) (s : Ptr) : Ptr :=
  match r with
  | nil => s
  | node a _ _ _ _ _ => some a

/-- The store `H` holds the tree: every node of the tree is the cell at its
address, with `Left` the root of its left subtree, `Right` the root of its
right subtree when it has one and else, with `isThreaded` set, the pointer
`s` to the inorder successor of the subtree (the rightmost node inherits `s`,
the nodes of a left subtree are followed by their parent). -/
def Stored (H : Mem K V) : Tree K V → Ptr → Prop
  | nil, _ => True
  | node a l k v h r, s =>
      rd H a = some ⟨k, v, l.ptr, rightPtr r s, r.isNil, h⟩ ∧
      Stored H l (some a) ∧ Stored H r s

/-- The root node of the tree has its cell in the store, with the stored
height of the tree. -/
def RootHt (H : Mem K V) : Tree K V → Prop
  | nil => True
  | node a _ _ _ h _ => ∃ nd, rd H a = some nd ∧ nd.Height = h

/-- The node `s` points to stores the height `hs`; -1 stands for no node. -/
def SuccHt (H : Mem K V) (s : Ptr) (hs : Int) : Prop :=
  match s with
  | none => hs = -1
  | some a => ∃ nd, rd H a = some nd ∧ nd.Height = hs

/-- Binary search tree order: keys strictly increase in inorder. -/
def BST [LinearOrder K] (t : Tree K V) : Prop := t.keys.Pairwise (· < ·)

/-- Every stored height is the true height of its subtree. -/
def HeightsOK : Tree K V → Prop
  | nil => True
  | node _ l _ _ h r => l.HeightsOK ∧ r.HeightsOK ∧ h = 1 + max l.height r.height

/-- AVL balance at every node, on true heights. -/
def Balanced : Tree K V → Prop
  | nil => True
  | node _ l _ _ _ r =>
      l.Balanced ∧ r.Balanced ∧ |l.height - r.height| ≤ 1

/-- The effect of `_RightRotate` at the root of a tree. -/
def rotR : Tree K V → Tree K V
  | node n (node l A kl vl _ B) kn vn _ C =>
      node l A kl vl (1 + max A.ht (1 + max B.ht C.ht)) (node n B kn vn (1 + max B.ht C.ht) C)
  | t => t

/-- The effect of `_LeftRotate` at the root of a tree; `hs` is the height
stored in the inorder successor of the tree (-1 when there is none), which
the source reads through the thread when the right child has no right child. -/
def rotL (hs : Int) : Tree K V → Tree K V
  | node n A kn vn _ (node r B kr vr _ C) =>
      node r (node n A kn vn (1 + max A.ht B.ht) B) kr vr
        (1 + max (1 + max A.ht B.ht) (if C.isNil then hs else C.ht)) C
  | t => t

/-- The key stored in the root (of a non-empty tree). -/
def key? : Tree K V → Option K
  | nil => none
  | node _ _ k _ _ _ => some k

/-- The effect of steps 2 and 3 of `insert` and of `_insertNode` (new node at
address `a` with stored height `h0`, linked below the last node of the
descent), the other heights untouched. -/
def link [LinearOrder K] (key : K) (value : V) (h0 : Int) (a : Nat) : Tree K V → Tree K V
  | nil => node a nil key value h0 nil
  | node b l k v h r =>
      if key = k then node b l k v h r
      else if key < k then node b (link key value h0 a l) k v h r
      else node b l k v h (link key value h0 a r)

/-- One iteration of the loop of step 5 of `insert` at the root `cur` of a
tree; the flag tells whether the loop goes on to the parent. -/
def rebalStep [LinearOrder K] (key : K) (hs : Int) : Tree K V → Tree K V × Bool
  | nil => (nil, false)
  | node a l k v h r =>
      let hL := l.ht
      let hR := r.ht
      let diff : Int := if hL > hR then hL - hR else hR - hL
      let hCur : Int := 1 + max hL hR
      if h = hCur then (node a l k v h r, false)
      else if diff = 0 ∨ diff = 1 then (node a l k v hCur r, true)
      else if hL > hR then
        if l.key?.any (key < ·) then (rotR (node a l k v h r), false)
        else (rotR (node a (rotL h l) k v h r), false)
      else
        if r.key?.any (key < ·) then (rotL hs (node a l k v h (rotR r)), false)
        else (rotL hs (node a l k v h r), false)

/-- The rotation branch of one iteration of the loop of step 5 dereferences
only real nodes: when the branch is taken at the root of the tree, the child
on the heavy side is a node, and so is its inner child when the rotation is
a double one. -/
def StepSafe [LinearOrder K] (key : K) : Tree K V → Prop
  | nil => True
  | node _ l _ _ h r =>
      let hL := l.ht
      let hR := r.ht
      let diff : Int := if hL > hR then hL - hR else hR - hL
      let hCur : Int := 1 + max hL hR
      h = hCur ∨ (diff = 0 ∨ diff = 1) ∨
        (if hL > hR then
          ∃ la A kl vl hl B, l = node la A kl vl hl B ∧ (¬ key < kl → B.isNil = false)
        else
          ∃ ra B kr vr hr C, r = node ra B kr vr hr C ∧ (key < kr → B.isNil = false))

/-- The effect of the whole loop of step 5 of `insert` on the ancestors of
the node of `key`, bottom-up. -/
def rebalance [LinearOrder K] (key : K) : Int → Tree K V → Tree K V × Bool
  | _, nil => (nil, true)
  | hs, node a l k v h r =>
      if key = k then (node a l k v h r, true)
      else if key < k then
        let res := rebalance key h l
        if res.2 then rebalStep key hs (node a res.1 k v h r)
        else (node a res.1 k v h r, false)
      else
        let res := rebalance key hs r
        if res.2 then rebalStep key hs (node a l k v h res.1)
        else (node a l k v h res.1, false)

/-- The effect of `insert(key, value)` on the tree, the new node at `a`. -/
def insert [LinearOrder K] (key : K) (value : V) (a : Nat) (t : Tree K V) : Tree K V :=
  if key ∈ t.keys then t else (rebalance key (-1) (link key value 0 a t)).1

/-- Every iteration of the loop of step 5 that is run on the ancestors of
the node of `key` is safe in the sense of `StepSafe`. -/
def PathSafe [LinearOrder K] (key : K) : Int → Tree K V → Prop
  | _, nil => True
  | hs, node a l k v h r =>
      if key = k then True
      else if key < k then
        PathSafe key h l ∧
          ((rebalance key h l).2 = true → StepSafe key (node a (rebalance key h l).1 k v h r))
      else
        PathSafe key hs r ∧
          ((rebalance key hs r).2 = true → StepSafe key (node a l k v h (rebalance key hs r).1))

/-- The pointer `prev` after the descent of `insert` for `key`, started with
`prev = p`: the last node visited. -/
def last [LinearOrder K] (key : K) : Tree K V → Ptr → Ptr
  | nil, p => p
  | node a l k _ _ r, p =>
      if key = k then p
      else if key < k then last key l (some a)
      else last key r (some a)

/-- The pointer to the first node in inorder, `s` for the empty tree. -/
def first : Tree K V → Ptr → Ptr
  | nil, s => s
  | node a l _ _ _ _, _ => first l (some a)

/-- The value stored with `key` on the search path of `key`. -/
def find? [LinearOrder K] (key : K) : Tree K V → Option V
  | nil => none
  | node _ l k v _ r =>
      if key = k then some v
      else if key < k then find? key l
      else find? key r

/-- The tree has grown on the side of `key`: it is the new leaf of `key`, or
its subtree on the side of `key` is higher by one than the other. -/
def Grown [LinearOrder K] (key : K) : Tree K V → Prop
  | nil => False
  | node _ l k _ _ r =>
      (key = k ∧ l = nil ∧ r = nil) ∨ (key < k ∧ l.height = r.height + 1) ∨
        (k < key ∧ r.height = l.height + 1)

/-- The stack `nodes` after the descent of `insert` for `key`, top first,
started with `nodes = acc`. -/
def path [LinearOrder K] (key : K) : Tree K V → List Ptr → List Ptr
  | nil, acc => acc
  | node a l k _ _ r, acc =>
      if key = k then acc
      else if key < k then path key l (some a :: acc)
      else path key r (some a :: acc)

end Tree

/-- The place that holds the pointer to a subtree: the member `Root`, or the
`Left` or `Right` field of the parent node at address `p`. -/
inductive Slot where
  | root : Slot
  | left (p : Nat) : Slot
  | right (p : Nat) : Slot
deriving DecidableEq, Repr

namespace Slot
variable {K V : Type}

/-- The parent node of the slot, null for the root. -/
def parent : Slot → Ptr
  | root => none
  | left p => some p
  | right p => some p

/-- The machine state with the pointer `x` written into the slot. -/
def write (x : Ptr) (w : World K V) : Slot → World K V
  | root => ⟨w.mem, ⟨x, w.obj.Size, w.obj.state⟩⟩
  | left p => ⟨w.mem.set p ((rd w.mem p).map fun n => { n with Left := x }), w.obj⟩
  | right p => ⟨w.mem.set p ((rd w.mem p).map fun n => { n with Right := x }), w.obj⟩

/-- The parent node exists, is not threaded when the slot is its right
pointer, and its key is on the proper side of the keys `ks` of the subtree. -/
def Above [LinearOrder K] (w : World K V) (ks : List K) : Slot → Prop
  | root => True
  | left p => ∃ nP, rd w.mem p = some nP ∧ ∀ k ∈ ks, k < nP.Key
  | right p => ∃ nP, rd w.mem p = some nP ∧ ∀ k ∈ ks, nP.Key < k

/-- The slot holds the pointer `x`. -/
def Holds (w : World K V) (x : Ptr) : Slot → Prop
  | root => w.obj.Root = x
  | left p => ∃ nP, rd w.mem p = some nP ∧ nP.Left = x
  | right p => ∃ nP, rd w.mem p = some nP ∧ nP.Right = x

/-- The parent node is not among the addresses `A`. -/
def Outside (A : List Nat) : Slot → Prop
  | root => True
  | left p => p ∉ A
  | right p => p ∉ A

end Slot

/-- The machine state `w2` differs from `w` at most in the cells `A`. -/
def Frame {K V : Type} (A : List Nat) (w w2 : World K V) : Prop :=
  w2.obj = w.obj ∧ w2.mem.length = w.mem.length ∧ ∀ b, b ∉ A → rd w2.mem b = rd w.mem b

/-- The object of the machine state `w` is the tree `t`: its nodes are in the
store, threaded up to the null thread of the last node, at pairwise distinct
addresses, and `Root` points to the root node. -/
def Models {K V : Type} (w : World K V) (t : Tree K V) : Prop :=
  Tree.Stored w.mem t none ∧ w.obj.Root = t.ptr ∧ t.addrs.Nodup

/-- The value passed with the first `insert` of key `k` in a sequence of
`insert` calls, if there is one. -/
def firstValue {K V : Type} [DecidableEq K] (k : K) : List (K × V) → Option V
  | [] => none
  | (k2, v) :: rest => if k = k2 then some v else firstValue k rest

/-- The state of a tree object that has received the `insert` calls `ops`,
and no other call, since its construction: it is a tree `t` in the store that
satisfies the invariants of the class and holds the first value inserted with
every key; `Size` counts its nodes, within the range of `int`, and every cell
of the store is one of its nodes. -/
def Inv {K V : Type} [LinearOrder K] (w : World K V) (t : Tree K V) (ops : List (K × V)) :
    Prop :=
  Models w t ∧ t.BST ∧ t.HeightsOK ∧ t.Balanced ∧
    (∀ k v, (k, v) ∈ t.toList ↔ firstValue k ops = some v) ∧
    w.obj.Size = wrapInt32 t.size ∧ (∀ a, a < w.mem.length → a ∈ t.addrs)

/-- The real right child of a node: null when its right pointer is a thread
(`_getActualRight` on the node itself). -/
def NODE.actualRight {K V : Type} (nd : NODE K V) : Ptr :=
  if nd.isThreaded then none else nd.Right

/-- The true height of the subtree at pointer `p`, computed over the real
children: -1 for null, else one more than the larger of the heights of the
left and of the real right subtree.  `fuel` bounds the depth. -/
def trueHeight {K V : Type} (H : Mem K V) : Nat → Ptr → Int
  | 0, _ => -1
  | _ + 1, none => -1
  | fuel + 1, some a =>
      match rd H a with
      | none => -1
      | some nd => 1 + max (trueHeight H fuel nd.Left) (trueHeight H fuel nd.actualRight)

/-- The thread of the node `nd` is right for the keys `keys` of the tree: it
targets the node with the smallest key above the key of `nd`, and it is null
when there is no key above. -/
def ThreadOK {K V : Type} [LinearOrder K] (H : Mem K V) (keys : List K) (nd : NODE K V) :
    Prop :=
  match nd.Right with
  | none => ∀ x ∈ keys, x ≤ nd.Key
  | some b => ∃ nb, rd H b = some nb ∧ nd.Key < nb.Key ∧ ∀ x ∈ keys, nd.Key < x → nb.Key ≤ x

/-- The key `x` is above the lower bound `lo`; `none` is no bound. -/
def aboveLo {K : Type} [LinearOrder K] (lo : Option K) (x : K) : Prop :=
  match lo with
  | none => True
  | some b => b < x

/-- The key `x` is below the upper bound `hi`; `none` is no bound. -/
def belowHi {K : Type} [LinearOrder K] (hi : Option K) (x : K) : Prop :=
  match hi with
  | none => True
  | some b => x < b

/-- The pointer `s` targets the node whose key is the bound `hi`, and is
null when there is no bound. -/
def TargetsKey {K V : Type} (H : Mem K V) (s : Ptr) (hi : Option K) : Prop :=
  match s, hi with
  | none, none => True
  | some b, some kb => ∃ nb, rd H b = some nb ∧ nb.Key = kb
  | _, _ => False

/-- The empty store with a default-constructed tree (`avlt()`). -/
def World.empty {K V : Type} : World K V := ⟨[], ⟨none, 0, none⟩⟩

/-- A finite sequence of `insert` calls. -/
def insertAll {K V : Type} [LinearOrder K] : List (K × V) → Cmd K V Unit
  | [] => pure ()
  | (k, v) :: rest => do
      insert k v
      insertAll rest

end AVLT



namespace AVLT

/-! ## The worked example

The machine states of the usage example of the source (`main.cpp`):
`insert(60, 60)`, `insert(65, 65)`, `insert(63, 63)` on an empty
`avlt<int, int>`, and of a copy of that tree taken while its cursor is
active. -/

/-- The state after `insert(60, 60)`. -/
def example1 : World Int Int :=
  ⟨[some ⟨60, 60, none, none, true, 0⟩], ⟨some 0, 1, none⟩⟩

/-- The state after `insert(65, 65)`. -/
def example2 : World Int Int :=
  ⟨[some ⟨60, 60, none, some 1, false, 1⟩, some ⟨65, 65, none, none, true, 0⟩],
    ⟨some 0, 2, none⟩⟩

/-- The nodes of the tree after `insert(63, 63)`: the double rotation has made
63 the root. -/
def exampleMem : Mem Int Int :=
  [some ⟨60, 60, none, some 2, true, 0⟩, some ⟨65, 65, none, none, true, 0⟩,
    some ⟨63, 63, some 0, some 1, false, 1⟩]

/-- The state after `insert(63, 63)`. -/
def example3 : World Int Int := ⟨exampleMem, ⟨some 2, 3, none⟩⟩

/-- The members of the tree `A` of the example after `begin()`: the cursor is
at the node of 60. -/
def objA : avlt := ⟨some 2, 3, some 0⟩

/-- The store after the tree `B` has been copy-constructed from `A`: the
nodes of `A` and then those of `B`. -/
def copyMem : Mem Int Int :=
  [some ⟨60, 60, none, some 2, true, 0⟩, some ⟨65, 65, none, none, true, 0⟩,
    some ⟨63, 63, some 0, some 1, false, 1⟩,
    some ⟨63, 63, some 4, some 5, false, 1⟩, some ⟨60, 60, none, some 3, true, 0⟩,
    some ⟨65, 65, none, none, true, 0⟩]

/-- The members of the copy `B`: its cursor is the address of a node of `A`. -/
def objB : avlt := ⟨some 3, 3, some 0⟩

/-- The store after `A.insert(61, 61)` that follows the copy. -/
def copyMemInsert : Mem Int Int :=
  [some ⟨60, 60, none, some 6, false, 1⟩, some ⟨65, 65, none, none, true, 0⟩,
    some ⟨63, 63, some 0, some 1, false, 2⟩,
    some ⟨63, 63, some 4, some 5, false, 1⟩, some ⟨60, 60, none, some 3, true, 0⟩,
    some ⟨65, 65, none, none, true, 0⟩, some ⟨61, 61, none, some 2, true, 0⟩]

/-- The store after `A.clear()` that follows the copy. -/
def copyMemClear : Mem Int Int :=
  [none, none, none,
    some ⟨63, 63, some 4, some 5, false, 1⟩, some ⟨60, 60, none, some 3, true, 0⟩,
    some ⟨65, 65, none, none, true, 0⟩]

end AVLT

namespace AVLT

/-! ## Copies

What a copy of a tree is compared on: the shape of the tree a pointer leads
to, without the addresses of the nodes. -/

/-- The address-free image of a tree in the store: at every position the
key, the value, the stored height, the flag `isThreaded` and, for a threaded
node, the key of the node its thread targets (`none` for the null thread). -/
inductive Shape (K V : Type) where
  | nil : Shape K V
  | node (l : Shape K V) (key : K) (value : V) (height : Int) (threaded : Bool)
      (target : Option K) (r : Shape K V) : Shape K V
deriving DecidableEq, Repr

/-- The key of the node a pointer targets. -/
def keyAt {K V : Type} (H : Mem K V) (p : Ptr) : Option K :=
  p.bind fun b => (rd H b).map NODE.Key

/-- The image of the subtree at pointer `p`, read from the store over the
`Left` pointers and the real `Right` pointers.  `fuel` bounds the depth. -/
def shapeAt {K V : Type} (H : Mem K V) : Nat → Ptr → Shape K V
  | 0, _ => Shape.nil
  | _ + 1, none => Shape.nil
  | fuel + 1, some a =>
      match rd H a with
      | none => Shape.nil
      | some nd =>
          Shape.node (shapeAt H fuel nd.Left) nd.Key nd.Value nd.Height nd.isThreaded
            (if nd.isThreaded then keyAt H nd.Right else none) (shapeAt H fuel nd.actualRight)

namespace Tree
variable {K V : Type}

/-- The nodes in preorder, with the stored heights: the order in which
`_insert` hands them to `_insertNode`. -/
def pre : Tree K V → List (K × V × Int)
  | nil => []
  | node _ l k v h r => (k, v, h) :: (l.pre ++ r.pre)

/-- The effect of a sequence of `_insertNode` calls, the new nodes at the
addresses `a`, `a + 1`, ... -/
def linkAll [LinearOrder K] : List (K × V × Int) → Nat → Tree K V → Tree K V
  | [], _, t => t
  | (k, v, h) :: rest, a, t => linkAll rest (a + 1) (link k v h a t)

/-- The tree with its nodes at the addresses `n`, `n + 1`, ... in preorder. -/
def relabel (n : Nat) : Tree K V → Tree K V
  | nil => nil
  | node _ l k v h r => node n (relabel (n + 1) l) k v h (relabel (n + 1 + l.size) r)

/-- The address-free image of a tree whose last node has a thread to the
node of key `hi` (the null thread for `none`). -/
def shape : Tree K V → Option K → Shape K V
  | nil, _ => Shape.nil
  | node _ l k v h r, hi =>
      Shape.node (l.shape (some k)) k v h r.isNil (if r.isNil then hi else none) (r.shape hi)

end Tree

end AVLT

namespace AVLT

/-! ## Observations over the real child links

What the invariants of the class speak of, read from the store at a pointer:
the nodes and the keys reached over the `Left` pointers and the real `Right`
pointers. -/

/-- The number of nodes reached from pointer `p` over the real child links.
`fuel` bounds the depth. -/
def countNodes {K V : Type} (H : Mem K V) : Nat → Ptr → Nat
  | 0, _ => 0
  | _ + 1, none => 0
  | fuel + 1, some a =>
      match rd H a with
      | none => 0
      | some nd => countNodes H fuel nd.Left + 1 + countNodes H fuel nd.actualRight

/-- The keys of the subtree at pointer `p`, over the real child links, in
inorder.  `fuel` bounds the depth. -/
def keysAt {K V : Type} (H : Mem K V) : Nat → Ptr → List K
  | 0, _ => []
  | _ + 1, none => []
  | fuel + 1, some a =>
      match rd H a with
      | none => []
      | some nd => keysAt H fuel nd.Left ++ nd.Key :: keysAt H fuel nd.actualRight

end AVLT

namespace AVLT

/-! ## The cost of `range_search`

The helper `_search` with a counter of its invocations on a node, to state
how much of the tree a call of `range_search` visits. -/

section counted
variable {K V : Type}

/-- Source `_search(cur, lower, upper, keys)`, instrumented: next to the
vector `keys` it passes on the number of invocations with a non-null `cur`
so far, which every such invocation increments on entry. -/
def _searchCounted [LinearOrder K] (lower upper : K) :
    Nat → Ptr → List K × Nat → Cmd K V (List K × Nat)
  | 0, _, _ => fault
  | fuel + 1, cur, acc =>
    if cur = none then pure acc
    else do
      let acc1 ← (if (← load cur).Key ≥ lower then do
          _searchCounted lower upper fuel (← load cur).Left (acc.1, acc.2 + 1)
        else pure (acc.1, acc.2 + 1))
      let acc2 ← (if (← load cur).Key ≥ lower ∧ (← load cur).Key ≤ upper then do
          pure (acc1.1 ++ [(← load cur).Key], acc1.2)
        else pure acc1)
      if (← load cur).Key ≤ upper then
        if (← load cur).isThreaded then
          _searchCounted lower upper fuel none acc2
        else
          _searchCounted lower upper fuel (← load cur).Right acc2
      else pure acc2

/-- Source `range_search(lower, upper)` over the instrumented helper: the
keys it returns and the number of invocations of `_search` on a node. -/
def range_searchCounted [LinearOrder K] (lower upper : K) : Cmd K V (List K × Nat) := do
  _searchCounted lower upper ((← storeSize) + 1) (← getRoot) ([], 0)

end counted

namespace Tree
variable {K V : Type}

/-- The number of nodes of the tree on which `_search` is invoked: the left
subtree is entered from a node with `lower <= key`, the right subtree from
a node with `key <= upper`. -/
def visits [LinearOrder K] (lower upper : K) : Tree K V → Nat
  | nil => 0
  | node _ l k _ _ r =>
      1 + (if lower ≤ k then l.visits lower upper else 0)
        + (if k ≤ upper then r.visits lower upper else 0)

end Tree

end AVLT

namespace AVLT

/-! ## Rotations in the tree

The parent pointer the rotations are called with, the conditions under which
the rotation branch of `insert` is entered, and the machine states of the
left-right double rotation of `insert(63, 63)` on the tree of 65, 60. -/

namespace Tree
variable {K V : Type}

/-- The pointer to the parent of the node at address `n`; `p` is the parent
of the root of the tree (null for the whole tree of an object). -/
def parentOf (n : Nat) : Tree K V → Ptr → Ptr
  | nil, _ => none
  | node a l _ _ _ r, p =>
      if a = n then p
      else if n ∈ l.addrs then parentOf n l (some a)
      else parentOf n r (some a)

/-- One iteration of the loop of step 5 of `insert` at the root `cur` of a
tree: when it enters the rotation branch (the recomputed height differs from
the stored one and the balance magnitude is neither 0 nor 1), the magnitude
is 2, the child on the heavy side is a node, and so is its inner child when
the rotation is a double one. -/
def RotationSafe [LinearOrder K] (key : K) : Tree K V → Prop
  | nil => True
  | node _ l _ _ h r =>
      let hL := l.ht
      let hR := r.ht
      let diff : Int := if hL > hR then hL - hR else hR - hL
      let hCur : Int := 1 + max hL hR
      h ≠ hCur → ¬ (diff = 0 ∨ diff = 1) →
        diff = 2 ∧
        (if hL > hR then
          ∃ la A kl vl hl B, l = node la A kl vl hl B ∧ (¬ key < kl → B.isNil = false)
        else
          ∃ ra B kr vr hr C, r = node ra B kr vr hr C ∧ (key < kr → B.isNil = false))

/-- Every iteration of the loop of step 5 that is run on the ancestors of
the node of `key`, bottom-up, is safe in the sense of `RotationSafe`. -/
def WalkSafe [LinearOrder K] (key : K) : Int → Tree K V → Prop
  | _, nil => True
  | hs, node a l k v h r =>
      if key = k then True
      else if key < k then
        WalkSafe key h l ∧
          ((rebalance key h l).2 = true →
            RotationSafe key (node a (rebalance key h l).1 k v h r))
      else
        WalkSafe key hs r ∧
          ((rebalance key hs r).2 = true →
            RotationSafe key (node a l k v h (rebalance key hs r).1))

end Tree

/-- The state after `insert(65, 65)`, `insert(60, 60)` on an empty
`avlt<int, int>`. -/
def rotStart : World Int Int :=
  ⟨[some ⟨65, 65, some 1, none, true, 1⟩, some ⟨60, 60, none, some 0, true, 0⟩],
    ⟨some 0, 2, none⟩⟩

/-- The state of `insert(63, 63)` on `rotStart` when the loop of step 5
starts: the node of 63 is linked below the node of 60. -/
def rotLinked : World Int Int :=
  ⟨[some ⟨65, 65, some 1, none, true, 1⟩, some ⟨60, 60, none, some 2, false, 0⟩,
      some ⟨63, 63, none, some 0, true, 0⟩],
    ⟨some 0, 3, none⟩⟩

/-- The state when the loop reaches the node of 65, after the height of the
node of 60 has been updated: `_LeftRotate` is called on the node of 60, whose
right child, the node of 63, has a thread to the node of 65. -/
def rotBefore : World Int Int :=
  ⟨[some ⟨65, 65, some 1, none, true, 1⟩, some ⟨60, 60, none, some 2, false, 1⟩,
      some ⟨63, 63, none, some 0, true, 0⟩],
    ⟨some 0, 3, none⟩⟩

/-- The state after `_LeftRotate`, before `_RightRotate`. -/
def rotMid : World Int Int :=
  ⟨[some ⟨65, 65, some 2, none, true, 1⟩, some ⟨60, 60, none, some 2, true, 0⟩,
      some ⟨63, 63, some 1, some 0, true, 2⟩],
    ⟨some 0, 3, none⟩⟩

/-- The state after `_RightRotate`, in which `insert(63, 63)` returns. -/
def rotFinal : World Int Int :=
  ⟨[some ⟨65, 65, none, none, true, 0⟩, some ⟨60, 60, none, some 2, true, 0⟩,
      some ⟨63, 63, some 1, some 0, false, 1⟩],
    ⟨some 2, 3, none⟩⟩

/-- The tree of `rotStart`. -/
def rotStartTree : Tree Int Int :=
  Tree.node 0 (Tree.node 1 Tree.nil 60 60 0 Tree.nil) 65 65 1 Tree.nil

/-- The tree of `rotBefore`. -/
def rotBeforeTree : Tree Int Int :=
  Tree.node 0 (Tree.node 1 Tree.nil 60 60 1 (Tree.node 2 Tree.nil 63 63 0 Tree.nil)) 65 65 1
    Tree.nil

/-- The tree of `rotMid`. -/
def rotMidTree : Tree Int Int :=
  Tree.node 0 (Tree.node 2 (Tree.node 1 Tree.nil 60 60 0 Tree.nil) 63 63 2 Tree.nil) 65 65 1
    Tree.nil

end AVLT

namespace AVLT

/-! ## Running statements -/

section run
variable {K V : Type} {α β : Type}

theorem run_pure (a : α) (w : World K V) : (pure a : Cmd K V α).run w = some (a, w) := rfl

theorem run_bind (m : Cmd K V α) (f : α → Cmd K V β) (w : World K V) :
    (m >>= f).run w = (m.run w).bind fun r => (f r.1).run r.2 := by
  show Cmd.bind m f w = _
  unfold Cmd.bind Cmd.run
  cases m w <;> rfl

theorem rd_set (H : Mem K V) (a b : Nat) (x : Option (NODE K V)) :
    rd (H.set a x) b = if a = b ∧ a < H.length then x else rd H b := by
  unfold rd
  by_cases hab : a = b
  · subst hab
    by_cases hlt : a < H.length
    · simp [hlt, List.getElem?_set_self, List.get?_eq_getElem?]
    · simp [hlt, List.get?_eq_getElem?]
      have : H.length ≤ a := Nat.le_of_not_lt hlt
      simp [List.getElem?_eq_none, this]
  · simp [hab, List.get?_eq_getElem?, List.getElem?_set_ne hab]

theorem rd_lt {H : Mem K V} {a : Nat} {n : NODE K V} (h : rd H a = some n) : a < H.length := by
  unfold rd at h
  by_contra hlt
  have : H.length ≤ a := Nat.le_of_not_lt hlt
  simp [List.get?_eq_getElem?, List.getElem?_eq_none, this] at h

theorem rd_ge {H : Mem K V} {a : Nat} (h : H.length ≤ a) : rd H a = none := by
  unfold rd
  simp [List.get?_eq_getElem?, List.getElem?_eq_none, h]

theorem rd_append_lt (H : Mem K V) (x : Option (NODE K V)) {a : Nat} (h : a < H.length) :
    rd (H ++ [x]) a = rd H a := by
  unfold rd
  simp [List.get?_eq_getElem?, List.getElem?_append_left, h]

theorem rd_append_length (H : Mem K V) (x : Option (NODE K V)) :
    rd (H ++ [x]) H.length = x := by
  unfold rd
  simp [List.get?_eq_getElem?]

@[simp] theorem wp_bind (m : Cmd K V α) (f : α → Cmd K V β) (Q : β → World K V → Prop)
    (w : World K V) :
    wp (m >>= f) Q w ↔ wp m (fun a w' => wp (f a) Q w') w := by
  unfold wp
  rw [run_bind]
  cases h : m.run w with
  | none => simp
  | some r =>
    obtain ⟨a, w1⟩ := r
    simp only [Option.some_bind, Option.some.injEq, Prod.mk.injEq]
    constructor
    · rintro ⟨b, w2, h2, hq⟩
      exact ⟨a, w1, ⟨rfl, rfl⟩, b, w2, h2, hq⟩
    · rintro ⟨_, _, ⟨rfl, rfl⟩, b, w2, h2, hq⟩
      exact ⟨b, w2, h2, hq⟩

@[simp] theorem wp_pure (a : α) (Q : α → World K V → Prop) (w : World K V) :
    wp (pure a) Q w ↔ Q a w := by
  unfold wp
  simp only [run_pure, Option.some.injEq, Prod.mk.injEq]
  constructor
  · rintro ⟨_, _, ⟨rfl, rfl⟩, hq⟩; exact hq
  · intro hq; exact ⟨a, w, ⟨rfl, rfl⟩, hq⟩

theorem wp_of_run {m : Cmd K V α} {Q : α → World K V → Prop} {w w' : World K V} {a : α}
    (h : m.run w = some (a, w')) : wp m Q w ↔ Q a w' := by
  unfold wp
  simp only [h, Option.some.injEq, Prod.mk.injEq]
  constructor
  · rintro ⟨_, _, ⟨rfl, rfl⟩, hq⟩; exact hq
  · intro hq; exact ⟨a, w', ⟨rfl, rfl⟩, hq⟩

theorem wp_of_run_none {m : Cmd K V α} {Q : α → World K V → Prop} {w : World K V}
    (h : m.run w = none) : wp m Q w ↔ False := by
  unfold wp
  simp [h]

theorem wp_mono {m : Cmd K V α} {Q Q2 : α → World K V → Prop} {w : World K V}
    (h : wp m Q w) (hq : ∀ a w', Q a w' → Q2 a w') : wp m Q2 w := by
  obtain ⟨a, w', hr, hQ⟩ := h
  exact ⟨a, w', hr, hq a w' hQ⟩

@[simp] theorem wp_fault (Q : α → World K V → Prop) (w : World K V) :
    wp (fault : Cmd K V α) Q w ↔ False :=
  wp_of_run_none rfl

@[simp] theorem wp_ite (c : Prop) [Decidable c] (m1 m2 : Cmd K V α) (Q : α → World K V → Prop)
    (w : World K V) :
    wp (if c then m1 else m2) Q w ↔ if c then wp m1 Q w else wp m2 Q w := by
  split <;> rfl

@[simp] theorem wp_load_none (Q : NODE K V → World K V → Prop) (w : World K V) :
    wp (load none) Q w ↔ False :=
  wp_of_run_none rfl

@[simp] theorem wp_load (a : Nat) (Q : NODE K V → World K V → Prop) (w : World K V) :
    wp (load (some a)) Q w ↔ ∃ n, rd w.mem a = some n ∧ Q n w := by
  cases h : rd w.mem a with
  | none =>
    rw [wp_of_run_none (show (load (some a)).run w = none by simp [Cmd.run, load, h])]
    simp
  | some n =>
    rw [wp_of_run (show (load (some a)).run w = some (n, w) by simp [Cmd.run, load, h])]
    simp

@[simp] theorem wp_store_none (f : NODE K V → NODE K V) (Q : Unit → World K V → Prop)
    (w : World K V) : wp (store none f) Q w ↔ False :=
  wp_of_run_none rfl

@[simp] theorem wp_store (a : Nat) (f : NODE K V → NODE K V) (Q : Unit → World K V → Prop)
    (w : World K V) :
    wp (store (some a) f) Q w ↔
      ∃ n, rd w.mem a = some n ∧ Q () ⟨w.mem.set a (some (f n)), w.obj⟩ := by
  cases h : rd w.mem a with
  | none =>
    rw [wp_of_run_none (show (store (some a) f).run w = none by simp [Cmd.run, store, h])]
    simp
  | some n =>
    rw [wp_of_run (show (store (some a) f).run w
      = some ((), ⟨w.mem.set a (some (f n)), w.obj⟩) by simp [Cmd.run, store, h])]
    simp

@[simp] theorem wp_new (n : NODE K V) (Q : Ptr → World K V → Prop) (w : World K V) :
    wp (new n) Q w ↔ Q (some w.mem.length) ⟨w.mem ++ [some n], w.obj⟩ :=
  wp_of_run rfl

@[simp] theorem wp_delete_none (Q : Unit → World K V → Prop) (w : World K V) :
    wp (delete none) Q w ↔ False :=
  wp_of_run_none rfl

@[simp] theorem wp_delete (a : Nat) (Q : Unit → World K V → Prop) (w : World K V) :
    wp (delete (some a)) Q w ↔
      ∃ n, rd w.mem a = some n ∧ Q () ⟨w.mem.set a none, w.obj⟩ := by
  cases h : rd w.mem a with
  | none =>
    rw [wp_of_run_none (show (delete (some a)).run w = none by simp [Cmd.run, delete, h])]
    simp
  | some n =>
    rw [wp_of_run (show (delete (some a)).run w
      = some ((), ⟨w.mem.set a none, w.obj⟩) by simp [Cmd.run, delete, h])]
    simp

@[simp] theorem wp_getRoot (Q : Ptr → World K V → Prop) (w : World K V) :
    wp getRoot Q w ↔ Q w.obj.Root w :=
  wp_of_run rfl

@[simp] theorem wp_setRoot (p : Ptr) (Q : Unit → World K V → Prop) (w : World K V) :
    wp (setRoot p) Q w ↔ Q () ⟨w.mem, ⟨p, w.obj.Size, w.obj.state⟩⟩ :=
  wp_of_run rfl

@[simp] theorem wp_getSize (Q : Int → World K V → Prop) (w : World K V) :
    wp getSize Q w ↔ Q w.obj.Size w :=
  wp_of_run rfl

@[simp] theorem wp_setSize (n : Int) (Q : Unit → World K V → Prop) (w : World K V) :
    wp (setSize n) Q w ↔ Q () ⟨w.mem, ⟨w.obj.Root, n, w.obj.state⟩⟩ :=
  wp_of_run rfl

@[simp] theorem wp_getState (Q : Ptr → World K V → Prop) (w : World K V) :
    wp getState Q w ↔ Q w.obj.state w :=
  wp_of_run rfl

@[simp] theorem wp_setState (p : Ptr) (Q : Unit → World K V → Prop) (w : World K V) :
    wp (setState p) Q w ↔ Q () ⟨w.mem, ⟨w.obj.Root, w.obj.Size, p⟩⟩ :=
  wp_of_run rfl

@[simp] theorem wp_storeSize (Q : Nat → World K V → Prop) (w : World K V) :
    wp storeSize Q w ↔ Q w.mem.length w :=
  wp_of_run rfl

@[simp] theorem wp_getHeight_none (Q : Int → World K V → Prop) (w : World K V) :
    wp (_getHeight none) Q w ↔ Q (-1) w := by
  simp [_getHeight]

@[simp] theorem wp_getHeight_some (a : Nat) (Q : Int → World K V → Prop) (w : World K V) :
    wp (_getHeight (some a)) Q w ↔ ∃ n, rd w.mem a = some n ∧ Q n.Height w := by
  simp [_getHeight]

end run
end AVLT

namespace AVLT

/-! ## Trees in the store -/

section basic
variable {K V : Type}

@[simp] theorem ptr_nil : (Tree.nil : Tree K V).ptr = none := rfl
@[simp] theorem ptr_node (a : Nat) (l : Tree K V) (k : K) (v : V) (h : Int) (r : Tree K V) :
    (Tree.node a l k v h r).ptr = some a := rfl
@[simp] theorem isNil_nil : (Tree.nil : Tree K V).isNil = true := rfl
@[simp] theorem isNil_node (a : Nat) (l : Tree K V) (k : K) (v : V) (h : Int) (r : Tree K V) :
    (Tree.node a l k v h r).isNil = false := rfl
@[simp] theorem ht_nil : (Tree.nil : Tree K V).ht = -1 := rfl
@[simp] theorem ht_node (a : Nat) (l : Tree K V) (k : K) (v : V) (h : Int) (r : Tree K V) :
    (Tree.node a l k v h r).ht = h := rfl
@[simp] theorem rightPtr_nil (s : Ptr) : (Tree.nil : Tree K V).rightPtr s = s := rfl
@[simp] theorem rightPtr_node (a : Nat) (l : Tree K V) (k : K) (v : V) (h : Int) (r : Tree K V)
    (s : Ptr) : (Tree.node a l k v h r).rightPtr s = some a := rfl
@[simp] theorem key_nil : (Tree.nil : Tree K V).key? = none := rfl
@[simp] theorem key_node (a : Nat) (l : Tree K V) (k : K) (v : V) (h : Int) (r : Tree K V) :
    (Tree.node a l k v h r).key? = some k := rfl

theorem ptr_of_isNil {t : Tree K V} (h : t.isNil = true) : t.ptr = none := by
  cases t <;> simp_all

theorem ht_of_isNil {t : Tree K V} (h : t.isNil = true) : t.ht = -1 := by
  cases t <;> simp_all

theorem rightPtr_of_isNil {t : Tree K V} {s : Ptr} (h : t.isNil = true) :
    t.rightPtr s = s := by
  cases t <;> simp_all

theorem rightPtr_of_not_isNil {t : Tree K V} {s : Ptr} (h : ¬ t.isNil = true) :
    t.rightPtr s = t.ptr := by
  cases t <;> simp_all

theorem eq_nil_of_isNil {t : Tree K V} (h : t.isNil = true) : t = .nil := by
  cases t <;> simp_all

@[simp] theorem rotR_node_node (n l : Nat) (A B C : Tree K V) (kn kl : K) (vn vl : V)
    (hn hl : Int) :
    (Tree.node n (.node l A kl vl hl B) kn vn hn C).rotR =
      .node l A kl vl (1 + max A.ht (1 + max B.ht C.ht))
        (.node n B kn vn (1 + max B.ht C.ht) C) := rfl

@[simp] theorem rotL_node_node (hs : Int) (n r : Nat) (A B C : Tree K V) (kn kr : K)
    (vn vr : V) (hn hr : Int) :
    (Tree.node n A kn vn hn (.node r B kr vr hr C)).rotL hs =
      .node r (.node n A kn vn (1 + max A.ht B.ht) B) kr vr
        (1 + max (1 + max A.ht B.ht) (if C.isNil then hs else C.ht)) C := rfl

@[simp] theorem write_root (x : Ptr) (w : World K V) :
    Slot.root.write x w = ⟨w.mem, ⟨x, w.obj.Size, w.obj.state⟩⟩ := rfl
@[simp] theorem write_left (x : Ptr) (w : World K V) (p : Nat) :
    (Slot.left p).write x w =
      ⟨w.mem.set p ((rd w.mem p).map fun n => { n with Left := x }), w.obj⟩ := rfl
@[simp] theorem write_right (x : Ptr) (w : World K V) (p : Nat) :
    (Slot.right p).write x w =
      ⟨w.mem.set p ((rd w.mem p).map fun n => { n with Right := x }), w.obj⟩ := rfl
@[simp] theorem parent_root : Slot.root.parent = none := rfl
@[simp] theorem parent_left (p : Nat) : (Slot.left p).parent = some p := rfl
@[simp] theorem parent_right (p : Nat) : (Slot.right p).parent = some p := rfl

end basic

section stored
variable {K V : Type}

theorem stored_frame {H H2 : Mem K V} {t : Tree K V} {s : Ptr}
    (h : ∀ a ∈ t.addrs, rd H2 a = rd H a) (hr : Tree.Stored H t s) : Tree.Stored H2 t s := by
  induction t generalizing s with
  | nil => trivial
  | node a l k v h0 r ihl ihr =>
    simp only [Tree.Stored, Tree.addrs, List.mem_append, List.mem_cons] at *
    refine ⟨?_, ihl (fun b hb => h b (Or.inl hb)) hr.2.1,
      ihr (fun b hb => h b (Or.inr (Or.inr hb))) hr.2.2⟩
    rw [h a (Or.inr (Or.inl rfl))]; exact hr.1

theorem stored_set {H : Mem K V} {t : Tree K V} {s : Ptr} {a : Nat} {x : Option (NODE K V)}
    (ha : a ∉ t.addrs) : Tree.Stored (H.set a x) t s ↔ Tree.Stored H t s := by
  constructor
  · intro h
    refine stored_frame (fun b hb => ?_) h
    rw [rd_set]
    have : a ≠ b := fun e => ha (e ▸ hb)
    simp [this]
  · intro h
    refine stored_frame (fun b hb => ?_) h
    rw [rd_set]
    have : a ≠ b := fun e => ha (e ▸ hb)
    simp [this]

theorem stored_lt {H : Mem K V} {t : Tree K V} {s : Ptr} (h : Tree.Stored H t s) :
    ∀ a ∈ t.addrs, a < H.length := by
  induction t generalizing s with
  | nil => intro a ha; simp [Tree.addrs] at ha
  | node a l k v h0 r ihl ihr =>
    intro b hb
    simp only [Tree.Stored, Tree.addrs, List.mem_append, List.mem_cons] at h hb
    rcases hb with hb | rfl | hb
    · exact ihl h.2.1 b hb
    · exact rd_lt h.1
    · exact ihr h.2.2 b hb

end stored


theorem rootHt_of_stored {K V : Type} {H : Mem K V} {t : Tree K V} {s : Ptr} (h : Tree.Stored H t s) :
    Tree.RootHt H t := by
  cases t with
  | nil => trivial
  | node a l k v h0 r => exact ⟨_, h.1, rfl⟩

theorem rootHt_set {K V : Type} {H : Mem K V} {t : Tree K V} {a : Nat} {x : Option (NODE K V)}
    (ha : a ∉ t.addrs) : Tree.RootHt (H.set a x) t ↔ Tree.RootHt H t := by
  cases t with
  | nil => simp [Tree.RootHt]
  | node b l k v h0 r =>
    have : a ≠ b := by rintro rfl; simp [Tree.addrs] at ha
    simp [Tree.RootHt, rd_set, this]

theorem wp_getHeight_tree {K V : Type} {w : World K V} {t : Tree K V} (h : Tree.RootHt w.mem t)
    (Q : Int → World K V → Prop) : wp (_getHeight t.ptr) Q w ↔ Q t.ht w := by
  cases t with
  | nil => simp [wp_getHeight_none]
  | node b l k v h0 r =>
    obtain ⟨nd, h1, h2⟩ := h
    simp [wp_getHeight_some, h1, h2]

section succ
variable {K V : Type}

theorem succHt_set_ne {H : Mem K V} {s : Ptr} {hs : Int} {a : Nat} {x : Option (NODE K V)}
    (h : s ≠ some a) : Tree.SuccHt (H.set a x) s hs ↔ Tree.SuccHt H s hs := by
  cases s with
  | none => simp [Tree.SuccHt]
  | some b =>
    have : a ≠ b := by rintro rfl; exact h rfl
    simp [Tree.SuccHt, rd_set, this]

theorem succHt_set_height {H : Mem K V} {s : Ptr} {hs : Int} {a : Nat} {nd : NODE K V}
    (h : (rd H a).map (fun x => x.Height) = some nd.Height) :
    Tree.SuccHt (H.set a (some nd)) s hs ↔ Tree.SuccHt H s hs := by
  cases s with
  | none => simp [Tree.SuccHt]
  | some b =>
    by_cases hab : a = b
    · subst hab
      cases h1 : rd H a with
      | none => simp [h1] at h
      | some x =>
        have hlt := rd_lt h1
        simp [h1] at h
        simp [Tree.SuccHt, rd_set, hlt, h1, h]
    · simp [Tree.SuccHt, rd_set, hab]

theorem wp_getHeight_succ {w : World K V} {s : Ptr} (hs : Int) (h : Tree.SuccHt w.mem s hs)
    (Q : Int → World K V → Prop) : wp (_getHeight s) Q w ↔ Q hs w := by
  cases s with
  | none => simp [Tree.SuccHt] at h; simp [h]
  | some b =>
    obtain ⟨nd, h1, h2⟩ := h
    simp [h1, h2]

theorem ptr_eq_none_iff {t : Tree K V} : t.ptr = none ↔ t.isNil = true := by
  cases t <;> simp

end succ

section rot
variable {K V : Type} [LinearOrder K]

set_option maxHeartbeats 1000000 in
theorem wp_RightRotate {w : World K V} (sl : Slot) {n l : Nat} {A B C : Tree K V}
    {kn kl : K} {vn vl : V} {hn hl : Int} {s : Ptr}
    (hst : Tree.Stored w.mem (.node n (.node l A kl vl hl B) kn vn hn C) s)
    (hnd : (Tree.node n (.node l A kl vl hl B) kn vn hn C).addrs.Nodup)
    (hab : sl.Above w [kl])
    (hout : sl.Outside (Tree.node n (.node l A kl vl hl B) kn vn hn C).addrs)
    (Q : Unit → World K V → Prop)
    (hQ : ∀ w', Tree.Stored w'.mem (Tree.rotR (.node n (.node l A kl vl hl B) kn vn hn C)) s →
      Frame (Tree.node n (.node l A kl vl hl B) kn vn hn C).addrs (sl.write (some l) w) w' →
      Q () w') :
    wp (_RightRotate sl.parent (some n)) Q w := by
  obtain ⟨H, o⟩ := w
  simp only [Tree.Stored, Tree.addrs, List.nodup_append, List.nodup_cons, List.mem_append,
    List.mem_cons, ptr_node, List.disjoint_cons_left, List.disjoint_cons_right, not_or,
    List.append_assoc, List.cons_append] at hst hnd
  obtain ⟨hN, ⟨hL, hA, hB⟩, hC⟩ := hst
  have hnl : n ≠ l := by rintro rfl; simp at hnd
  have hln : l ≠ n := hnl.symm
  have hlt_n := rd_lt hN
  have hlt_l := rd_lt hL
  have hAh := rootHt_of_stored hA
  have hBh := rootHt_of_stored hB
  have hCh := rootHt_of_stored hC
  have hnA : n ∉ A.addrs := by
    intro h; exact hnd.2.2.2 h (by simp)
  have hnB : n ∉ B.addrs := hnd.2.1.2.2.2.1
  have hnC : n ∉ C.addrs := hnd.2.1.2.2.1.1
  have hlA : l ∉ A.addrs := hnd.2.2.1
  have hlB : l ∉ B.addrs := hnd.2.1.1.1
  have hlC : l ∉ C.addrs := hnd.2.1.1.2.2
  unfold _RightRotate
  cases sl with
  | root =>
    by_cases hBn : B.isNil = true <;> by_cases hCn : C.isNil = true <;>
    simp only [parent_root, setRight, setLeft, setHeight, setThreaded, updateParent,
        wp_bind, wp_load, wp_pure, wp_store, wp_ite, wp_getHeight_none, wp_getHeight_some,
        wp_setRoot, hN, hL, Option.some.injEq, exists_eq_left', rd_set, hnl, hln, hlt_n, hlt_l,
        false_and, true_and, if_true, if_false, and_self, List.length_set, if_false,
        Bool.false_eq_true, hBn, hCn, wp_getHeight_tree, rootHt_set, hAh, hBh, hCh,
        hnA, hnB, hnC, hlA, hlB, hlC, not_false_eq_true, rightPtr_of_not_isNil, ptr_of_isNil] <;>
    refine hQ _ ?_ ?_
    all_goals first
      | (refine ⟨rfl, ?_, fun b hb => ?_⟩
         · simp
         · simp only [Tree.addrs, List.mem_append, List.mem_cons, not_or] at hb
           simp [rd_set, hb, Ne.symm hb.2.1, Ne.symm hb.1.2.1])
      | (simp only [rotR_node_node, Tree.Stored, rd_set, hnl, hln, hlt_n, hlt_l, false_and,
          true_and, if_true, if_false, and_self, List.length_set, stored_set, hA, hB, hC,
          hnA, hnB, hnC, hlA, hlB, hlC, not_false_eq_true, ptr_node, rightPtr_node, isNil_node,
          ptr_of_isNil, ht_of_isNil, rightPtr_of_isNil, rightPtr_of_not_isNil, hBn, hCn,
          Bool.false_eq_true, and_true])
  | left p =>
    obtain ⟨nP, hP, hk⟩ := hab
    have hk : kl < nP.Key := hk kl (by simp)
    simp only [Slot.Outside, Tree.addrs, List.mem_append, List.mem_cons, not_or] at hout
    have hpn : p ≠ n := hout.2.1
    have hpl : p ≠ l := hout.1.2.1
    have hnp : n ≠ p := hpn.symm
    have hlp : l ≠ p := hpl.symm
    have hlt_p := rd_lt hP
    have hpA : p ∉ A.addrs := hout.1.1
    have hpB : p ∉ B.addrs := hout.1.2.2
    have hpC : p ∉ C.addrs := hout.2.2
    by_cases hBn : B.isNil = true <;> by_cases hCn : C.isNil = true <;>
    simp only [parent_left, setRight, setLeft, setHeight, setThreaded, updateParent,
        wp_bind, wp_load, wp_pure, wp_store, wp_ite, wp_getHeight_none, wp_getHeight_some,
        wp_setRoot, hN, hL, hP, Option.some.injEq, exists_eq_left', rd_set, hnl, hln, hlt_n,
        hlt_l, hlt_p, hpn, hpl, hnp, hlp, gt_iff_lt, hk, reduceCtorEq,
        false_and, true_and, if_true, if_false, and_self, List.length_set, if_false,
        Bool.false_eq_true, hBn, hCn, wp_getHeight_tree, rootHt_set, hAh, hBh, hCh,
        hnA, hnB, hnC, hlA, hlB, hlC, hpA, hpB, hpC, not_false_eq_true, rightPtr_of_not_isNil,
        ptr_of_isNil] <;>
    refine hQ _ ?_ ?_
    all_goals first
      | (refine ⟨rfl, ?_, fun b hb => ?_⟩
         · simp
         · simp only [Tree.addrs, List.mem_append, List.mem_cons, not_or] at hb
           simp [rd_set, hb, Ne.symm hb.2.1, Ne.symm hb.1.2.1, hP, hlt_p])
      | (simp only [rotR_node_node, Tree.Stored, rd_set, hnl, hln, hlt_n, hlt_l, false_and,
          hlt_p, hpn, hpl, hnp, hlp, hpA, hpB, hpC,
          true_and, if_true, if_false, and_self, List.length_set, stored_set, hA, hB, hC,
          hnA, hnB, hnC, hlA, hlB, hlC, not_false_eq_true, ptr_node, rightPtr_node, isNil_node,
          ptr_of_isNil, ht_of_isNil, rightPtr_of_isNil, rightPtr_of_not_isNil, hBn, hCn,
          Bool.false_eq_true, and_true])
  | right p =>
    obtain ⟨nP, hP, hk⟩ := hab
    have hk : ¬ kl < nP.Key := not_lt.mpr (le_of_lt (hk kl (by simp)))
    simp only [Slot.Outside, Tree.addrs, List.mem_append, List.mem_cons, not_or] at hout
    have hpn : p ≠ n := hout.2.1
    have hpl : p ≠ l := hout.1.2.1
    have hnp : n ≠ p := hpn.symm
    have hlp : l ≠ p := hpl.symm
    have hlt_p := rd_lt hP
    have hpA : p ∉ A.addrs := hout.1.1
    have hpB : p ∉ B.addrs := hout.1.2.2
    have hpC : p ∉ C.addrs := hout.2.2
    by_cases hBn : B.isNil = true <;> by_cases hCn : C.isNil = true <;>
    simp only [parent_right, setRight, setLeft, setHeight, setThreaded, updateParent,
        wp_bind, wp_load, wp_pure, wp_store, wp_ite, wp_getHeight_none, wp_getHeight_some,
        wp_setRoot, hN, hL, hP, Option.some.injEq, exists_eq_left', rd_set, hnl, hln, hlt_n,
        hlt_l, hlt_p, hpn, hpl, hnp, hlp, gt_iff_lt, hk, reduceCtorEq,
        false_and, true_and, if_true, if_false, and_self, List.length_set, if_false,
        Bool.false_eq_true, hBn, hCn, wp_getHeight_tree, rootHt_set, hAh, hBh, hCh,
        hnA, hnB, hnC, hlA, hlB, hlC, hpA, hpB, hpC, not_false_eq_true, rightPtr_of_not_isNil,
        ptr_of_isNil] <;>
    refine hQ _ ?_ ?_
    all_goals first
      | (refine ⟨rfl, ?_, fun b hb => ?_⟩
         · simp
         · simp only [Tree.addrs, List.mem_append, List.mem_cons, not_or] at hb
           simp [rd_set, hb, Ne.symm hb.2.1, Ne.symm hb.1.2.1, hP, hlt_p])
      | (simp only [rotR_node_node, Tree.Stored, rd_set, hnl, hln, hlt_n, hlt_l, false_and,
          hlt_p, hpn, hpl, hnp, hlp, hpA, hpB, hpC,
          true_and, if_true, if_false, and_self, List.length_set, stored_set, hA, hB, hC,
          hnA, hnB, hnC, hlA, hlB, hlC, not_false_eq_true, ptr_node, rightPtr_node, isNil_node,
          ptr_of_isNil, ht_of_isNil, rightPtr_of_isNil, rightPtr_of_not_isNil, hBn, hCn,
          Bool.false_eq_true, and_true])

end rot
end AVLT

namespace AVLT
section rotl
variable {K V : Type} [LinearOrder K]

set_option maxHeartbeats 1000000 in
theorem wp_LeftRotate {w : World K V} (sl : Slot) {n r : Nat} {A B C : Tree K V}
    {kn kr : K} {vn vr : V} {hn hr : Int} {s : Ptr} {hs : Int}
    (hst : Tree.Stored w.mem (.node n A kn vn hn (.node r B kr vr hr C)) s)
    (hnd : (Tree.node n A kn vn hn (.node r B kr vr hr C)).addrs.Nodup)
    (hab : sl.Above w [kr])
    (hout : sl.Outside (Tree.node n A kn vn hn (.node r B kr vr hr C)).addrs)
    (hS : Tree.SuccHt w.mem s hs) (hsn : s ≠ some n) (hsr : s ≠ some r)
    (Q : Unit → World K V → Prop)
    (hQ : ∀ w', Tree.Stored w'.mem (Tree.rotL hs (.node n A kn vn hn (.node r B kr vr hr C))) s →
      Frame (Tree.node n A kn vn hn (.node r B kr vr hr C)).addrs (sl.write (some r) w) w' →
      Q () w') :
    wp (_LeftRotate sl.parent (some n)) Q w := by
  obtain ⟨H, o⟩ := w
  simp only [Tree.Stored, Tree.addrs, List.nodup_append, List.nodup_cons, List.mem_append,
    List.mem_cons, ptr_node, rightPtr_node, isNil_node, List.disjoint_cons_left,
    List.disjoint_cons_right, not_or,
    List.append_assoc, List.cons_append] at hst hnd
  obtain ⟨hN, hA, hR, hB, hC⟩ := hst
  change Tree.SuccHt H s hs at hS
  have hnr : n ≠ r := hnd.2.1.1.2.1
  have hrn : r ≠ n := hnr.symm
  have hlt_n := rd_lt hN
  have hlt_r := rd_lt hR
  have hAh := rootHt_of_stored hA
  have hBh := rootHt_of_stored hB
  have hCh := rootHt_of_stored hC
  have hnA : n ∉ A.addrs := hnd.2.2.1
  have hnB : n ∉ B.addrs := hnd.2.1.1.1
  have hnC : n ∉ C.addrs := hnd.2.1.1.2.2
  have hrA : r ∉ A.addrs := by
    intro h; exact hnd.2.2.2 h (by simp)
  have hrB : r ∉ B.addrs := hnd.2.1.2.2.2.1
  have hrC : r ∉ C.addrs := hnd.2.1.2.2.1.1
  unfold _LeftRotate
  cases sl with
  | root =>
    by_cases hBn : B.isNil = true <;> by_cases hCn : C.isNil = true <;>
    simp only [parent_root, setRight, setLeft, setHeight, setThreaded, updateParent,
        wp_bind, wp_load, wp_pure, wp_store, wp_ite, wp_getHeight_none, wp_getHeight_some,
        wp_setRoot, hN, hR, Option.some.injEq, exists_eq_left', rd_set, hnr, hrn, hlt_n, hlt_r,
        false_and, true_and, if_true, if_false, and_self, List.length_set, if_false,
        Bool.false_eq_true, hBn, hCn, wp_getHeight_tree, rootHt_set, hAh, hBh, hCh,
        hnA, hnB, hnC, hrA, hrB, hrC, not_false_eq_true, rightPtr_of_not_isNil, ptr_of_isNil,
        ptr_eq_none_iff, rightPtr_of_isNil, wp_getHeight_succ hs, succHt_set_ne, hS, hsn, hsr,
        ne_eq] <;>
    refine hQ _ ?_ ?_
    all_goals first
      | (refine ⟨rfl, ?_, fun b hb => ?_⟩
         · simp
         · simp only [Tree.addrs, List.mem_append, List.mem_cons, not_or] at hb
           simp [rd_set, hb, Ne.symm hb.2.1, Ne.symm hb.2.2.2.1])
      | (simp only [rotL_node_node, Tree.Stored, rd_set, hnr, hrn, hlt_n, hlt_r, false_and,
          true_and, if_true, if_false, and_self, List.length_set, stored_set, hA, hB, hC,
          hnA, hnB, hnC, hrA, hrB, hrC, not_false_eq_true, ptr_node, rightPtr_node, isNil_node,
          ptr_of_isNil, ht_of_isNil, rightPtr_of_isNil, rightPtr_of_not_isNil, hBn, hCn,
          Bool.false_eq_true, and_true]
         )
  | left p =>
    obtain ⟨nP, hP, hk⟩ := hab
    have hk : kr < nP.Key := hk kr (by simp)
    simp only [Slot.Outside, Tree.addrs, List.mem_append, List.mem_cons, not_or] at hout
    have hpn : p ≠ n := hout.2.1
    have hpr : p ≠ r := hout.2.2.2.1
    have hnp : n ≠ p := hpn.symm
    have hrp : r ≠ p := hpr.symm
    have hlt_p := rd_lt hP
    have hpA : p ∉ A.addrs := hout.1
    have hpB : p ∉ B.addrs := hout.2.2.1
    have hpC : p ∉ C.addrs := hout.2.2.2.2
    by_cases hBn : B.isNil = true <;> by_cases hCn : C.isNil = true <;>
    simp only [parent_left, setRight, setLeft, setHeight, setThreaded, updateParent,
        wp_bind, wp_load, wp_pure, wp_store, wp_ite, wp_getHeight_none, wp_getHeight_some,
        wp_setRoot, hN, hR, hP, Option.some.injEq, exists_eq_left', rd_set, hnr, hrn, hlt_n,
        hlt_r, hlt_p, hpn, hpr, hnp, hrp, gt_iff_lt, hk, reduceCtorEq,
        false_and, true_and, if_true, if_false, and_self, List.length_set, if_false,
        Bool.false_eq_true, hBn, hCn, wp_getHeight_tree, rootHt_set, hAh, hBh, hCh,
        hnA, hnB, hnC, hrA, hrB, hrC, hpA, hpB, hpC, not_false_eq_true, rightPtr_of_not_isNil,
        ptr_of_isNil, ptr_eq_none_iff, rightPtr_of_isNil, wp_getHeight_succ hs, succHt_set_ne,
        succHt_set_height, Option.map_some', hS, hsn, hsr, ne_eq] <;>
    refine hQ _ ?_ ?_
    all_goals first
      | (refine ⟨rfl, ?_, fun b hb => ?_⟩
         · simp
         · simp only [Tree.addrs, List.mem_append, List.mem_cons, not_or] at hb
           simp [rd_set, hb, Ne.symm hb.2.1, Ne.symm hb.2.2.2.1, hP, hlt_p])
      | (simp only [rotL_node_node, Tree.Stored, rd_set, hnr, hrn, hlt_n, hlt_r, false_and,
          hlt_p, hpn, hpr, hnp, hrp, hpA, hpB, hpC,
          true_and, if_true, if_false, and_self, List.length_set, stored_set, hA, hB, hC,
          hnA, hnB, hnC, hrA, hrB, hrC, not_false_eq_true, ptr_node, rightPtr_node, isNil_node,
          ptr_of_isNil, ht_of_isNil, rightPtr_of_isNil, rightPtr_of_not_isNil, hBn, hCn,
          Bool.false_eq_true, and_true])
  | right p =>
    obtain ⟨nP, hP, hk⟩ := hab
    have hk : ¬ kr < nP.Key := not_lt.mpr (le_of_lt (hk kr (by simp)))
    simp only [Slot.Outside, Tree.addrs, List.mem_append, List.mem_cons, not_or] at hout
    have hpn : p ≠ n := hout.2.1
    have hpr : p ≠ r := hout.2.2.2.1
    have hnp : n ≠ p := hpn.symm
    have hrp : r ≠ p := hpr.symm
    have hlt_p := rd_lt hP
    have hpA : p ∉ A.addrs := hout.1
    have hpB : p ∉ B.addrs := hout.2.2.1
    have hpC : p ∉ C.addrs := hout.2.2.2.2
    by_cases hBn : B.isNil = true <;> by_cases hCn : C.isNil = true <;>
    simp only [parent_right, setRight, setLeft, setHeight, setThreaded, updateParent,
        wp_bind, wp_load, wp_pure, wp_store, wp_ite, wp_getHeight_none, wp_getHeight_some,
        wp_setRoot, hN, hR, hP, Option.some.injEq, exists_eq_left', rd_set, hnr, hrn, hlt_n,
        hlt_r, hlt_p, hpn, hpr, hnp, hrp, gt_iff_lt, hk, reduceCtorEq,
        false_and, true_and, if_true, if_false, and_self, List.length_set, if_false,
        Bool.false_eq_true, hBn, hCn, wp_getHeight_tree, rootHt_set, hAh, hBh, hCh,
        hnA, hnB, hnC, hrA, hrB, hrC, hpA, hpB, hpC, not_false_eq_true, rightPtr_of_not_isNil,
        ptr_of_isNil, ptr_eq_none_iff, rightPtr_of_isNil, wp_getHeight_succ hs, succHt_set_ne,
        succHt_set_height, Option.map_some', hS, hsn, hsr, ne_eq] <;>
    refine hQ _ ?_ ?_
    all_goals first
      | (refine ⟨rfl, ?_, fun b hb => ?_⟩
         · simp
         · simp only [Tree.addrs, List.mem_append, List.mem_cons, not_or] at hb
           simp [rd_set, hb, Ne.symm hb.2.1, Ne.symm hb.2.2.2.1, hP, hlt_p])
      | (simp only [rotL_node_node, Tree.Stored, rd_set, hnr, hrn, hlt_n, hlt_r, false_and,
          hlt_p, hpn, hpr, hnp, hrp, hpA, hpB, hpC,
          true_and, if_true, if_false, and_self, List.length_set, stored_set, hA, hB, hC,
          hnA, hnB, hnC, hrA, hrB, hrC, not_false_eq_true, ptr_node, rightPtr_node, isNil_node,
          ptr_of_isNil, ht_of_isNil, rightPtr_of_isNil, rightPtr_of_not_isNil, hBn, hCn,
          Bool.false_eq_true, and_true])

end rotl
end AVLT

namespace AVLT

section frame
variable {K V : Type}

theorem frame_refl (A : List Nat) (w : World K V) : Frame A w w :=
  ⟨rfl, rfl, fun _ _ => rfl⟩

theorem frame_trans {A : List Nat} {w1 w2 w3 : World K V} (h1 : Frame A w1 w2)
    (h2 : Frame A w2 w3) : Frame A w1 w3 :=
  ⟨h2.1.trans h1.1, h2.2.1.trans h1.2.1, fun b hb => (h2.2.2 b hb).trans (h1.2.2 b hb)⟩

theorem frame_mono {A B : List Nat} {w1 w2 : World K V} (h : Frame A w1 w2)
    (hAB : ∀ a ∈ A, a ∈ B) : Frame B w1 w2 :=
  ⟨h.1, h.2.1, fun b hb => h.2.2 b (fun hA => hb (hAB b hA))⟩

theorem stored_of_frame {A : List Nat} {w1 w2 : World K V} {t : Tree K V} {s : Ptr}
    (h : Frame A w1 w2) (hd : ∀ a ∈ t.addrs, a ∉ A) (hst : Tree.Stored w1.mem t s) :
    Tree.Stored w2.mem t s :=
  stored_frame (fun a ha => h.2.2 a (hd a ha)) hst

theorem frame_write {A : List Nat} {w1 w2 : World K V} {sl : Slot} (x : Ptr)
    (h : Frame A w1 w2) (ho : sl.Outside A) : Frame A (sl.write x w1) (sl.write x w2) := by
  obtain ⟨h1, h2, h3⟩ := h
  cases sl with
  | root => exact ⟨by simp [h1], h2, h3⟩
  | left p =>
    refine ⟨h1, by simp [h2], fun b hb => ?_⟩
    simp only [write_left, rd_set, h3 p ho, h2, h3 b hb]
  | right p =>
    refine ⟨h1, by simp [h2], fun b hb => ?_⟩
    simp only [write_right, rd_set, h3 p ho, h2, h3 b hb]

theorem frame_write_of_holds {w : World K V} {sl : Slot} {x : Ptr} (h : sl.Holds w x) :
    Frame [] (sl.write x w) w := by
  cases sl with
  | root =>
    simp only [Slot.Holds] at h
    refine ⟨?_, rfl, fun _ _ => rfl⟩
    simp [← h]
  | left p =>
    obtain ⟨nP, hP, hx⟩ := h
    refine ⟨rfl, by simp, fun b _ => ?_⟩
    simp only [write_left, rd_set, hP, Option.map_some']
    split
    · rename_i hc; rw [← hc.1, hP, ← hx]
    · rfl
  | right p =>
    obtain ⟨nP, hP, hx⟩ := h
    refine ⟨rfl, by simp, fun b _ => ?_⟩
    simp only [write_right, rd_set, hP, Option.map_some']
    split
    · rename_i hc; rw [← hc.1, hP, ← hx]
    · rfl

theorem frame_symm_nil {w1 w2 : World K V} (h : Frame [] w1 w2) : Frame [] w2 w1 :=
  ⟨h.1.symm, h.2.1.symm, fun b hb => (h.2.2 b hb).symm⟩

theorem frame_write_inside_left {A : List Nat} {w : World K V} {a : Nat} (x : Ptr)
    (ha : a ∈ A) : Frame A w ((Slot.left a).write x w) := by
  refine ⟨rfl, by simp, fun b hb => ?_⟩
  have : a ≠ b := fun e => hb (e ▸ ha)
  simp [rd_set, this]

theorem frame_write_inside_right {A : List Nat} {w : World K V} {a : Nat} (x : Ptr)
    (ha : a ∈ A) : Frame A w ((Slot.right a).write x w) := by
  refine ⟨rfl, by simp, fun b hb => ?_⟩
  have : a ≠ b := fun e => hb (e ▸ ha)
  simp [rd_set, this]

end frame

section slotfacts
variable {K V : Type} [LinearOrder K]

theorem above_of_frame {A : List Nat} {w1 w2 : World K V} {sl : Slot} {ks : List K}
    (h : Frame A w1 w2) (ho : sl.Outside A) (ha : sl.Above w1 ks) : sl.Above w2 ks := by
  cases sl with
  | root => trivial
  | left p => obtain ⟨nP, hP, hk⟩ := ha; exact ⟨nP, by rw [h.2.2 p ho]; exact hP, hk⟩
  | right p => obtain ⟨nP, hP, hk⟩ := ha; exact ⟨nP, by rw [h.2.2 p ho]; exact hP, hk⟩

theorem above_mono {w : World K V} {sl : Slot} {ks ks2 : List K}
    (hsub : ∀ k ∈ ks2, k ∈ ks) (ha : sl.Above w ks) : sl.Above w ks2 := by
  cases sl with
  | root => trivial
  | left p => obtain ⟨nP, hP, hk⟩ := ha; exact ⟨nP, hP, fun k hk2 => hk k (hsub k hk2)⟩
  | right p => obtain ⟨nP, hP, hk⟩ := ha; exact ⟨nP, hP, fun k hk2 => hk k (hsub k hk2)⟩

omit [LinearOrder K] in
theorem outside_mono {sl : Slot} {A B : List Nat} (hsub : ∀ a ∈ B, a ∈ A)
    (h : sl.Outside A) : sl.Outside B := by
  cases sl with
  | root => trivial
  | left p => exact fun hb => h (hsub p hb)
  | right p => exact fun hb => h (hsub p hb)

omit [LinearOrder K] in
theorem succHt_of_frame {A : List Nat} {w1 w2 : World K V} {s : Ptr} {hs : Int}
    (h : Frame A w1 w2) (ho : ∀ a ∈ A, s ≠ some a) (hS : Tree.SuccHt w1.mem s hs) :
    Tree.SuccHt w2.mem s hs := by
  cases s with
  | none => exact hS
  | some b =>
    obtain ⟨nd, h1, h2⟩ := hS
    refine ⟨nd, ?_, h2⟩
    rw [h.2.2 b (fun hb => ho b hb rfl)]; exact h1

end slotfacts
end AVLT

namespace AVLT

section treefacts
variable {K V : Type}

theorem addrs_eq_map (t : Tree K V) : t.addrs = t.nodes.map (fun x => x.1) := by
  induction t with
  | nil => rfl
  | node a l k v h r ihl ihr => simp [Tree.addrs, Tree.nodes, ihl, ihr]

theorem keys_eq_map (t : Tree K V) : t.keys = t.nodes.map (fun x => x.2.1) := by
  induction t with
  | nil => rfl
  | node a l k v h r ihl ihr => simp [Tree.keys, Tree.nodes, ihl, ihr]

theorem toList_eq_map (t : Tree K V) : t.toList = t.nodes.map (fun x => x.2) := by
  induction t with
  | nil => rfl
  | node a l k v h r ihl ihr => simp [Tree.toList, Tree.nodes, ihl, ihr]

theorem nodes_rotR (t : Tree K V) : t.rotR.nodes = t.nodes := by
  cases t with
  | nil => rfl
  | node n l kn vn hn C =>
    cases l with
    | nil => rfl
    | node l A kl vl hl B => simp [Tree.nodes]

theorem nodes_rotL (hs : Int) (t : Tree K V) : (t.rotL hs).nodes = t.nodes := by
  cases t with
  | nil => rfl
  | node n A kn vn hn r =>
    cases r with
    | nil => rfl
    | node r B kr vr hr C => simp [Tree.nodes]

theorem addrs_rotR (t : Tree K V) : t.rotR.addrs = t.addrs := by
  rw [addrs_eq_map, addrs_eq_map, nodes_rotR]

theorem addrs_rotL (hs : Int) (t : Tree K V) : (t.rotL hs).addrs = t.addrs := by
  rw [addrs_eq_map, addrs_eq_map, nodes_rotL]

theorem keys_rotR (t : Tree K V) : t.rotR.keys = t.keys := by
  rw [keys_eq_map, keys_eq_map, nodes_rotR]

theorem keys_rotL (hs : Int) (t : Tree K V) : (t.rotL hs).keys = t.keys := by
  rw [keys_eq_map, keys_eq_map, nodes_rotL]

theorem nodup_node {a : Nat} {l r : Tree K V} {k : K} {v : V} {h : Int} :
    (Tree.node a l k v h r).addrs.Nodup ↔
      l.addrs.Nodup ∧ r.addrs.Nodup ∧ a ∉ l.addrs ∧ a ∉ r.addrs ∧
        ∀ x ∈ l.addrs, x ∉ r.addrs := by
  simp only [Tree.addrs, List.nodup_append, List.nodup_cons, List.Disjoint, List.mem_cons]
  constructor
  · rintro ⟨h1, ⟨h2, h3⟩, h5⟩
    exact ⟨h1, h3, fun hx => h5 hx (Or.inl rfl), h2, fun x hx hr => h5 hx (Or.inr hr)⟩
  · rintro ⟨h1, h2, h3, h4, h5⟩
    refine ⟨h1, ⟨h4, h2⟩, fun x hx hr => ?_⟩
    rcases hr with rfl | hr
    · exact h3 hx
    · exact h5 x hx hr

theorem mem_addrs_node {a b : Nat} {l r : Tree K V} {k : K} {v : V} {h : Int} :
    b ∈ (Tree.node a l k v h r).addrs ↔ b ∈ l.addrs ∨ b = a ∨ b ∈ r.addrs := by
  simp [Tree.addrs]

theorem mem_keys_node {a : Nat} {x : K} {l r : Tree K V} {k : K} {v : V} {h : Int} :
    x ∈ (Tree.node a l k v h r).keys ↔ x ∈ l.keys ∨ x = k ∨ x ∈ r.keys := by
  simp [Tree.keys]

end treefacts

section step
variable {K V : Type} [LinearOrder K]

omit [LinearOrder K] in
theorem wp_hL {w : World K V} {a : Nat} {l : Tree K V} {k : K} {v : V} {R : Ptr} {b : Bool}
    {h : Int} (hA : rd w.mem a = some ⟨k, v, l.ptr, R, b, h⟩) (hl : Tree.RootHt w.mem l)
    (Q : Int → World K V → Prop) : wp (insert.hL (some a)) Q w ↔ Q l.ht w := by
  cases l with
  | nil => simp [insert.hL, hA]
  | node la A kl vl hl0 B =>
    obtain ⟨nd, h1, h2⟩ := hl
    simp [insert.hL, hA, h1, h2]

omit [LinearOrder K] in
theorem wp_hR {w : World K V} {a : Nat} {r : Tree K V} {k : K} {v : V} {L s : Ptr}
    {h : Int} (hA : rd w.mem a = some ⟨k, v, L, r.rightPtr s, r.isNil, h⟩)
    (hr : Tree.RootHt w.mem r)
    (Q : Int → World K V → Prop) : wp (insert.hR (some a)) Q w ↔ Q r.ht w := by
  cases r with
  | nil => simp [insert.hR, hA]
  | node ra B kr vr hr0 C =>
    obtain ⟨nd, h1, h2⟩ := hr
    simp [insert.hR, hA, h1, h2]

theorem wp_rebalance_nil (n : Ptr) (Q : Unit → World K V → Prop) (w : World K V) :
    wp (insert.rebalance n []) Q w ↔ Q () w := by
  simp [insert.rebalance]

set_option maxHeartbeats 1000000 in
theorem wp_rebalance_cons {w : World K V} {sl : Slot} {a : Nat} {l r : Tree K V} {k : K}
    {v : V} {h : Int} {s : Ptr} {hs : Int} {key : K} {n : Nat} {nodes : List Ptr}
    (hst : Tree.Stored w.mem (.node a l k v h r) s)
    (hnd : (Tree.node a l k v h r).addrs.Nodup)
    (hkl : ∀ x ∈ l.keys, x < k) (hkr : ∀ x ∈ r.keys, k < x)
    (hab : sl.Above w (Tree.node a l k v h r).keys)
    (hout : sl.Outside (Tree.node a l k v h r).addrs)
    (hholds : sl.Holds w (some a))
    (hS : Tree.SuccHt w.mem s hs) (hSo : ∀ b ∈ (Tree.node a l k v h r).addrs, s ≠ some b)
    (hnext : insert.next nodes = sl.parent)
    (hn : ∃ nd, rd w.mem n = some nd ∧ nd.Key = key)
    (hsafe : Tree.StepSafe key (.node a l k v h r))
    (Q : Unit → World K V → Prop)
    (hQ : ∀ w', Tree.Stored w'.mem (Tree.rebalStep key hs (.node a l k v h r)).1 s →
      Frame (Tree.node a l k v h r).addrs
        (sl.write (Tree.rebalStep key hs (.node a l k v h r)).1.ptr w) w' →
      if (Tree.rebalStep key hs (.node a l k v h r)).2 = true
        then wp (insert.rebalance (some n) nodes) Q w' else Q () w') :
    wp (insert.rebalance (some n) (some a :: nodes)) Q w := by
  obtain ⟨ndn, hndn, hkey⟩ := hn
  have hst' := hst
  simp only [Tree.Stored] at hst'
  obtain ⟨hA, hL, hR⟩ := hst'
  have hlt_a := rd_lt hA
  have hLh := rootHt_of_stored hL
  have hRh := rootHt_of_stored hR
  have hfr0 : Frame (Tree.node a l k v h r).addrs (sl.write (some a) w) w :=
    frame_mono (frame_write_of_holds hholds) (by simp)
  obtain ⟨hndl, hndr, hal, har, hlr⟩ := nodup_node.mp hnd
  simp only [insert.rebalance]
  simp only [wp_bind, wp_hL hA hLh, wp_hR hA hRh, wp_load, wp_pure, hA, Option.some.injEq,
    exists_eq_left', wp_ite, hnext]
  simp only [Tree.rebalStep, gt_iff_lt] at hQ
  by_cases h1 : h = 1 + max l.ht r.ht
  · simp only [h1, if_true] at hQ ⊢
    have := hQ w (by rw [← h1]; exact hst) (by simpa using hfr0)
    simpa using this
  · simp only [h1, if_false] at hQ ⊢
    by_cases h2 : (if r.ht < l.ht then l.ht - r.ht else r.ht - l.ht) = 0 ∨
        (if r.ht < l.ht then l.ht - r.ht else r.ht - l.ht) = 1
    · simp only [h2, if_true] at hQ ⊢
      simp only [setHeight, wp_store, hA, Option.some.injEq, exists_eq_left']
      have := hQ ⟨w.mem.set a (some ⟨k, v, l.ptr, r.rightPtr s, r.isNil, 1 + max l.ht r.ht⟩), w.obj⟩
        (by simp [Tree.Stored, rd_set, hlt_a, stored_set, hal, har, hL, hR])
        (by
          refine frame_trans hfr0 ⟨rfl, by simp, fun b hb => ?_⟩
          have : a ≠ b := by rintro rfl; simp [Tree.addrs] at hb
          simp [rd_set, this])
      simpa using this
    · simp only [h2, if_false] at hQ ⊢
      simp only [Tree.StepSafe, gt_iff_lt, h1, h2, false_or] at hsafe
      by_cases h3 : r.ht < l.ht
      · simp only [h3, if_true] at hQ hsafe
        simp only [gt_iff_lt, h3, if_true]
        obtain ⟨la, A, kl, vl, hl, B, rfl, hB⟩ := hsafe
        have hL' := hL
        simp only [Tree.Stored] at hL'
        obtain ⟨hLc, hLA, hLB⟩ := hL'
        simp only [hndn, ptr_node, wp_load, hLc, hA, Option.some.injEq, exists_eq_left', hkey,
          key_node, Option.any_some, decide_eq_true_eq] at hQ ⊢
        by_cases h4 : key < kl
        · simp only [h4, if_true] at hQ ⊢
          refine wp_RightRotate sl hst hnd (above_mono ?_ hab) hout Q (fun w' hst' hfr => ?_)
          · simp [Tree.keys]
          · have := hQ w' hst' (by simpa using hfr)
            simpa using this
        · simp only [h4, if_false] at hQ ⊢
          have hBn := hB h4
          cases B with
          | nil => simp at hBn
          | node rb B1 kb vb hb B2 =>
            have hkb : kb < k := hkl kb (by simp [Tree.keys])
            have habl : (Slot.left a).Above w [kb] :=
              ⟨_, hA, fun x hx => by simp at hx; rw [hx]; exact hkb⟩
            have hSl : Tree.SuccHt w.mem (some a) h := ⟨_, hA, rfl⟩
            have hala : a ≠ la := by rintro rfl; exact hal (by simp [Tree.addrs])
            have harb : a ≠ rb := by rintro rfl; exact hal (by simp [Tree.addrs])
            refine wp_LeftRotate (Slot.left a) hL hndl habl hal hSl (by simpa using hala)
              (by simpa using harb) _ (fun w1 hst1 hfr1 => ?_)
            have hfr1' : Frame (Tree.node a (.node la A kl vl hl (.node rb B1 kb vb hb B2)) k v h r).addrs
                w w1 :=
              frame_trans (frame_write_inside_left (some rb) (by simp [Tree.addrs]))
                (frame_mono hfr1 (by intro x hx; simp [Tree.addrs] at hx ⊢; tauto))
            have hA1 : rd w1.mem a = some ⟨k, v, some rb, r.rightPtr s, r.isNil, h⟩ := by
              rw [hfr1.2.2 a hal]
              simp [rd_set, hlt_a, hA]
            have hst1' : Tree.Stored w1.mem
                (.node a (Tree.rotL h (.node la A kl vl hl (.node rb B1 kb vb hb B2))) k v h r) s := by
              refine ⟨by simpa using hA1, hst1, ?_⟩
              refine stored_of_frame hfr1 (fun x hx hx2 => hlr x hx2 hx) ?_
              exact (stored_set har).mpr hR
            have hadd : (Tree.node a (Tree.rotL h (.node la A kl vl hl (.node rb B1 kb vb hb B2)))
                k v h r).addrs
                = (Tree.node a (.node la A kl vl hl (.node rb B1 kb vb hb B2)) k v h r).addrs := by
              rw [Tree.addrs, addrs_rotL, ← Tree.addrs]
            have hnd1 : (Tree.node a (Tree.rotL h (.node la A kl vl hl (.node rb B1 kb vb hb B2)))
                k v h r).addrs.Nodup := by rw [hadd]; exact hnd
            have hab1 : sl.Above w1 [kb] :=
              above_of_frame hfr1' hout (above_mono (by simp [Tree.keys]) hab)
            rw [rotL_node_node] at hst1' hnd1 hadd
            refine wp_RightRotate sl hst1' hnd1 hab1 (by rw [hadd]; exact hout) Q
              (fun w2 hst2 hfr2 => ?_)
            rw [hadd] at hfr2
            have := hQ w2 (by simpa using hst2)
              (by simpa using frame_trans (frame_write (some rb) hfr1' hout) hfr2)
            simpa using this
      · simp only [h3, if_false] at hQ hsafe
        simp only [gt_iff_lt, h3, if_false]
        obtain ⟨ra, B, kr, vr, hr, C, rfl, hB⟩ := hsafe
        have hR' := hR
        simp only [Tree.Stored] at hR'
        obtain ⟨hRc, hRB, hRC⟩ := hR'
        simp only [hndn, rightPtr_node, isNil_node, wp_load, hRc, hA, Option.some.injEq,
          exists_eq_left', hkey, key_node, Option.any_some, decide_eq_true_eq] at hQ ⊢
        have hsa : s ≠ some a := hSo a (by simp [Tree.addrs])
        by_cases h4 : key < kr
        · simp only [h4, if_true] at hQ ⊢
          have hBn := hB h4
          cases B with
          | nil => simp at hBn
          | node rb B1 kb vb hb B2 =>
            have hkb : k < kb := hkr kb (by simp [Tree.keys])
            have habr : (Slot.right a).Above w [kb] :=
              ⟨_, hA, fun x hx => by simp at hx; rw [hx]; exact hkb⟩
            refine wp_RightRotate (Slot.right a) hR hndr habr har _ (fun w1 hst1 hfr1 => ?_)
            have hfr1' : Frame (Tree.node a l k v h (.node ra (.node rb B1 kb vb hb B2) kr vr hr C)).addrs
                w w1 :=
              frame_trans (frame_write_inside_right (some rb) (by simp [Tree.addrs]))
                (frame_mono hfr1 (by intro x hx; simp [Tree.addrs] at hx ⊢; tauto))
            have hA1 : rd w1.mem a = some ⟨k, v, l.ptr, some rb, false, h⟩ := by
              rw [hfr1.2.2 a har]
              simp [rd_set, hlt_a, hA]
            have hst1' : Tree.Stored w1.mem
                (.node a l k v h (Tree.rotR (.node ra (.node rb B1 kb vb hb B2) kr vr hr C))) s := by
              refine ⟨by simpa using hA1, ?_, hst1⟩
              refine stored_of_frame hfr1 (fun x hx hx2 => hlr x hx hx2) ?_
              exact (stored_set hal).mpr hL
            have hadd : (Tree.node a l k v h
                (Tree.rotR (.node ra (.node rb B1 kb vb hb B2) kr vr hr C))).addrs
                = (Tree.node a l k v h (.node ra (.node rb B1 kb vb hb B2) kr vr hr C)).addrs := by
              rw [Tree.addrs, addrs_rotR, ← Tree.addrs]
            have hnd1 : (Tree.node a l k v h
                (Tree.rotR (.node ra (.node rb B1 kb vb hb B2) kr vr hr C))).addrs.Nodup := by
              rw [hadd]; exact hnd
            have hab1 : sl.Above w1 [kb] :=
              above_of_frame hfr1' hout (above_mono (by simp [Tree.keys]) hab)
            have hS1 : Tree.SuccHt w1.mem s hs := succHt_of_frame hfr1' hSo hS
            have hsrb : s ≠ some rb := hSo rb (by simp [Tree.addrs])
            rw [rotR_node_node] at hst1' hnd1 hadd
            refine wp_LeftRotate sl hst1' hnd1 hab1 (by rw [hadd]; exact hout) hS1 hsa hsrb Q
              (fun w2 hst2 hfr2 => ?_)
            rw [hadd] at hfr2
            have := hQ w2 (by simpa using hst2)
              (by simpa using frame_trans (frame_write (some rb) hfr1' hout) hfr2)
            simpa using this
        · simp only [h4, if_false] at hQ ⊢
          have hsra : s ≠ some ra := hSo ra (by simp [Tree.addrs])
          refine wp_LeftRotate sl hst hnd (above_mono ?_ hab) hout hS hsa hsra Q
            (fun w' hst' hfr => ?_)
          · simp [Tree.keys]
          · have := hQ w' hst' (by simpa using hfr)
            simpa using this

end step
end AVLT

namespace AVLT

section more
variable {K V : Type}

theorem holds_of_frame {A : List Nat} {w1 w2 : World K V} {sl : Slot} {x : Ptr}
    (h : Frame A w1 w2) (ho : sl.Outside A) (hh : sl.Holds w1 x) : sl.Holds w2 x := by
  cases sl with
  | root => simp only [Slot.Holds] at hh ⊢; rw [h.1]; exact hh
  | left p => obtain ⟨nP, hP, hx⟩ := hh; exact ⟨nP, by rw [h.2.2 p ho]; exact hP, hx⟩
  | right p => obtain ⟨nP, hP, hx⟩ := hh; exact ⟨nP, by rw [h.2.2 p ho]; exact hP, hx⟩

theorem stored_node {H : Mem K V} {t : Tree K V} {s : Ptr} (h : Tree.Stored H t s)
    {a : Nat} {k : K} {v : V} (hm : (a, k, v) ∈ t.nodes) :
    ∃ nd, rd H a = some nd ∧ nd.Key = k ∧ nd.Value = v := by
  induction t generalizing s with
  | nil => simp [Tree.nodes] at hm
  | node b l k0 v0 h0 r ihl ihr =>
    simp only [Tree.nodes, List.mem_append, List.mem_cons, Prod.mk.injEq] at hm
    rcases hm with hm | ⟨rfl, rfl, rfl⟩ | hm
    · exact ihl h.2.1 hm
    · exact ⟨_, h.1, rfl, rfl⟩
    · exact ihr h.2.2 hm

theorem isNil_of_nodes {t : Tree K V} : t.isNil = true ↔ t.nodes = [] := by
  cases t <;> simp [Tree.nodes]

theorem mem_nodes_key {t : Tree K V} {a : Nat} {k : K} {v : V} (h : (a, k, v) ∈ t.nodes) :
    k ∈ t.keys := by
  rw [keys_eq_map]
  exact List.mem_map.mpr ⟨_, h, rfl⟩

theorem mem_nodes_addr {t : Tree K V} {a : Nat} {k : K} {v : V} (h : (a, k, v) ∈ t.nodes) :
    a ∈ t.addrs := by
  rw [addrs_eq_map]
  exact List.mem_map.mpr ⟨_, h, rfl⟩

end more

section bst
variable {K V : Type} [LinearOrder K]

theorem bst_node {a : Nat} {l r : Tree K V} {k : K} {v : V} {h : Int} :
    (Tree.node a l k v h r).BST ↔
      l.BST ∧ r.BST ∧ (∀ x ∈ l.keys, x < k) ∧ (∀ x ∈ r.keys, k < x) := by
  simp only [Tree.BST, Tree.keys, List.pairwise_append, List.pairwise_cons, List.mem_cons]
  constructor
  · rintro ⟨h1, ⟨h2, h3⟩, h4⟩
    exact ⟨h1, h3, fun x hx => h4 x hx k (Or.inl rfl), h2⟩
  · rintro ⟨h1, h2, h3, h4⟩
    refine ⟨h1, ⟨h4, h2⟩, fun x hx y hy => ?_⟩
    rcases hy with rfl | hy
    · exact h3 x hx
    · exact lt_trans (h3 x hx) (h4 y hy)

theorem nodes_rebalStep (key : K) (hs : Int) (t : Tree K V) :
    (Tree.rebalStep key hs t).1.nodes = t.nodes := by
  cases t with
  | nil => rfl
  | node a l k v h r =>
    simp only [Tree.rebalStep]
    split_ifs <;>
      simp only [nodes_rotR, nodes_rotL, Tree.nodes]

theorem nodes_rebalance (key : K) (hs : Int) (t : Tree K V) :
    (Tree.rebalance key hs t).1.nodes = t.nodes := by
  induction t generalizing hs with
  | nil => rfl
  | node a l k v h r ihl ihr =>
    simp only [Tree.rebalance]
    split_ifs <;>
      simp only [nodes_rebalStep, Tree.nodes, ihl, ihr]

theorem addrs_rebalance (key : K) (hs : Int) (t : Tree K V) :
    (Tree.rebalance key hs t).1.addrs = t.addrs := by
  rw [addrs_eq_map, addrs_eq_map, nodes_rebalance]

theorem keys_rebalance (key : K) (hs : Int) (t : Tree K V) :
    (Tree.rebalance key hs t).1.keys = t.keys := by
  rw [keys_eq_map, keys_eq_map, nodes_rebalance]

set_option maxHeartbeats 1000000 in
theorem wp_rebalance_path (key : K) (val : V) (n : Nat) (t : Tree K V) :
    ∀ (w : World K V) (sl : Slot) (s : Ptr) (hs : Int) (acc : List Ptr)
      (Q : Unit → World K V → Prop),
      Tree.Stored w.mem t s → t.addrs.Nodup → t.BST →
      sl.Above w t.keys → sl.Outside t.addrs → sl.Holds w t.ptr →
      Tree.SuccHt w.mem s hs → (∀ b ∈ t.addrs, s ≠ some b) →
      insert.next acc = sl.parent →
      (n, key, val) ∈ t.nodes →
      Tree.PathSafe key hs t →
      (∀ w', Tree.Stored w'.mem (Tree.rebalance key hs t).1 s →
        Frame t.addrs (sl.write (Tree.rebalance key hs t).1.ptr w) w' →
        if (Tree.rebalance key hs t).2 = true
          then wp (insert.rebalance (some n) acc) Q w' else Q () w') →
      wp (insert.rebalance (some n) (t.path key acc)) Q w := by
  induction t with
  | nil =>
    intro w sl s hs acc Q _ _ _ _ _ _ _ _ _ hn
    simp [Tree.nodes] at hn
  | node a l k v h r ihl ihr =>
    intro w sl s hs acc Q hst hnd hbst hab hout hholds hS hSo hnext hn hsafe hQ
    obtain ⟨hndl, hndr, hal, har, hlr⟩ := nodup_node.mp hnd
    obtain ⟨hbl, hbr, hkl, hkr⟩ := bst_node.mp hbst
    have hst' := hst
    simp only [Tree.Stored] at hst'
    obtain ⟨hA, hL, hR⟩ := hst'
    have hlt_a := rd_lt hA
    have hfr0 : Frame (Tree.node a l k v h r).addrs (sl.write (some a) w) w :=
      frame_mono (frame_write_of_holds hholds) (by simp)
    simp only [Tree.path]
    simp only [Tree.rebalance] at hQ
    simp only [Tree.PathSafe] at hsafe
    by_cases hk1 : key = k
    · simp only [hk1, if_true] at hQ ⊢
      have := hQ w hst (by simpa using hfr0)
      simpa using this
    · simp only [hk1, if_false] at hQ hsafe ⊢
      simp only [Tree.nodes, List.mem_append, List.mem_cons, Prod.mk.injEq] at hn
      by_cases hk2 : key < k
      · simp only [hk2, if_true] at hQ hsafe ⊢
        have hnl : (n, key, val) ∈ l.nodes := by
          rcases hn with hn | ⟨_, rfl, _⟩ | hn
          · exact hn
          · exact absurd rfl hk1
          · exact absurd (hkr key (mem_nodes_key hn)) (not_lt.mpr (le_of_lt hk2))
        refine ihl w (Slot.left a) (some a) h (some a :: acc) Q hL hndl hbl
          ⟨_, hA, hkl⟩ hal ⟨_, hA, rfl⟩ ⟨_, hA, rfl⟩
          (fun b hb => by rintro ⟨rfl⟩; exact hal hb) rfl hnl hsafe.1 (fun w1 hst1 hfr1 => ?_)
        have hnl' : (n, key, val) ∈ (Tree.rebalance key h l).1.nodes := by
          rw [nodes_rebalance]; exact hnl
        have hfrW : Frame (Tree.node a l k v h r).addrs w w1 :=
          frame_trans (frame_write_inside_left _ (by simp [Tree.addrs]))
            (frame_mono hfr1 (by intro x hx; simp [Tree.addrs]; tauto))
        have hA1 : rd w1.mem a
            = some ⟨k, v, (Tree.rebalance key h l).1.ptr, r.rightPtr s, r.isNil, h⟩ := by
          rw [hfr1.2.2 a hal]
          simp [rd_set, hlt_a, hA]
        have hstT : Tree.Stored w1.mem (.node a (Tree.rebalance key h l).1 k v h r) s := by
          refine ⟨hA1, hst1, ?_⟩
          refine stored_of_frame hfr1 (fun x hx hx2 => hlr x hx2 hx) ?_
          exact (stored_set har).mpr hR
        have hadd : (Tree.node a (Tree.rebalance key h l).1 k v h r).addrs
            = (Tree.node a l k v h r).addrs := by
          rw [Tree.addrs, addrs_rebalance, ← Tree.addrs]
        have hkeys : (Tree.node a (Tree.rebalance key h l).1 k v h r).keys
            = (Tree.node a l k v h r).keys := by
          rw [Tree.keys, keys_rebalance, ← Tree.keys]
        by_cases hc : (Tree.rebalance key h l).2 = true
        · simp only [hc, if_true] at hQ ⊢
          refine wp_rebalance_cons hstT (by rw [hadd]; exact hnd)
            (by rw [keys_rebalance]; exact hkl) hkr
            (by rw [hkeys]; exact above_of_frame hfrW hout hab)
            (by rw [hadd]; exact hout) (holds_of_frame hfrW hout hholds)
            (succHt_of_frame hfrW hSo hS) (by rw [hadd]; exact hSo) hnext
            (by obtain ⟨nd, h1, h2, _⟩ := stored_node hst1 hnl'; exact ⟨nd, h1, h2⟩)
            (hsafe.2 hc) Q (fun w2 hst2 hfr2 => ?_)
          rw [hadd] at hfr2
          exact hQ w2 hst2 (frame_trans (frame_write _ hfrW hout) hfr2)
        · simp only [hc, if_false] at hQ ⊢
          have := hQ w1 hstT (by simpa using frame_trans hfr0 hfrW)
          simpa using this
      · simp only [hk2, if_false] at hQ hsafe ⊢
        have hnr : (n, key, val) ∈ r.nodes := by
          rcases hn with hn | ⟨_, rfl, _⟩ | hn
          · exact absurd (hkl key (mem_nodes_key hn)) hk2
          · exact absurd rfl hk1
          · exact hn
        have hnr' : (n, key, val) ∈ (Tree.rebalance key hs r).1.nodes := by
          rw [nodes_rebalance]; exact hnr
        have hrn : r.isNil = false := by
          cases r with
          | nil => simp [Tree.nodes] at hnr
          | node _ _ _ _ _ _ => rfl
        have hrn' : (Tree.rebalance key hs r).1.isNil = false := by
          cases hr' : (Tree.rebalance key hs r).1 with
          | nil => rw [hr'] at hnr'; simp [Tree.nodes] at hnr'
          | node _ _ _ _ _ _ => rfl
        have hrp : r.rightPtr s = r.ptr := rightPtr_of_not_isNil (by simp [hrn])
        have hrp' : (Tree.rebalance key hs r).1.rightPtr s = (Tree.rebalance key hs r).1.ptr :=
          rightPtr_of_not_isNil (by simp [hrn'])
        refine ihr w (Slot.right a) s hs (some a :: acc) Q hR hndr hbr
          ⟨_, hA, hkr⟩ har ⟨_, hA, hrp⟩ hS
          (fun b hb => hSo b (by simp [Tree.addrs, hb])) rfl hnr hsafe.1 (fun w1 hst1 hfr1 => ?_)
        have hfrW : Frame (Tree.node a l k v h r).addrs w w1 :=
          frame_trans (frame_write_inside_right _ (by simp [Tree.addrs]))
            (frame_mono hfr1 (by intro x hx; simp [Tree.addrs]; tauto))
        have hA1 : rd w1.mem a
            = some ⟨k, v, l.ptr, (Tree.rebalance key hs r).1.rightPtr s,
                (Tree.rebalance key hs r).1.isNil, h⟩ := by
          rw [hfr1.2.2 a har, hrp', hrn']
          simp [rd_set, hlt_a, hA, hrn]
        have hstT : Tree.Stored w1.mem (.node a l k v h (Tree.rebalance key hs r).1) s := by
          refine ⟨hA1, ?_, hst1⟩
          refine stored_of_frame hfr1 (fun x hx hx2 => hlr x hx hx2) ?_
          exact (stored_set hal).mpr hL
        have hadd : (Tree.node a l k v h (Tree.rebalance key hs r).1).addrs
            = (Tree.node a l k v h r).addrs := by
          rw [Tree.addrs, addrs_rebalance, ← Tree.addrs]
        have hkeys : (Tree.node a l k v h (Tree.rebalance key hs r).1).keys
            = (Tree.node a l k v h r).keys := by
          rw [Tree.keys, keys_rebalance, ← Tree.keys]
        by_cases hc : (Tree.rebalance key hs r).2 = true
        · simp only [hc, if_true] at hQ ⊢
          refine wp_rebalance_cons hstT (by rw [hadd]; exact hnd) hkl
            (by rw [keys_rebalance]; exact hkr)
            (by rw [hkeys]; exact above_of_frame hfrW hout hab)
            (by rw [hadd]; exact hout) (holds_of_frame hfrW hout hholds)
            (succHt_of_frame hfrW hSo hS) (by rw [hadd]; exact hSo) hnext
            (by obtain ⟨nd, h1, h2, _⟩ := stored_node hst1 hnr'; exact ⟨nd, h1, h2⟩)
            (hsafe.2 hc) Q (fun w2 hst2 hfr2 => ?_)
          rw [hadd] at hfr2
          exact hQ w2 hst2 (frame_trans (frame_write _ hfrW hout) hfr2)
        · simp only [hc, if_false] at hQ ⊢
          have := hQ w1 hstT (by simpa using frame_trans hfr0 hfrW)
          simpa using this

end bst
end AVLT

namespace AVLT

section descend
variable {K V : Type} [LinearOrder K]

omit [LinearOrder K] in
theorem wp_getActualLeft {w : World K V} {a : Nat} {nd : NODE K V} (h : rd w.mem a = some nd)
    (Q : Ptr → World K V → Prop) : wp (_getActualLeft (some a)) Q w ↔ Q nd.Left w := by
  simp [_getActualLeft, h]

omit [LinearOrder K] in
theorem wp_getActualRight {w : World K V} {a : Nat} {k : K} {v : V} {L s : Ptr} {h : Int}
    {r : Tree K V} (hA : rd w.mem a = some ⟨k, v, L, r.rightPtr s, r.isNil, h⟩)
    (Q : Ptr → World K V → Prop) : wp (_getActualRight (some a)) Q w ↔ Q r.ptr w := by
  cases r <;> simp [_getActualRight, hA]

omit [LinearOrder K] in
theorem size_pos_iff {t : Tree K V} : 0 < t.size ↔ t.isNil = false := by
  cases t <;> simp [Tree.size]

theorem mem_keys_left {a : Nat} {l r : Tree K V} {k key : K} {v : V} {h : Int}
    (hb : (Tree.node a l k v h r).BST) (hlt : key < k) :
    key ∈ (Tree.node a l k v h r).keys ↔ key ∈ l.keys := by
  obtain ⟨_, _, hkl, hkr⟩ := bst_node.mp hb
  rw [mem_keys_node]
  constructor
  · rintro (h1 | rfl | h1)
    · exact h1
    · exact absurd hlt (lt_irrefl _)
    · exact absurd (hkr key h1) (not_lt.mpr (le_of_lt hlt))
  · exact Or.inl

theorem mem_keys_right {a : Nat} {l r : Tree K V} {k key : K} {v : V} {h : Int}
    (hb : (Tree.node a l k v h r).BST) (hne : key ≠ k) (hlt : ¬ key < k) :
    key ∈ (Tree.node a l k v h r).keys ↔ key ∈ r.keys := by
  obtain ⟨_, _, hkl, hkr⟩ := bst_node.mp hb
  rw [mem_keys_node]
  constructor
  · rintro (h1 | rfl | h1)
    · exact absurd (hkl key h1) hlt
    · exact absurd rfl hne
    · exact h1
  · exact fun h1 => Or.inr (Or.inr h1)

theorem wp_insert_descend (key : K) (t : Tree K V) :
    ∀ (w : World K V) (s : Ptr) (fuel : Nat) (prev : Ptr) (nodes : List Ptr)
      (Q : Option (Ptr × List Ptr) → World K V → Prop),
      Tree.Stored w.mem t s → t.BST → t.size < fuel →
      (if key ∈ t.keys then Q none w
        else Q (some (t.last key prev, t.path key nodes)) w) →
      wp (insert.descend key fuel t.ptr prev nodes) Q w := by
  induction t with
  | nil =>
    intro w s fuel prev nodes Q _ _ hf hQ
    obtain ⟨f, rfl⟩ : ∃ f, fuel = f + 1 := ⟨fuel - 1, by omega⟩
    simpa [insert.descend, Tree.keys, Tree.last, Tree.path] using hQ
  | node a l k v h r ihl ihr =>
    intro w s fuel prev nodes Q hst hb hf hQ
    obtain ⟨f, rfl⟩ : ∃ f, fuel = f + 1 := ⟨fuel - 1, by omega⟩
    obtain ⟨hbl, hbr, hkl, hkr⟩ := bst_node.mp hb
    obtain ⟨hA, hL, hR⟩ := hst
    simp only [Tree.size] at hf
    simp only [insert.descend, ptr_node, reduceCtorEq, if_false, wp_bind, wp_load, hA,
      Option.some.injEq, exists_eq_left', wp_ite, wp_pure, wp_getActualLeft hA,
      wp_getActualRight hA]
    simp only [Tree.last, Tree.path] at hQ
    by_cases hk1 : key = k
    · simp only [hk1, if_true] at hQ ⊢
      simpa [Tree.keys] using hQ
    · simp only [hk1, if_false] at hQ ⊢
      by_cases hk2 : key < k
      · simp only [hk2, if_true] at hQ ⊢
        simp only [mem_keys_left hb hk2] at hQ
        exact ihl w (some a) f (some a) (some a :: nodes) Q hL hbl (by omega) hQ
      · simp only [hk2, if_false] at hQ ⊢
        simp only [mem_keys_right hb hk1 hk2] at hQ
        exact ihr w s f (some a) (some a :: nodes) Q hR hbr (by omega) hQ

omit [LinearOrder K] in
theorem size_eq_length (t : Tree K V) : t.size = t.addrs.length := by
  induction t with
  | nil => rfl
  | node a l k v h0 r ihl ihr =>
    simp only [Tree.size, Tree.addrs, List.length_append, List.length_cons, ihl, ihr]; omega

omit [LinearOrder K] in
theorem size_le_length {H : Mem K V} {t : Tree K V} {s : Ptr} (h : Tree.Stored H t s)
    (hnd : t.addrs.Nodup) : t.size ≤ H.length := by
  have h2 : t.addrs ⊆ List.range H.length := by
    intro a ha
    exact List.mem_range.mpr (stored_lt h a ha)
  have := (List.subperm_of_subset hnd h2).length_le
  simpa [size_eq_length] using this

theorem ptr_link {key : K} {val : V} {h0 : Int} {a : Nat} {t : Tree K V}
    (h : t.isNil = false) : (Tree.link key val h0 a t).ptr = t.ptr := by
  cases t with
  | nil => simp at h
  | node b l k v h1 r =>
    simp only [Tree.link]
    split_ifs <;> rfl

theorem isNil_link (key : K) (val : V) (h0 : Int) (a : Nat) (t : Tree K V) :
    (Tree.link key val h0 a t).isNil = false := by
  cases t with
  | nil => rfl
  | node b l k v h1 r =>
    simp only [Tree.link]
    split_ifs <;> rfl

omit [LinearOrder K] in
theorem stored_leaf {H : Mem K V} {a : Nat} {k : K} {v : V} {h : Int} {s : Ptr} :
    Tree.Stored H (.node a .nil k v h .nil) s ↔ rd H a = some ⟨k, v, none, s, true, h⟩ := by
  simp [Tree.Stored]

set_option maxHeartbeats 1000000 in
theorem wp_link (key : K) (val : V) (h0 : Int) (a : Nat) (t : Tree K V) :
    ∀ (w : World K V) (s : Ptr) (p0 : Ptr) (Q : Unit → World K V → Prop),
      t.isNil = false →
      Tree.Stored w.mem t s → t.addrs.Nodup → key ∉ t.keys → a ∉ t.addrs →
      rd w.mem a = some ⟨key, val, none, none, true, h0⟩ →
      (∀ w', Tree.Stored w'.mem (Tree.link key val h0 a t) s →
        Frame (a :: t.addrs) w w' → Q () w') →
      wp (insert.link key (t.last key p0) (some a)) Q w := by
  induction t with
  | nil => intro w s p0 Q h; simp at h
  | node b l k v h r ihl ihr =>
    intro w s p0 Q _ hst hnd hkey ha hN hQ
    obtain ⟨hndl, hndr, hbl, hbr, hlr⟩ := nodup_node.mp hnd
    obtain ⟨hB, hL, hR⟩ := hst
    simp only [mem_keys_node, not_or] at hkey
    simp only [mem_addrs_node, not_or] at ha
    obtain ⟨hal, hab, har⟩ := ha
    have hba : b ≠ a := Ne.symm hab
    have hlt_b := rd_lt hB
    have hlt_a := rd_lt hN
    simp only [Tree.last, Tree.link, hkey.2.1, if_false] at hQ ⊢
    by_cases hk2 : key < k
    · simp only [hk2, if_true] at hQ ⊢
      cases hl : l.isNil with
      | true =>
        have hl' := eq_nil_of_isNil hl
        subst hl'
        simp only [Tree.last, insert.link, reduceCtorEq, if_false, wp_bind, wp_load, hB,
          Option.some.injEq, exists_eq_left', hk2, if_true, setLeft, setRight, wp_store,
          rd_set, hba, hab, false_and, hN, Tree.link, ptr_nil]
        refine hQ _ ?_ ?_
        · simp [Tree.Stored, Tree.link, rd_set, hba, hab, hlt_a, hlt_b, stored_set, har, hbr, hR]
        · refine ⟨rfl, by simp, fun x hx => ?_⟩
          simp only [List.mem_cons, mem_addrs_node, not_or] at hx
          simp [rd_set, hx, Ne.symm hx.1, Ne.symm hx.2.2.1]
      | false =>
        refine ihl w (some b) (some b) Q hl hL hndl hkey.1 hal hN (fun w' hst' hfr => ?_)
        refine hQ w' ⟨?_, hst', ?_⟩ (frame_mono hfr (by intro x hx; simp [Tree.addrs] at hx ⊢; tauto))
        · rw [hfr.2.2 b (by simp [hba, hbl]), ptr_link hl]; exact hB
        · exact stored_of_frame hfr (fun x hx hx2 => by
            simp only [List.mem_cons] at hx2
            rcases hx2 with rfl | hx2
            · exact har hx
            · exact hlr x hx2 hx) hR
    · simp only [hk2, if_false] at hQ ⊢
      cases hr : r.isNil with
      | true =>
        have hr' := eq_nil_of_isNil hr
        subst hr'
        simp only [Tree.last, insert.link, reduceCtorEq, if_false, wp_bind, wp_load, hB,
          Option.some.injEq, exists_eq_left', hk2, if_false, setLeft, setRight, setThreaded,
          wp_store, rd_set, hba, hab, false_and, true_and, and_self, hN, Tree.link,
          rightPtr_nil, isNil_nil, hlt_a, hlt_b, List.length_set, if_true]
        refine hQ _ ?_ ?_
        · simp [Tree.Stored, Tree.link, rd_set, hba, hab, hlt_a, hlt_b, stored_set, hal, hbl, hL]
        · refine ⟨rfl, by simp, fun x hx => ?_⟩
          simp only [List.mem_cons, mem_addrs_node, not_or] at hx
          simp [rd_set, hx, Ne.symm hx.1, Ne.symm hx.2.2.1]
      | false =>
        refine ihr w s (some b) Q hr hR hndr hkey.2.2 har hN (fun w' hst' hfr => ?_)
        refine hQ w' ⟨?_, ?_, hst'⟩ (frame_mono hfr (by intro x hx; simp [Tree.addrs] at hx ⊢; tauto))
        · have e1 : (Tree.link key val h0 a r).rightPtr s = r.rightPtr s := by
            rw [rightPtr_of_not_isNil (by simp [isNil_link]), ptr_link hr,
              rightPtr_of_not_isNil (by simp [hr])]
          rw [hfr.2.2 b (by simp [hba, hbr]), e1, isNil_link, ← hr]; exact hB
        · exact stored_of_frame hfr (fun x hx hx2 => by
            simp only [List.mem_cons] at hx2
            rcases hx2 with rfl | hx2
            · exact hal hx
            · exact hlr x hx hx2) hL

end descend

end AVLT

namespace AVLT

section linkfacts
variable {K V : Type} [LinearOrder K]

theorem nodes_link_perm (key : K) (val : V) (h0 : Int) (a : Nat) (t : Tree K V)
    (hk : key ∉ t.keys) :
    (Tree.link key val h0 a t).nodes.Perm ((a, key, val) :: t.nodes) := by
  induction t with
  | nil => simp [Tree.link, Tree.nodes]
  | node b l k v h r ihl ihr =>
    simp only [mem_keys_node, not_or] at hk
    simp only [Tree.link, hk.2.1, if_false]
    split_ifs
    · simp only [Tree.nodes]
      exact ((ihl hk.1).append_right _).trans (by simp)
    · simp only [Tree.nodes]
      refine (List.Perm.append_left _ ((ihr hk.2.2).cons _)).trans ?_
      refine (List.Perm.append_left _ (List.Perm.swap _ _ _)).trans ?_
      exact List.perm_middle

theorem mem_nodes_link (key : K) (val : V) (h0 : Int) (a : Nat) (t : Tree K V)
    (hk : key ∉ t.keys) : (a, key, val) ∈ (Tree.link key val h0 a t).nodes :=
  (nodes_link_perm key val h0 a t hk).symm.subset (by simp)

theorem addrs_link_perm (key : K) (val : V) (h0 : Int) (a : Nat) (t : Tree K V)
    (hk : key ∉ t.keys) : (Tree.link key val h0 a t).addrs.Perm (a :: t.addrs) := by
  rw [addrs_eq_map, addrs_eq_map]
  exact (nodes_link_perm key val h0 a t hk).map _

theorem keys_link_perm (key : K) (val : V) (h0 : Int) (a : Nat) (t : Tree K V)
    (hk : key ∉ t.keys) : (Tree.link key val h0 a t).keys.Perm (key :: t.keys) := by
  rw [keys_eq_map, keys_eq_map]
  exact (nodes_link_perm key val h0 a t hk).map _

theorem nodup_link {key : K} {val : V} {h0 : Int} {a : Nat} {t : Tree K V}
    (hk : key ∉ t.keys) (ha : a ∉ t.addrs) (hnd : t.addrs.Nodup) :
    (Tree.link key val h0 a t).addrs.Nodup :=
  (addrs_link_perm key val h0 a t hk).nodup_iff.mpr (List.nodup_cons.mpr ⟨ha, hnd⟩)

theorem bst_link {key : K} {val : V} {h0 : Int} {a : Nat} {t : Tree K V}
    (hk : key ∉ t.keys) (hb : t.BST) : (Tree.link key val h0 a t).BST := by
  induction t with
  | nil => simp [Tree.link, Tree.BST, Tree.keys]
  | node b l k v h r ihl ihr =>
    simp only [mem_keys_node, not_or] at hk
    obtain ⟨hbl, hbr, hkl, hkr⟩ := bst_node.mp hb
    simp only [Tree.link, hk.2.1, if_false]
    split_ifs with hlt
    · refine bst_node.mpr ⟨ihl hk.1 hbl, hbr, fun x hx => ?_, hkr⟩
      rcases List.mem_cons.mp ((keys_link_perm key val h0 a l hk.1).subset hx) with rfl | hx
      · exact hlt
      · exact hkl x hx
    · refine bst_node.mpr ⟨hbl, ihr hk.2.2 hbr, hkl, fun x hx => ?_⟩
      rcases List.mem_cons.mp ((keys_link_perm key val h0 a r hk.2.2).subset hx) with rfl | hx
      · exact lt_of_le_of_ne (not_lt.mp hlt) (Ne.symm hk.2.1)
      · exact hkr x hx

theorem path_link (key : K) (val : V) (h0 : Int) (a : Nat) (t : Tree K V) (acc : List Ptr)
    (hk : key ∉ t.keys) : (Tree.link key val h0 a t).path key acc = t.path key acc := by
  induction t generalizing acc with
  | nil => simp [Tree.link, Tree.path]
  | node b l k v h r ihl ihr =>
    simp only [mem_keys_node, not_or] at hk
    simp only [Tree.link, hk.2.1, if_false]
    split_ifs with hlt
    · simp only [Tree.path, hk.2.1, if_false, hlt, if_true]; exact ihl _ hk.1
    · simp only [Tree.path, hk.2.1, if_false, hlt]; exact ihr _ hk.2.2

end linkfacts

section insert
variable {K V : Type} [LinearOrder K]

/-- Inserting a key that is present returns with the machine state unchanged. -/
theorem run_insert_dup {w : World K V} {t : Tree K V} (key : K) (val : V)
    (hm : Models w t) (hb : t.BST) (hk : key ∈ t.keys) :
    (insert key val).run w = some ((), w) := by
  obtain ⟨hst, hroot, hnd⟩ := hm
  have hwp : wp (insert key val) (fun _ w' => w' = w) w := by
    simp only [insert, wp_bind, wp_storeSize, wp_getRoot, hroot]
    refine wp_insert_descend key t w none _ none [] _ hst hb
      (Nat.lt_succ_of_le (size_le_length hst hnd)) ?_
    simp only [hk, if_true]
    simp
  obtain ⟨u, w', hrun, rfl⟩ := hwp
  exact hrun

set_option maxHeartbeats 1000000 in
theorem wp_insert_new {w : World K V} {t : Tree K V} (key : K) (val : V)
    (hm : Models w t) (hb : t.BST) (hk : key ∉ t.keys)
    (hsafe : Tree.PathSafe key (-1) (Tree.link key val 0 w.mem.length t))
    (Q : Unit → World K V → Prop)
    (hQ : ∀ w', Models w' (Tree.insert key val w.mem.length t) →
      w'.obj.Size = wrapInt32 (w.obj.Size + 1) → w'.obj.state = w.obj.state →
      w'.mem.length = w.mem.length + 1 →
      (∀ b, b ∉ t.addrs → b ≠ w.mem.length → rd w'.mem b = rd w.mem b) → Q () w') :
    wp (insert key val) Q w := by
  obtain ⟨hst, hroot, hnd⟩ := hm
  have hfresh : w.mem.length ∉ t.addrs := fun h => Nat.lt_irrefl _ (stored_lt hst _ h)
  simp only [insert, wp_bind, wp_storeSize, wp_getRoot, hroot]
  refine wp_insert_descend key t w none _ none [] _ hst hb
    (Nat.lt_succ_of_le (size_le_length hst hnd)) ?_
  simp only [hk, if_false, wp_new]
  have hins : Tree.insert key val w.mem.length t
      = (Tree.rebalance key (-1) (Tree.link key val 0 w.mem.length t)).1 := by
    simp [Tree.insert, hk]
  have hst0 : Tree.Stored (w.mem ++ [some ⟨key, val, none, none, true, 0⟩]) t none :=
    stored_frame (fun a ha => rd_append_lt _ _ (stored_lt hst a ha)) hst
  have hN0 : rd (w.mem ++ [some ⟨key, val, none, none, true, 0⟩]) w.mem.length
      = some ⟨key, val, none, none, true, 0⟩ := rd_append_length _ _
  -- the state after the link and the size update
  have hrest : ∀ w2 : World K V,
      Tree.Stored w2.mem (Tree.link key val 0 w.mem.length t) none →
      w2.obj = ⟨(Tree.link key val 0 w.mem.length t).ptr, wrapInt32 (w.obj.Size + 1),
        w.obj.state⟩ →
      w2.mem.length = w.mem.length + 1 →
      (∀ b, b ∉ t.addrs → b ≠ w.mem.length → rd w2.mem b = rd w.mem b) →
      wp (insert.rebalance (some w.mem.length) (t.path key [])) Q w2 := by
    intro w2 hst2 hobj2 hlen2 hfr2
    rw [← path_link key val 0 w.mem.length t [] hk]
    refine wp_rebalance_path key val w.mem.length _ w2 Slot.root none (-1) [] Q hst2
      (nodup_link hk hfresh hnd) (bst_link hk hb) trivial trivial
      (by simp [Slot.Holds, hobj2]) rfl (fun _ _ => by simp) rfl
      (mem_nodes_link key val 0 _ t hk) hsafe (fun w' hst' hfr' => ?_)
    have hQ' := hQ w' ⟨by rw [hins]; exact hst', by rw [hins, hfr'.1]; simp,
        by rw [hins, addrs_rebalance]; exact nodup_link hk hfresh hnd⟩
      (by rw [hfr'.1]; simp [hobj2]) (by rw [hfr'.1]; simp [hobj2])
      (by rw [hfr'.2.1]; simpa using hlen2)
      (fun b hb1 hb2 => by
        rw [hfr'.2.2 b (fun hx => by
          rcases List.mem_cons.mp ((addrs_link_perm key val 0 _ t hk).subset hx) with h | h
          · exact hb2 h
          · exact hb1 h)]
        simpa using hfr2 b hb1 hb2)
    split
    · -- the loop has run through the whole stack
      simpa [insert.rebalance] using hQ'
    · exact hQ'
  cases htn : t.isNil with
  | true =>
    have ht := eq_nil_of_isNil htn
    subst ht
    simp only [Tree.last, insert.link, if_true, wp_bind, setRight, wp_store, hN0, wp_new,
      Option.some.injEq, exists_eq_left', wp_setRoot, wp_getSize, wp_setSize]
    refine hrest _ ?_ ?_ ?_ ?_
    · simp [Tree.link, Tree.Stored, rd_set, hN0]
    · simp [Tree.link]
    · simp
    · intro b _ hb2
      simp only [rd_set, Ne.symm hb2, false_and, if_false]
      by_cases hlt : b < w.mem.length
      · exact rd_append_lt _ _ hlt
      · rw [rd_ge (by simp; omega), rd_ge (by omega)]
  | false =>
    simp only [wp_new, wp_bind]
    refine wp_link key val 0 w.mem.length t _ none none _ htn hst0 hnd hk hfresh hN0
      (fun w1 hst1 hfr1 => ?_)
    simp only [wp_getSize, wp_setSize]
    refine hrest _ hst1 ?_ ?_ ?_
    · simp [hfr1.1, ptr_link htn, hroot]
    · simp [hfr1.2.1]
    · intro b hb1 hb2
      simp only []
      rw [hfr1.2.2 b (by simp [hb1, hb2])]
      by_cases hlt : b < w.mem.length
      · exact rd_append_lt _ _ hlt
      · rw [rd_ge (by simp; omega), rd_ge (by omega)]

end insert
end AVLT

namespace AVLT

section avl
variable {K V : Type}

theorem height_ge (t : Tree K V) : -1 ≤ t.height := by
  cases t with
  | nil => simp [Tree.height]
  | node a l k v h r =>
    have := height_ge l
    simp only [Tree.height]; omega

theorem ht_eq_height {t : Tree K V} (h : t.HeightsOK) : t.ht = t.height := by
  cases t with
  | nil => rfl
  | node a l k v h0 r => simp only [Tree.HeightsOK] at h; simp [Tree.height, h.2.2]

theorem height_nil : (Tree.nil : Tree K V).height = -1 := rfl

theorem height_node (a : Nat) (l : Tree K V) (k : K) (v : V) (h : Int) (r : Tree K V) :
    (Tree.node a l k v h r).height = 1 + max l.height r.height := rfl

theorem heightsOK_node {a : Nat} {l r : Tree K V} {k : K} {v : V} {h : Int} :
    (Tree.node a l k v h r).HeightsOK ↔
      l.HeightsOK ∧ r.HeightsOK ∧ h = 1 + max l.height r.height := Iff.rfl

theorem balanced_node {a : Nat} {l r : Tree K V} {k : K} {v : V} {h : Int} :
    (Tree.node a l k v h r).Balanced ↔
      l.Balanced ∧ r.Balanced ∧ -1 ≤ l.height - r.height ∧ l.height - r.height ≤ 1 := by
  simp only [Tree.Balanced, abs_le]

end avl

section step
variable {K V : Type} [LinearOrder K]

theorem rebalStep_left {key : K} {hs : Int} {b : Nat} {l l2 r : Tree K V} {k : K} {v : V}
    {h : Int} (hl2H : l2.HeightsOK) (hl2B : l2.Balanced) (hrH : r.HeightsOK)
    (hrB : r.Balanced) (hh : h = 1 + max l.height r.height)
    (hb1 : -1 ≤ l.height - r.height) (hb2 : l.height - r.height ≤ 1)
    (hgrow : l2.height = l.height + 1) (hG : Tree.Grown key l2) (hlt : key < k)
    (res : Tree K V × Bool) (hres : res = Tree.rebalStep key hs (.node b l2 k v h r)) :
    Tree.StepSafe key (.node b l2 k v h r) ∧ res.1.HeightsOK ∧ res.1.Balanced ∧
      (res.2 = false → res.1.height = 1 + max l.height r.height) ∧
      (res.2 = true → res.1.height = 1 + max l.height r.height + 1 ∧ Tree.Grown key res.1) := by
  have hrge := height_ge r
  have hlge := height_ge l
  have e1 := ht_eq_height hl2H
  have e2 := ht_eq_height hrH
  simp only [Tree.rebalStep, e1, e2, gt_iff_lt] at hres
  simp only [Tree.StepSafe, e1, e2, gt_iff_lt]
  by_cases h1 : h = 1 + max l2.height r.height
  · simp only [h1, if_true] at hres
    subst hres
    simp only [h1, true_or, true_and]
    refine ⟨heightsOK_node.mpr ⟨hl2H, hrH, rfl⟩, balanced_node.mpr ⟨hl2B, hrB, ?_, ?_⟩, ?_, ?_⟩
    · omega
    · omega
    · intro _; simp only [height_node]; omega
    · intro hc; simp at hc
  · simp only [h1, if_false] at hres
    simp only [h1, false_or]
    by_cases h2 : (if r.height < l2.height then l2.height - r.height else r.height - l2.height) = 0 ∨
        (if r.height < l2.height then l2.height - r.height else r.height - l2.height) = 1
    · simp only [h2, if_true] at hres
      subst hres
      simp only [h2, true_or, true_and]
      have h3 : r.height = l.height := by
        split_ifs at h2 <;> omega
      refine ⟨heightsOK_node.mpr ⟨hl2H, hrH, rfl⟩, balanced_node.mpr ⟨hl2B, hrB, ?_, ?_⟩, ?_, ?_⟩
      · omega
      · omega
      · intro hc; simp at hc
      · intro _
        refine ⟨by simp only [height_node]; omega, Or.inr (Or.inl ⟨hlt, by omega⟩)⟩
    · simp only [h2, if_false] at hres
      simp only [h2, false_or]
      have h3 : r.height = l.height - 1 := by
        split_ifs at h2 <;> omega
      have h4 : r.height < l2.height := by omega
      simp only [h4, if_true] at hres ⊢
      cases l2 with
      | nil => simp [Tree.Grown] at hG
      | node la A kl vl hl B =>
        simp only [key_node, Option.any_some, decide_eq_true_eq] at hres
        have hAge := height_ge A
        have hBge := height_ge B
        obtain ⟨hAH, hBH, hhl⟩ := heightsOK_node.mp hl2H
        obtain ⟨hAB, hBB, hbl1, hbl2⟩ := balanced_node.mp hl2B
        simp only [height_node] at hgrow
        have eA := ht_eq_height hAH
        have eB := ht_eq_height hBH
        simp only [Tree.Grown] at hG
        rcases hG with ⟨_, rfl, rfl⟩ | ⟨hk, hg⟩ | ⟨hk, hg⟩
        · simp only [height_nil] at hgrow; omega
        · simp only [hk, if_true, rotR_node_node, eA, eB, e2] at hres
          subst hres
          have hA2 : A.height = l.height := by
            clear * - h3 hg hgrow; omega
          have hB2 : B.height = l.height - 1 := by
            clear * - h3 hg hgrow; omega
          clear hh h1 h2 hhl hgrow hbl1 hbl2 hb1 hb2 e1 hl2H hl2B
          refine ⟨⟨_, _, _, _, _, _, rfl, fun hc => absurd hk hc⟩, ?_, ?_, ?_, ?_⟩
          · refine heightsOK_node.mpr ⟨hAH, heightsOK_node.mpr ⟨hBH, hrH, rfl⟩, ?_⟩
            simp only [height_node]
          · refine balanced_node.mpr ⟨hAB, balanced_node.mpr ⟨hBB, hrB, ?_, ?_⟩, ?_, ?_⟩ <;>
              (try simp only [height_node]) <;> omega
          · intro _; simp only [height_node]; omega
          · intro hc; simp at hc
        · have hnk : ¬ key < kl := not_lt.mpr (le_of_lt hk)
          simp only [hnk, if_false] at hres
          cases B with
          | nil => simp only [height_nil] at hg; omega
          | node c B1 kb vb hb B2 =>
            obtain ⟨hB1H, hB2H, hhb⟩ := heightsOK_node.mp hBH
            obtain ⟨hB1B, hB2B, hbb1, hbb2⟩ := balanced_node.mp hBB
            have eB1 := ht_eq_height hB1H
            have eB2 := ht_eq_height hB2H
            have hB1ge := height_ge B1
            have hB2ge := height_ge B2
            simp only [height_node] at hg hgrow hbl1 hbl2
            simp only [rotL_node_node, rotR_node_node, eA, eB1, eB2, e2, ht_node] at hres
            subst hres
            have hA2 : A.height = l.height - 1 := by
              clear * - h3 hg hgrow; omega
            have hB3 : max B1.height B2.height = l.height - 1 := by
              clear * - h3 hg hgrow; omega
            clear hh h1 h2 hhl hgrow hbl1 hbl2 hb1 hb2 e1 hl2H hl2B hhb hg hBge hBH hBB eB
            refine ⟨⟨_, _, _, _, _, _, rfl, fun _ => rfl⟩, ?_, ?_, ?_, ?_⟩
            · refine heightsOK_node.mpr ⟨heightsOK_node.mpr ⟨hAH, hB1H, rfl⟩,
                heightsOK_node.mpr ⟨hB2H, hrH, rfl⟩, ?_⟩
              simp only [height_node]
            · refine balanced_node.mpr ⟨balanced_node.mpr ⟨hAB, hB1B, ?_, ?_⟩,
                balanced_node.mpr ⟨hB2B, hrB, ?_, ?_⟩, ?_, ?_⟩ <;>
                (try simp only [height_node]) <;> omega
            · intro _; simp only [height_node]; omega
            · intro hc; simp at hc

theorem rebalStep_right {key : K} {hs : Int} {b : Nat} {l r r2 : Tree K V} {k : K} {v : V}
    {h : Int} (hlH : l.HeightsOK) (hlB : l.Balanced) (hr2H : r2.HeightsOK)
    (hr2B : r2.Balanced) (hh : h = 1 + max l.height r.height)
    (hb1 : -1 ≤ l.height - r.height) (hb2 : l.height - r.height ≤ 1)
    (hgrow : r2.height = r.height + 1) (hG : Tree.Grown key r2) (hlt : k < key)
    (res : Tree K V × Bool) (hres : res = Tree.rebalStep key hs (.node b l k v h r2)) :
    Tree.StepSafe key (.node b l k v h r2) ∧ res.1.HeightsOK ∧ res.1.Balanced ∧
      (res.2 = false → res.1.height = 1 + max l.height r.height) ∧
      (res.2 = true → res.1.height = 1 + max l.height r.height + 1 ∧ Tree.Grown key res.1) := by
  have hrge := height_ge r
  have hlge := height_ge l
  have e1 := ht_eq_height hlH
  have e2 := ht_eq_height hr2H
  simp only [Tree.rebalStep, e1, e2, gt_iff_lt] at hres
  simp only [Tree.StepSafe, e1, e2, gt_iff_lt]
  by_cases h1 : h = 1 + max l.height r2.height
  · simp only [h1, if_true] at hres
    subst hres
    simp only [h1, true_or, true_and]
    refine ⟨heightsOK_node.mpr ⟨hlH, hr2H, rfl⟩, balanced_node.mpr ⟨hlB, hr2B, ?_, ?_⟩, ?_, ?_⟩
    · omega
    · omega
    · intro _; simp only [height_node]; omega
    · intro hc; simp at hc
  · simp only [h1, if_false] at hres
    simp only [h1, false_or]
    by_cases h2 : (if r2.height < l.height then l.height - r2.height else r2.height - l.height) = 0 ∨
        (if r2.height < l.height then l.height - r2.height else r2.height - l.height) = 1
    · simp only [h2, if_true] at hres
      subst hres
      simp only [h2, true_or, true_and]
      have h3 : r.height = l.height := by
        split_ifs at h2 <;> omega
      refine ⟨heightsOK_node.mpr ⟨hlH, hr2H, rfl⟩, balanced_node.mpr ⟨hlB, hr2B, ?_, ?_⟩, ?_, ?_⟩
      · omega
      · omega
      · intro hc; simp at hc
      · intro _
        refine ⟨by simp only [height_node]; omega, Or.inr (Or.inr ⟨hlt, by omega⟩)⟩
    · simp only [h2, if_false] at hres
      simp only [h2, false_or]
      have h3 : l.height = r.height - 1 := by
        split_ifs at h2 <;> omega
      have h4 : ¬ r2.height < l.height := by omega
      simp only [h4, if_false] at hres ⊢
      cases r2 with
      | nil => simp [Tree.Grown] at hG
      | node ra B kr vr hr C =>
        simp only [key_node, Option.any_some, decide_eq_true_eq] at hres
        have hBge := height_ge B
        have hCge := height_ge C
        obtain ⟨hBH, hCH, hhr⟩ := heightsOK_node.mp hr2H
        obtain ⟨hBB, hCB, hbr1, hbr2⟩ := balanced_node.mp hr2B
        simp only [height_node] at hgrow
        have eB := ht_eq_height hBH
        have eC := ht_eq_height hCH
        simp only [Tree.Grown] at hG
        rcases hG with ⟨_, rfl, rfl⟩ | ⟨hk, hg⟩ | ⟨hk, hg⟩
        · simp only [height_nil] at hgrow; omega
        · simp only [hk, if_true] at hres
          cases B with
          | nil => simp only [height_nil] at hg; omega
          | node c B1 kb vb hb B2 =>
            obtain ⟨hB1H, hB2H, hhb⟩ := heightsOK_node.mp hBH
            obtain ⟨hB1B, hB2B, hbb1, hbb2⟩ := balanced_node.mp hBB
            have eB1 := ht_eq_height hB1H
            have eB2 := ht_eq_height hB2H
            have hB1ge := height_ge B1
            have hB2ge := height_ge B2
            simp only [height_node] at hg hgrow hbr1 hbr2
            simp only [rotL_node_node, rotR_node_node, eC, eB1, eB2, e1, ht_node, isNil_node,
              Bool.false_eq_true, if_false] at hres
            subst hres
            have hC2 : C.height = r.height - 1 := by
              clear * - h3 hg hgrow; omega
            have hB3 : max B1.height B2.height = r.height - 1 := by
              clear * - h3 hg hgrow; omega
            clear hh h1 h2 hhr hgrow hbr1 hbr2 hb1 hb2 e2 hr2H hr2B hhb hg hBge hBH hBB eB
            refine ⟨⟨_, _, _, _, _, _, rfl, fun _ => rfl⟩, ?_, ?_, ?_, ?_⟩
            · refine heightsOK_node.mpr ⟨heightsOK_node.mpr ⟨hlH, hB1H, rfl⟩,
                heightsOK_node.mpr ⟨hB2H, hCH, rfl⟩, ?_⟩
              simp only [height_node]
            · refine balanced_node.mpr ⟨balanced_node.mpr ⟨hlB, hB1B, ?_, ?_⟩,
                balanced_node.mpr ⟨hB2B, hCB, ?_, ?_⟩, ?_, ?_⟩ <;>
                (try simp only [height_node]) <;> omega
            · intro _; simp only [height_node]; omega
            · intro hc; simp at hc
        · have hnk : ¬ key < kr := not_lt.mpr (le_of_lt hk)
          simp only [hnk, if_false] at hres
          cases C with
          | nil => simp only [height_nil] at hg; omega
          | node c C1 kc vc hc C2 =>
            simp only [rotL_node_node, eB, e1, ht_node, isNil_node, Bool.false_eq_true,
              if_false] at hres
            subst hres
            have hhc : hc = (Tree.node c C1 kc vc hc C2).height := by
              simpa using eC
            have hC2 : (Tree.node c C1 kc vc hc C2).height = r.height := by
              clear * - h3 hg hgrow; omega
            have hB2 : B.height = r.height - 1 := by
              clear * - h3 hg hgrow; omega
            clear hh h1 h2 hhr hgrow hbr1 hbr2 hb1 hb2 e2 hr2H hr2B
            refine ⟨⟨_, _, _, _, _, _, rfl, fun hc2 => absurd hc2 hnk⟩, ?_, ?_, ?_, ?_⟩
            · refine heightsOK_node.mpr ⟨heightsOK_node.mpr ⟨hlH, hBH, rfl⟩, hCH, ?_⟩
              rw [height_node b, ← hhc]
            · refine balanced_node.mpr ⟨balanced_node.mpr ⟨hlB, hBB, ?_, ?_⟩, hCB, ?_, ?_⟩ <;>
                (try rw [height_node b]) <;> omega
            · intro _; rw [height_node ra, height_node b]; omega
            · intro hc; simp at hc

end step
end AVLT

namespace AVLT

section avlinsert
variable {K V : Type} [LinearOrder K]

theorem rebalance_link (key : K) (val : V) (a : Nat) (t : Tree K V) :
    ∀ (hs : Int) (res : Tree K V × Bool),
      res = Tree.rebalance key hs (Tree.link key val 0 a t) →
      key ∉ t.keys → t.HeightsOK → t.Balanced →
      Tree.PathSafe key hs (Tree.link key val 0 a t) ∧ res.1.HeightsOK ∧ res.1.Balanced ∧
        (res.2 = false → res.1.height = t.height) ∧
        (res.2 = true → res.1.height = t.height + 1 ∧ Tree.Grown key res.1) := by
  induction t with
  | nil =>
    intro hs res hres _ _ _
    simp only [Tree.link, Tree.rebalance, if_true] at hres
    subst hres
    simp [Tree.PathSafe, Tree.link, Tree.HeightsOK, Tree.Balanced, Tree.height, Tree.Grown]
  | node b l k v h r ihl ihr =>
    intro hs res hres hk hH hB
    simp only [mem_keys_node, not_or] at hk
    obtain ⟨hlH, hrH, hh⟩ := heightsOK_node.mp hH
    obtain ⟨hlB, hrB, hb1, hb2⟩ := balanced_node.mp hB
    simp only [Tree.link, hk.2.1, if_false] at hres ⊢
    by_cases hlt : key < k
    · simp only [hlt, if_true, Tree.rebalance, hk.2.1, if_false] at hres ⊢
      simp only [Tree.PathSafe, hk.2.1, if_false, hlt, if_true]
      obtain ⟨hps, hH2, hB2, hf, ht⟩ := ihl h _ rfl hk.1 hlH hlB
      by_cases hc : (Tree.rebalance key h (Tree.link key val 0 a l)).2 = true
      · simp only [hc, if_true] at hres
        obtain ⟨hgrow, hG⟩ := ht hc
        obtain ⟨hss, q1, q2, q3, q4⟩ :=
          rebalStep_left hH2 hB2 hrH hrB hh hb1 hb2 hgrow hG hlt res hres
        exact ⟨⟨hps, fun _ => hss⟩, q1, q2, q3, q4⟩
      · simp only [hc, Bool.false_eq_true, if_false] at hres
        subst hres
        have hf' := hf (by simpa using hc)
        refine ⟨⟨hps, fun h' => absurd h' hc⟩, heightsOK_node.mpr ⟨hH2, hrH, ?_⟩,
          balanced_node.mpr ⟨hB2, hrB, ?_, ?_⟩, ?_, ?_⟩
        · rw [hf']; exact hh
        · rw [hf']; exact hb1
        · rw [hf']; exact hb2
        · intro _; simp only [height_node, hf']
        · intro h'; simp at h'
    · have hgt : k < key := lt_of_le_of_ne (not_lt.mp hlt) (Ne.symm hk.2.1)
      simp only [hlt, if_false, Tree.rebalance, hk.2.1] at hres ⊢
      simp only [Tree.PathSafe, hk.2.1, if_false, hlt]
      obtain ⟨hps, hH2, hB2, hf, ht⟩ := ihr hs _ rfl hk.2.2 hrH hrB
      by_cases hc : (Tree.rebalance key hs (Tree.link key val 0 a r)).2 = true
      · simp only [hc, if_true] at hres
        obtain ⟨hgrow, hG⟩ := ht hc
        obtain ⟨hss, q1, q2, q3, q4⟩ :=
          rebalStep_right hlH hlB hH2 hB2 hh hb1 hb2 hgrow hG hgt res hres
        exact ⟨⟨hps, fun _ => hss⟩, q1, q2, q3, q4⟩
      · simp only [hc, Bool.false_eq_true, if_false] at hres
        subst hres
        have hf' := hf (by simpa using hc)
        refine ⟨⟨hps, fun h' => absurd h' hc⟩, heightsOK_node.mpr ⟨hlH, hH2, ?_⟩,
          balanced_node.mpr ⟨hlB, hB2, ?_, ?_⟩, ?_, ?_⟩
        · rw [hf']; exact hh
        · rw [hf']; exact hb1
        · rw [hf']; exact hb2
        · intro _; simp only [height_node, hf']
        · intro h'; simp at h'

/-- The invariants of the class on the tree of an object: search-tree order,
stored heights equal to true heights, AVL balance. -/
theorem insert_invariants (key : K) (val : V) (a : Nat) {t : Tree K V}
    (hb : t.BST) (hH : t.HeightsOK) (hB : t.Balanced) :
    (Tree.insert key val a t).BST ∧ (Tree.insert key val a t).HeightsOK ∧
      (Tree.insert key val a t).Balanced := by
  by_cases hk : key ∈ t.keys
  · simp only [Tree.insert, hk, if_true]
    exact ⟨hb, hH, hB⟩
  · simp only [Tree.insert, hk, if_false]
    obtain ⟨_, q1, q2, _, _⟩ := rebalance_link key val a t (-1) _ rfl hk hH hB
    refine ⟨?_, q1, q2⟩
    simp only [Tree.BST, keys_rebalance]
    exact bst_link hk hb

theorem pathSafe_link {key : K} {val : V} {a : Nat} {t : Tree K V}
    (hk : key ∉ t.keys) (hH : t.HeightsOK) (hB : t.Balanced) :
    Tree.PathSafe key (-1) (Tree.link key val 0 a t) :=
  (rebalance_link key val a t (-1) _ rfl hk hH hB).1

end avlinsert
end AVLT

namespace AVLT

section reach
variable {K V : Type} [LinearOrder K]

omit [LinearOrder K] in
theorem firstValue_append_some [DecidableEq K] {k : K} {ops : List (K × V)} {v : V}
    (h : firstValue k ops = some v) (more : List (K × V)) :
    firstValue k (ops ++ more) = some v := by
  induction ops with
  | nil => simp [firstValue] at h
  | cons op rest ih =>
    obtain ⟨k2, v2⟩ := op
    simp only [List.cons_append, firstValue] at h ⊢
    by_cases h1 : k = k2
    · simpa [h1] using h
    · simp only [h1, if_false] at h ⊢
      exact ih h

omit [LinearOrder K] in
theorem firstValue_append_none [DecidableEq K] {k : K} {ops : List (K × V)}
    (h : firstValue k ops = none) (more : List (K × V)) :
    firstValue k (ops ++ more) = firstValue k more := by
  induction ops with
  | nil => rfl
  | cons op rest ih =>
    obtain ⟨k2, v2⟩ := op
    simp only [List.cons_append, firstValue] at h ⊢
    by_cases h1 : k = k2
    · simp [h1] at h
    · simp only [h1, if_false] at h ⊢
      exact ih h

omit [LinearOrder K] in
theorem mem_toList_key {t : Tree K V} {k : K} {v : V} (h : (k, v) ∈ t.toList) : k ∈ t.keys := by
  rw [toList_eq_map] at h
  rw [keys_eq_map]
  obtain ⟨x, hx, hxe⟩ := List.mem_map.mp h
  exact List.mem_map.mpr ⟨x, hx, by rw [show x.2 = (k, v) from hxe]⟩

omit [LinearOrder K] in
theorem exists_toList_of_key {t : Tree K V} {k : K} (h : k ∈ t.keys) :
    ∃ v, (k, v) ∈ t.toList := by
  rw [keys_eq_map] at h
  obtain ⟨x, hx, hxe⟩ := List.mem_map.mp h
  refine ⟨x.2.2, ?_⟩
  rw [toList_eq_map]
  exact List.mem_map.mpr ⟨x, hx, by rw [← hxe]⟩

theorem toList_insert_perm {key : K} {val : V} {a : Nat} {t : Tree K V} (hk : key ∉ t.keys) :
    (Tree.insert key val a t).toList.Perm ((key, val) :: t.toList) := by
  simp only [Tree.insert, hk, if_false]
  rw [toList_eq_map, toList_eq_map, nodes_rebalance]
  exact (nodes_link_perm key val 0 a t hk).map _

theorem addrs_insert_perm {key : K} {val : V} {a : Nat} {t : Tree K V} (hk : key ∉ t.keys) :
    (Tree.insert key val a t).addrs.Perm (a :: t.addrs) := by
  simp only [Tree.insert, hk, if_false]
  rw [addrs_rebalance]
  exact addrs_link_perm key val 0 a t hk

omit [LinearOrder K] in
theorem size_eq_nodes_length (t : Tree K V) : t.size = t.nodes.length := by
  rw [size_eq_length, addrs_eq_map, List.length_map]

theorem size_insert {key : K} {val : V} {a : Nat} {t : Tree K V} (hk : key ∉ t.keys) :
    (Tree.insert key val a t).size = t.size + 1 := by
  rw [size_eq_length, size_eq_length, (addrs_insert_perm hk).length_eq, List.length_cons]

theorem wrapInt32_wrap_add (a b : Int) : wrapInt32 (wrapInt32 a + b) = wrapInt32 (a + b) := by
  unfold wrapInt32
  omega

theorem wrapInt32_of_lt {x : Int} (h0 : -2147483648 ≤ x) (h1 : x < 2147483648) :
    wrapInt32 x = x := by
  unfold wrapInt32
  omega

/-- One `insert` call keeps the invariant, on the tree `Tree.insert` gives. -/
theorem wp_insert {w : World K V} {t : Tree K V} {ops : List (K × V)} (key : K) (val : V)
    (hinv : Inv w t ops) :
    wp (insert key val) (fun _ w' =>
      Inv w' (Tree.insert key val w.mem.length t) (ops ++ [(key, val)]) ∧
        w'.obj.state = w.obj.state) w := by
  obtain ⟨hm, hb, hH, hB, hc, hsz, hall⟩ := hinv
  obtain ⟨i1, i2, i3⟩ :=
    insert_invariants key val w.mem.length hb hH hB
  by_cases hk : key ∈ t.keys
  · have hrun := run_insert_dup key val hm hb hk
    refine ⟨(), w, hrun, ?_, rfl⟩
    have hins : Tree.insert key val w.mem.length t = t := by simp [Tree.insert, hk]
    rw [hins]
    refine ⟨hm, hb, hH, hB, fun k v => ?_, hsz, hall⟩
    rw [hc k v]
    obtain ⟨v0, hv0⟩ := exists_toList_of_key hk
    cases hfv : firstValue k ops with
    | some v1 => rw [firstValue_append_some hfv]
    | none =>
      rw [firstValue_append_none hfv]
      simp only [firstValue, reduceCtorEq, false_iff]
      split_ifs with hke
      · subst hke
        rw [(hc k v0).mp hv0] at hfv
        simp at hfv
      · simp
  · refine wp_insert_new key val hm hb hk (pathSafe_link hk hH hB) _
      (fun w' hm' hsz' hst' hlen' hfr' => ⟨⟨hm', i1, i2, i3, fun k v => ?_, ?_, ?_⟩, hst'⟩)
    · rw [(toList_insert_perm hk).mem_iff, List.mem_cons, hc k v]
      cases hfv : firstValue k ops with
      | some v1 =>
        rw [firstValue_append_some hfv]
        simp only [Option.some.injEq, Prod.mk.injEq]
        constructor
        · rintro (⟨rfl, _⟩ | h)
          · exfalso
            exact hk (mem_toList_key ((hc k v1).mpr hfv))
          · exact h
        · exact Or.inr
      | none =>
        rw [firstValue_append_none hfv]
        simp only [firstValue, Prod.mk.injEq, reduceCtorEq, or_false]
        split_ifs with hke
        · simp [hke, eq_comm]
        · simp [hke]
    · rw [hsz', hsz, size_insert hk, wrapInt32_wrap_add]
      push_cast
      rfl
    · intro b hb'
      rw [(addrs_insert_perm hk).mem_iff, List.mem_cons]
      by_cases hbe : b = w.mem.length
      · exact Or.inl hbe
      · exact Or.inr (hall b (by omega))

theorem inv_empty : Inv (World.empty : World K V) Tree.nil [] := by
  refine ⟨⟨trivial, rfl, List.nodup_nil⟩, ?_, trivial, trivial, ?_, ?_, ?_⟩
  · simp [Tree.BST, Tree.keys]
  · intro k v; simp [Tree.toList, firstValue]
  · simp [World.empty, Tree.size, wrapInt32]
  · intro a ha; simp [World.empty] at ha

theorem run_insertAll (ops : List (K × V)) :
    ∀ (w : World K V) (t : Tree K V) (done : List (K × V)), Inv w t done →
      ∃ w' t', (insertAll ops).run w = some ((), w') ∧ Inv w' t' (done ++ ops) ∧
        w'.obj.state = w.obj.state := by
  induction ops with
  | nil =>
    intro w t done hinv
    exact ⟨w, t, rfl, by simpa using hinv, rfl⟩
  | cons op rest ih =>
    intro w t done hinv
    obtain ⟨key, val⟩ := op
    obtain ⟨u, w1, hrun1, hinv1, hst1⟩ := wp_insert key val hinv
    obtain ⟨w2, t2, hrun2, hinv2, hst2⟩ := ih w1 _ _ hinv1
    refine ⟨w2, t2, ?_, by simpa using hinv2, hst2.trans hst1⟩
    simp only [insertAll]
    have : wp (insert key val >>= fun _ => insertAll rest) (fun _ w' => w' = w2) w := by
      rw [wp_bind]
      exact ⟨u, w1, hrun1, (), w2, hrun2, rfl⟩
    obtain ⟨_, w3, hrun3, rfl⟩ := this
    exact hrun3

/-- Every sequence of `insert` calls on an empty tree runs to a state that
satisfies the invariant. -/
theorem reach (ops : List (K × V)) :
    ∃ w t, (insertAll ops).run World.empty = some ((), w) ∧ Inv w t ops ∧
      w.obj.state = none := by
  obtain ⟨w, t, h1, h2, h3⟩ := run_insertAll ops World.empty Tree.nil [] inv_empty
  exact ⟨w, t, h1, by simpa using h2, h3⟩

end reach
end AVLT

namespace AVLT

section traversal
variable {K V : Type}

theorem first_of_not_isNil {t : Tree K V} (h : t.isNil = false) (s s2 : Ptr) :
    t.first s = t.first s2 := by
  cases t with
  | nil => simp at h
  | node a l k v h0 r => rfl

theorem wp_leftmost (t : Tree K V) :
    ∀ (w : World K V) (s : Ptr) (fuel : Nat) (Q : Unit → World K V → Prop),
      Tree.Stored w.mem t s → t.isNil = false → w.obj.state = t.ptr → t.size ≤ fuel →
      Q () ⟨w.mem, ⟨w.obj.Root, w.obj.Size, t.first s⟩⟩ →
      wp (leftmost fuel) Q w := by
  induction t with
  | nil => intro w s fuel Q _ h; simp at h
  | node a l k v h r ihl _ =>
    intro w s fuel Q hst _ hstate hf hQ
    obtain ⟨hA, hL, hR⟩ := hst
    simp only [Tree.size] at hf
    obtain ⟨f, rfl⟩ : ∃ f, fuel = f + 1 := ⟨fuel - 1, by omega⟩
    simp only [leftmost, wp_bind, wp_getState, hstate, ptr_node, wp_load, hA,
      Option.some.injEq, exists_eq_left', wp_ite, wp_pure, wp_setState, ne_eq,
      ptr_eq_none_iff]
    cases hl : l.isNil with
    | true =>
      have := eq_nil_of_isNil hl
      subst this
      simp only [Bool.true_eq_false, not_true_eq_false, if_false]
      simp only [Tree.first] at hQ
      have hw : w = ⟨w.mem, ⟨w.obj.Root, w.obj.Size, some a⟩⟩ := by
        obtain ⟨m, ⟨ro, sz, st⟩⟩ := w
        simp only [ptr_node] at hstate
        simp [hstate]
      rw [hw]; exact hQ
    | false =>
      simp only [Bool.false_eq_true, not_false_eq_true, if_true]
      refine ihl _ (some a) f Q hL hl rfl (by omega) ?_
      simpa [Tree.first] using hQ

theorem wp_next_none {w : World K V} (h : w.obj.state = none)
    (Q : Option K → World K V → Prop) : wp next Q w ↔ Q none w := by
  simp [next, h]

theorem wp_drain (t : Tree K V) :
    ∀ (w : World K V) (s : Ptr) (fuel : Nat) (out : List K)
      (Q : List K → World K V → Prop),
      Tree.Stored w.mem t s → t.addrs.Nodup → w.obj.state = t.first s →
      wp (drain fuel (out ++ t.keys)) Q ⟨w.mem, ⟨w.obj.Root, w.obj.Size, s⟩⟩ →
      wp (drain (fuel + t.size) out) Q w := by
  induction t with
  | nil =>
    intro w s fuel out Q _ _ hstate hQ
    simp only [Tree.first] at hstate
    have hw : w = ⟨w.mem, ⟨w.obj.Root, w.obj.Size, s⟩⟩ := by
      obtain ⟨m, ⟨ro, sz, st⟩⟩ := w
      simp only at hstate
      simp [hstate]
    simpa [Tree.size, Tree.keys, ← hw] using hQ
  | node a l k v h r ihl ihr =>
    intro w s fuel out Q hst hnd hstate hQ
    obtain ⟨hndl, hndr, hal, har, hlr⟩ := nodup_node.mp hnd
    obtain ⟨hA, hL, hR⟩ := hst
    simp only [Tree.first] at hstate
    have e : fuel + (Tree.node a l k v h r).size = (fuel + r.size + 1) + l.size := by
      simp only [Tree.size]; omega
    rw [e]
    refine ihl w (some a) _ out Q hL hndl hstate ?_
    have hA2 : ∀ o : avlt, rd (World.mk w.mem o).mem a
        = some ⟨k, v, l.ptr, r.rightPtr s, r.isNil, h⟩ := fun _ => hA
    simp only [drain, wp_bind, next, wp_getState, reduceCtorEq, if_false, wp_load, hA,
      Option.some.injEq, exists_eq_left', wp_pure, wp_getActualRight (hA2 _), wp_ite,
      ptr_eq_none_iff, wp_setState, wp_storeSize]
    cases hr : r.isNil with
    | true =>
      have := eq_nil_of_isNil hr
      subst this
      simp only [isNil_nil, if_true, rightPtr_nil]
      simpa [Tree.keys, Tree.size] using hQ
    | false =>
      simp only [Bool.false_eq_true, if_false,
        rightPtr_of_not_isNil (by simp [hr] : ¬ r.isNil = true)]
      refine wp_leftmost r _ s _ _ hR hr rfl
        (Nat.le_succ_of_le (size_le_length hR hndr)) ?_
      simp only []
      refine ihr ⟨w.mem, ⟨w.obj.Root, w.obj.Size, r.first s⟩⟩ s fuel (out ++ l.keys ++ [k]) Q
        hR hndr rfl ?_
      simpa [Tree.keys] using hQ

/-- Traversal of a tree object: `begin()` and then `next()` until it returns
`false` yield the keys of the tree in inorder and leave the cursor null. -/
theorem run_traverse {w : World K V} {t : Tree K V} (hm : Models w t) :
    traverse.run w = some (t.keys, ⟨w.mem, ⟨w.obj.Root, w.obj.Size, none⟩⟩) := by
  obtain ⟨hst, hroot, hnd⟩ := hm
  have hwp : wp traverse
      (fun ks w' => ks = t.keys ∧ w' = ⟨w.mem, ⟨w.obj.Root, w.obj.Size, none⟩⟩) w := by
    have hfin : ∀ (fuel : Nat) (st : World K V), st.obj.state = none →
        wp (drain (fuel + 1) ([] ++ t.keys))
          (fun ks w' => ks = t.keys ∧ w' = st) st := by
      intro fuel st hst0
      simp [drain, wp_next_none hst0]
    have hsz := size_le_length hst hnd
    have e : w.mem.length + 1 = (w.mem.length - t.size + 1) + t.size := by omega
    simp only [traverse, begin, wp_bind, wp_getRoot, wp_setState, wp_getState, hroot,
      wp_storeSize, ne_eq, ptr_eq_none_iff, wp_ite, wp_pure]
    cases htn : t.isNil with
    | true =>
      have := eq_nil_of_isNil htn
      subst this
      simp only [Bool.true_eq_false, not_true_eq_false, if_false, ptr_nil]
      exact hfin _ _ rfl
    | false =>
      simp only [Bool.false_eq_true, not_false_eq_true, if_true]
      refine wp_leftmost t _ none _ _ hst htn rfl (Nat.le_succ_of_le hsz) ?_
      simp only [wp_bind, wp_storeSize]
      rw [e]
      refine wp_drain t _ none _ [] _ hst hnd rfl ?_
      exact hfin _ _ rfl
  obtain ⟨ks, w', hrun, rfl, rfl⟩ := hwp
  exact hrun

end traversal

end AVLT

namespace AVLT

section search
variable {K V : Type} [LinearOrder K]

theorem wp_search_loop (key : K) (t : Tree K V) :
    ∀ (w : World K V) (s : Ptr) (fuel : Nat) (Q : Option V → World K V → Prop),
      Tree.Stored w.mem t s → t.size < fuel → Q (t.find? key) w →
      wp (search.loop key fuel t.ptr) Q w := by
  induction t with
  | nil =>
    intro w s fuel Q _ hf hQ
    obtain ⟨f, rfl⟩ : ∃ f, fuel = f + 1 := ⟨fuel - 1, by omega⟩
    simpa [search.loop, Tree.find?] using hQ
  | node a l k v h r ihl ihr =>
    intro w s fuel Q hst hf hQ
    obtain ⟨f, rfl⟩ : ∃ f, fuel = f + 1 := ⟨fuel - 1, by omega⟩
    obtain ⟨hA, hL, hR⟩ := hst
    simp only [Tree.size] at hf
    simp only [search.loop, ptr_node, reduceCtorEq, if_false, wp_bind, wp_load, hA,
      Option.some.injEq, exists_eq_left', wp_ite, wp_pure, wp_getActualLeft hA,
      wp_getActualRight hA]
    simp only [Tree.find?] at hQ
    by_cases hk1 : key = k
    · simp only [hk1, if_true] at hQ ⊢
      exact hQ
    · simp only [hk1, if_false] at hQ ⊢
      by_cases hk2 : key < k
      · simp only [hk2, if_true] at hQ ⊢
        exact ihl w (some a) f Q hL (by omega) hQ
      · simp only [hk2, if_false] at hQ ⊢
        exact ihr w s f Q hR (by omega) hQ

/-- A call of `search` returns the value on the search path of the key and
leaves the machine state unchanged. -/
theorem run_search {w : World K V} {t : Tree K V} (hm : Models w t) (key : K) :
    (search key).run w = some (t.find? key, w) := by
  obtain ⟨hst, hroot, hnd⟩ := hm
  have hwp : wp (search key) (fun r w' => r = t.find? key ∧ w' = w) w := by
    simp only [search, wp_bind, wp_storeSize, wp_getRoot, hroot]
    exact wp_search_loop key t w none _ _ hst
      (Nat.lt_succ_of_le (size_le_length hst hnd)) ⟨rfl, rfl⟩
  obtain ⟨r, w', hrun, rfl, rfl⟩ := hwp
  exact hrun

theorem find_eq_some_iff {t : Tree K V} (hb : t.BST) (key : K) (val : V) :
    t.find? key = some val ↔ (key, val) ∈ t.toList := by
  induction t with
  | nil => simp [Tree.find?, Tree.toList]
  | node a l k v h r ihl ihr =>
    obtain ⟨hbl, hbr, hkl, hkr⟩ := bst_node.mp hb
    simp only [Tree.find?, Tree.toList, List.mem_append, List.mem_cons, Prod.mk.injEq]
    by_cases hk1 : key = k
    · subst hk1
      simp only [if_true, Option.some.injEq, true_and]
      constructor
      · intro h1; exact Or.inr (Or.inl h1.symm)
      · rintro (h1 | h1 | h1)
        · exact absurd (hkl key (mem_toList_key h1)) (lt_irrefl _)
        · exact h1.symm
        · exact absurd (hkr key (mem_toList_key h1)) (lt_irrefl _)
    · simp only [hk1, if_false, false_and, false_or]
      by_cases hk2 : key < k
      · simp only [hk2, if_true, ihl hbl]
        constructor
        · exact Or.inl
        · rintro (h1 | h1)
          · exact h1
          · exact absurd (hkr key (mem_toList_key h1)) (not_lt.mpr (le_of_lt hk2))
      · simp only [hk2, if_false, ihr hbr]
        constructor
        · exact Or.inr
        · rintro (h1 | h1)
          · exact absurd (hkl key (mem_toList_key h1)) hk2
          · exact h1

omit [LinearOrder K] in
/-- A call of `height` returns the height stored in the root, -1 for the
empty tree, and leaves the machine state unchanged. -/
theorem run_height {w : World K V} {t : Tree K V} (hm : Models w t) :
    height.run w = some (t.ht, w) := by
  obtain ⟨hst, hroot, hnd⟩ := hm
  have hwp : wp height (fun r w' => r = t.ht ∧ w' = w) w := by
    cases t with
    | nil => simp [height, hroot]
    | node a l k v h r =>
      obtain ⟨hA, _, _⟩ := hst
      simp [height, hroot, hA]
  obtain ⟨r, w', hrun, rfl, rfl⟩ := hwp
  exact hrun

theorem wp_search_range (lower upper : K) (t : Tree K V) :
    ∀ (w : World K V) (s : Ptr) (fuel : Nat) (keys : List K)
      (Q : List K → World K V → Prop),
      Tree.Stored w.mem t s → t.BST → t.size < fuel →
      Q (keys ++ t.keys.filter (fun x => decide (lower ≤ x ∧ x ≤ upper))) w →
      wp (_search lower upper fuel t.ptr keys) Q w := by
  induction t with
  | nil =>
    intro w s fuel keys Q _ _ hf hQ
    obtain ⟨f, rfl⟩ : ∃ f, fuel = f + 1 := ⟨fuel - 1, by omega⟩
    simpa [_search, Tree.keys] using hQ
  | node a l k v h r ihl ihr =>
    intro w s fuel keys Q hst hb hf hQ
    obtain ⟨f, rfl⟩ : ∃ f, fuel = f + 1 := ⟨fuel - 1, by omega⟩
    obtain ⟨hA, hL, hR⟩ := hst
    obtain ⟨hbl, hbr, hkl, hkr⟩ := bst_node.mp hb
    simp only [Tree.size] at hf
    have hfl : ¬ lower ≤ k → l.keys.filter (fun x => decide (lower ≤ x ∧ x ≤ upper)) = [] := by
      intro hlk
      refine List.filter_eq_nil_iff.mpr (fun x hx => ?_)
      have := hkl x hx
      simp only [decide_eq_true_eq, not_and]
      intro h1
      exact absurd (le_trans h1 (le_of_lt this)) hlk
    have hfr : ¬ k ≤ upper → r.keys.filter (fun x => decide (lower ≤ x ∧ x ≤ upper)) = [] := by
      intro hku
      refine List.filter_eq_nil_iff.mpr (fun x hx => ?_)
      have := hkr x hx
      simp only [decide_eq_true_eq, not_and]
      intro _ h2
      exact absurd (le_trans (le_of_lt this) h2) hku
    simp only [Tree.keys, List.filter_append, List.filter_cons] at hQ
    simp only [_search, ptr_node, reduceCtorEq, if_false, wp_bind, wp_load, hA,
      Option.some.injEq, exists_eq_left', wp_ite, wp_pure, ge_iff_le]
    have hright : ∀ keys2,
        Q (keys2 ++ r.keys.filter (fun x => decide (lower ≤ x ∧ x ≤ upper))) w →
        (if r.isNil = true then wp (_search lower upper f none keys2) Q w
         else wp (_search lower upper f (r.rightPtr s) keys2) Q w) := by
      intro keys2 hq
      have h1 := ihr w s f keys2 Q hR hbr (by omega) hq
      cases hr : r.isNil with
      | true =>
        have h2 := eq_nil_of_isNil hr
        subst h2
        simpa using h1
      | false =>
        simp only [Bool.false_eq_true, if_false,
          rightPtr_of_not_isNil (by simp [hr] : ¬ r.isNil = true)]
        exact h1
    by_cases hlo : lower ≤ k
    · simp only [hlo, if_true, true_and]
      refine ihl w (some a) f keys _ hL hbl (by omega) ?_
      simp only [hA, Option.some.injEq, exists_eq_left']
      by_cases hup : k ≤ upper
      · simp only [hup, if_true, hlo, and_self]
        refine hright _ ?_
        simpa [hlo, hup] using hQ
      · simp only [hup, if_false, and_false]
        rw [hfr hup] at hQ
        simpa [hlo, hup] using hQ
    · simp only [hlo, if_false, false_and]
      rw [hfl hlo] at hQ
      by_cases hup : k ≤ upper
      · simp only [hup, if_true]
        refine hright _ ?_
        simpa [hlo, hup] using hQ
      · simp only [hup, if_false]
        rw [hfr hup] at hQ
        simpa [hlo, hup] using hQ

/-- A call of `range_search` returns the keys of the tree that lie in
`[lower, upper]`, in inorder, and leaves the machine state unchanged. -/
theorem run_range_search {w : World K V} {t : Tree K V} (hm : Models w t) (hb : t.BST)
    (lower upper : K) :
    (range_search lower upper).run w
      = some (t.keys.filter (fun x => decide (lower ≤ x ∧ x ≤ upper)), w) := by
  obtain ⟨hst, hroot, hnd⟩ := hm
  have hwp : wp (range_search lower upper)
      (fun r w' => r = t.keys.filter (fun x => decide (lower ≤ x ∧ x ≤ upper)) ∧ w' = w) w := by
    simp only [range_search, wp_bind, wp_storeSize, wp_getRoot, hroot]
    refine wp_search_range lower upper t w none _ [] _ hst hb
      (Nat.lt_succ_of_le (size_le_length hst hnd)) ?_
    simp
  obtain ⟨r, w', hrun, rfl, rfl⟩ := hwp
  exact hrun

end search
end AVLT

namespace AVLT

section nodes
variable {K V : Type}

theorem trueHeight_eq {H : Mem K V} (t : Tree K V) :
    ∀ (s : Ptr) (fuel : Nat), Tree.Stored H t s → t.size ≤ fuel →
      trueHeight H fuel t.ptr = t.height := by
  induction t with
  | nil =>
    intro s fuel _ _
    cases fuel <;> rfl
  | node a l k v h r ihl ihr =>
    intro s fuel hst hf
    obtain ⟨hA, hL, hR⟩ := hst
    simp only [Tree.size] at hf
    obtain ⟨f, rfl⟩ : ∃ f, fuel = f + 1 := ⟨fuel - 1, by omega⟩
    simp only [ptr_node, trueHeight, hA, Tree.height, NODE.actualRight]
    rw [ihl (some a) f hL (by omega)]
    cases hr : r.isNil with
    | true =>
      have := eq_nil_of_isNil hr
      subst this
      simp only [if_true]
      cases f <;> rfl
    | false =>
      simp only [Bool.false_eq_true, if_false,
        rightPtr_of_not_isNil (by simp [hr] : ¬ r.isNil = true)]
      rw [ihr s f hR (by omega)]

theorem mem_subtrees_self (a : Nat) (l : Tree K V) (k : K) (v : V) (h : Int) (r : Tree K V) :
    Tree.node a l k v h r ∈ (Tree.node a l k v h r).subtrees := by
  simp [Tree.subtrees]

theorem stored_subtree {H : Mem K V} {t x : Tree K V} {s : Ptr} (hst : Tree.Stored H t s)
    (hx : x ∈ t.subtrees) : ∃ s2, Tree.Stored H x s2 := by
  induction t generalizing s with
  | nil => simp [Tree.subtrees] at hx
  | node a l k v h r ihl ihr =>
    simp only [Tree.subtrees, List.mem_append, List.mem_cons] at hx
    rcases hx with hx | rfl | hx
    · exact ihl hst.2.1 hx
    · exact ⟨s, hst⟩
    · exact ihr hst.2.2 hx

theorem heightsOK_subtree {t x : Tree K V} (h : t.HeightsOK) (hx : x ∈ t.subtrees) :
    x.HeightsOK := by
  induction t with
  | nil => simp [Tree.subtrees] at hx
  | node a l k v h0 r ihl ihr =>
    simp only [Tree.subtrees, List.mem_append, List.mem_cons] at hx
    rcases hx with hx | rfl | hx
    · exact ihl h.1 hx
    · exact h
    · exact ihr h.2.1 hx

theorem balanced_subtree {t x : Tree K V} (h : t.Balanced) (hx : x ∈ t.subtrees) :
    x.Balanced := by
  induction t with
  | nil => simp [Tree.subtrees] at hx
  | node a l k v h0 r ihl ihr =>
    simp only [Tree.subtrees, List.mem_append, List.mem_cons] at hx
    rcases hx with hx | rfl | hx
    · exact ihl h.1 hx
    · exact h
    · exact ihr h.2.1 hx

theorem size_subtree {t x : Tree K V} (hx : x ∈ t.subtrees) : x.size ≤ t.size := by
  induction t with
  | nil => simp [Tree.subtrees] at hx
  | node a l k v h0 r ihl ihr =>
    simp only [Tree.subtrees, List.mem_append, List.mem_cons] at hx
    simp only [Tree.size]
    rcases hx with hx | rfl | hx
    · have := ihl hx; omega
    · simp only [Tree.size]; omega
    · have := ihr hx; omega

theorem exists_subtree_of_addr {t : Tree K V} {a : Nat} (ha : a ∈ t.addrs) :
    ∃ l k v h r, Tree.node a l k v h r ∈ t.subtrees := by
  induction t with
  | nil => simp [Tree.addrs] at ha
  | node b l k v h r ihl ihr =>
    simp only [Tree.addrs, List.mem_append, List.mem_cons] at ha
    rcases ha with ha | rfl | ha
    · obtain ⟨l2, k2, v2, h2, r2, hx⟩ := ihl ha
      exact ⟨l2, k2, v2, h2, r2, by simp [Tree.subtrees, hx]⟩
    · exact ⟨l, k, v, h, r, mem_subtrees_self _ _ _ _ _ _⟩
    · obtain ⟨l2, k2, v2, h2, r2, hx⟩ := ihr ha
      exact ⟨l2, k2, v2, h2, r2, by simp [Tree.subtrees, hx]⟩

/-- The cell of a node of a stored tree: its fields and the true heights of
its two real subtrees, read from the store. -/
theorem cell_of_subtree {H : Mem K V} {t : Tree K V} {s : Ptr} (hst : Tree.Stored H t s)
    {a : Nat} {l r : Tree K V} {k : K} {v : V} {h : Int}
    (hx : Tree.node a l k v h r ∈ t.subtrees) {fuel : Nat} (hf : t.size ≤ fuel) :
    ∃ nd, rd H a = some nd ∧ nd.Key = k ∧ nd.Value = v ∧ nd.Height = h ∧
      nd.isThreaded = r.isNil ∧ nd.Left = l.ptr ∧ nd.actualRight = r.ptr ∧
      trueHeight H fuel nd.Left = l.height ∧ trueHeight H fuel nd.actualRight = r.height := by
  obtain ⟨s2, hA, hL, hR⟩ := stored_subtree hst hx
  have hsz := size_subtree hx
  simp only [Tree.size] at hsz
  have har : (⟨k, v, l.ptr, r.rightPtr s2, r.isNil, h⟩ : NODE K V).actualRight = r.ptr := by
    cases r <;> rfl
  refine ⟨_, hA, rfl, rfl, rfl, rfl, rfl, har, ?_, ?_⟩
  · exact trueHeight_eq l (some a) fuel hL (by omega)
  · rw [har]; exact trueHeight_eq r s2 fuel hR (by omega)

end nodes
end AVLT

namespace AVLT

section threads
variable {K V : Type} [LinearOrder K]

theorem threadOK_subtree {H : Mem K V} {G : List K} (t : Tree K V) :
    ∀ (s : Ptr) (lo hi : Option K), Tree.Stored H t s → t.BST →
      (∀ x ∈ t.keys, aboveLo lo x ∧ belowHi hi x) →
      (∀ x ∈ G, aboveLo lo x → belowHi hi x → x ∈ t.keys) →
      TargetsKey H s hi →
      ∀ a l k v h, Tree.node a l k v h .nil ∈ t.subtrees →
        ∃ nd, rd H a = some nd ∧ ThreadOK H G nd := by
  induction t with
  | nil =>
    intro s lo hi _ _ _ _ _ a l k v h hx
    simp [Tree.subtrees] at hx
  | node b l kb vb hb r ihl ihr =>
    intro s lo hi hst hbst hsound hcomp htk a l2 k v h hx
    obtain ⟨hA, hL, hR⟩ := hst
    obtain ⟨hbl, hbr, hkl, hkr⟩ := bst_node.mp hbst
    have hkb := hsound kb (by simp [Tree.keys])
    simp only [Tree.subtrees, List.mem_append, List.mem_cons] at hx
    rcases hx with hx | hx | hx
    · refine ihl (some b) lo (some kb) hL hbl (fun x hx1 => ⟨?_, hkl x hx1⟩)
        (fun x hxG h1 h2 => ?_) ⟨_, hA, rfl⟩ a l2 k v h hx
      · exact (hsound x (by simp [Tree.keys, hx1])).1
      · have h3 : belowHi hi x := by
          cases hi with
          | none => trivial
          | some c => exact lt_trans h2 hkb.2
        have h4 := hcomp x hxG h1 h3
        rcases mem_keys_node.mp h4 with h5 | h5 | h5
        · exact h5
        · exact absurd h2 (by rw [h5]; exact lt_irrefl _)
        · exact absurd (hkr x h5) (not_lt.mpr (le_of_lt h2))
    · simp only [Tree.node.injEq] at hx
      obtain ⟨rfl, rfl, rfl, rfl, rfl, hrn⟩ := hx
      subst hrn
      refine ⟨_, hA, ?_⟩
      have hno : ∀ x ∈ G, k < x → belowHi hi x → False := by
        intro x hxG h1 h2
        have h3 : aboveLo lo x := by
          cases lo with
          | none => trivial
          | some c => exact lt_trans hkb.1 h1
        rcases mem_keys_node.mp (hcomp x hxG h3 h2) with h5 | h5 | h5
        · exact absurd (hkl x h5) (not_lt.mpr (le_of_lt h1))
        · exact absurd h1 (by rw [h5]; exact lt_irrefl _)
        · simp [Tree.keys] at h5
      simp only [ThreadOK, rightPtr_nil]
      cases s with
      | none =>
        cases hi with
        | none =>
          intro x hxG
          by_contra hc
          exact hno x hxG (not_le.mp hc) trivial
        | some c => simp [TargetsKey] at htk
      | some c =>
        cases hi with
        | none => simp [TargetsKey] at htk
        | some kc =>
          obtain ⟨nb, hnb, hkc⟩ := htk
          refine ⟨nb, hnb, by rw [hkc]; exact hkb.2, fun x hxG h1 => ?_⟩
          by_contra hc
          rw [hkc] at hc
          exact hno x hxG h1 (not_le.mp hc)
    · refine ihr s (some kb) hi hR hbr (fun x hx1 => ⟨hkr x hx1, ?_⟩)
        (fun x hxG h1 h2 => ?_) htk a l2 k v h hx
      · exact (hsound x (by simp [Tree.keys, hx1])).2
      · have h3 : aboveLo lo x := by
          cases lo with
          | none => trivial
          | some c => exact lt_trans hkb.1 h1
        have h4 := hcomp x hxG h3 h2
        rcases mem_keys_node.mp h4 with h5 | h5 | h5
        · exact absurd (hkl x h5) (not_lt.mpr (le_of_lt h1))
        · exact absurd h1 (by rw [h5]; exact lt_irrefl _)
        · exact h5

end threads
end AVLT

namespace AVLT

section bridge
variable {K V : Type} [LinearOrder K]

omit [LinearOrder K] in
theorem firstValue_isSome_iff [DecidableEq K] (k : K) (ops : List (K × V)) :
    (firstValue k ops).isSome = true ↔ k ∈ ops.map Prod.fst := by
  induction ops with
  | nil => simp [firstValue]
  | cons op rest ih =>
    obtain ⟨k2, v2⟩ := op
    simp only [firstValue, List.map_cons, List.mem_cons]
    by_cases h : k = k2
    · simp [h]
    · simp [h, ih]

theorem mem_keys_iff {w : World K V} {t : Tree K V} {ops : List (K × V)} (hinv : Inv w t ops)
    (k : K) : k ∈ t.keys ↔ k ∈ ops.map Prod.fst := by
  obtain ⟨_, _, _, _, hc, _, _⟩ := hinv
  rw [← firstValue_isSome_iff]
  constructor
  · intro hk
    obtain ⟨v, hv⟩ := exists_toList_of_key hk
    rw [(hc k v).mp hv]; rfl
  · intro h
    obtain ⟨v, hv⟩ := Option.isSome_iff_exists.mp h
    exact mem_toList_key ((hc k v).mpr hv)

theorem find_eq_firstValue {w : World K V} {t : Tree K V} {ops : List (K × V)}
    (hinv : Inv w t ops) (k : K) : t.find? k = firstValue k ops := by
  obtain ⟨_, hb, _, _, hc, _, _⟩ := hinv
  cases h : firstValue k ops with
  | some v => exact (find_eq_some_iff hb k v).mpr ((hc k v).mpr h)
  | none =>
    cases h2 : t.find? k with
    | none => rfl
    | some v =>
      have := (hc k v).mp ((find_eq_some_iff hb k v).mp h2)
      rw [h] at this
      simp at this

theorem keys_eq_sort {w : World K V} {t : Tree K V} {ops : List (K × V)}
    (hinv : Inv w t ops) : t.keys = (ops.map Prod.fst).toFinset.sort (· ≤ ·) := by
  have hb : t.keys.Pairwise (· < ·) := hinv.2.1
  have hsorted : t.keys.Sorted (· ≤ ·) := hb.imp le_of_lt
  have hnd : t.keys.Nodup := hb.imp ne_of_lt
  have hfs : t.keys.toFinset = (ops.map Prod.fst).toFinset := by
    ext k
    simp only [List.mem_toFinset]
    exact mem_keys_iff hinv k
  rw [← hfs]
  exact ((List.toFinset_sort (· ≤ ·) hnd).mpr hsorted).symm

end bridge
end AVLT

namespace AVLT

section copyshape
variable {K V : Type}

theorem pre_length (t : Tree K V) : t.pre.length = t.size := by
  induction t with
  | nil => rfl
  | node a l k v h r ihl ihr =>
    simp only [Tree.pre, List.length_cons, List.length_append, ihl, ihr, Tree.size]
    omega

theorem mem_pre_key {t : Tree K V} {p : K × V × Int} (hp : p ∈ t.pre) : p.1 ∈ t.keys := by
  induction t with
  | nil => simp [Tree.pre] at hp
  | node a l k v h r ihl ihr =>
    simp only [Tree.pre, List.mem_cons, List.mem_append] at hp
    rw [mem_keys_node]
    rcases hp with rfl | hp | hp
    · exact Or.inr (Or.inl rfl)
    · exact Or.inl (ihl hp)
    · exact Or.inr (Or.inr (ihr hp))

theorem isNil_relabel (n : Nat) (t : Tree K V) : (Tree.relabel n t).isNil = t.isNil := by
  cases t <;> rfl

theorem ptr_relabel (n : Nat) (t : Tree K V) :
    (Tree.relabel n t).ptr = if t.isNil then none else some n := by
  cases t <;> rfl

theorem size_relabel (t : Tree K V) : ∀ n : Nat, (Tree.relabel n t).size = t.size := by
  induction t with
  | nil => intro n; rfl
  | node a l k v h r ihl ihr => intro n; simp only [Tree.relabel, Tree.size, ihl, ihr]

theorem shape_relabel (t : Tree K V) :
    ∀ (n : Nat) (hi : Option K), (Tree.relabel n t).shape hi = t.shape hi := by
  induction t with
  | nil => intro n hi; rfl
  | node a l k v h r ihl ihr =>
    intro n hi
    simp only [Tree.relabel, Tree.shape, ihl, ihr, isNil_relabel]

theorem keyAt_of_targets {H : Mem K V} {s : Ptr} {hi : Option K} (h : TargetsKey H s hi) :
    keyAt H s = hi := by
  cases s with
  | none =>
    cases hi with
    | none => rfl
    | some kb => exact False.elim h
  | some b =>
    cases hi with
    | none => exact False.elim h
    | some kb =>
      obtain ⟨nb, h1, h2⟩ := h
      simp [keyAt, h1, h2]

/-- The image read from the store at the root of a stored tree is the image of
the tree. -/
theorem shapeAt_eq {H : Mem K V} (t : Tree K V) :
    ∀ (s : Ptr) (hi : Option K) (fuel : Nat), Tree.Stored H t s → TargetsKey H s hi →
      t.size ≤ fuel → shapeAt H fuel t.ptr = t.shape hi := by
  induction t with
  | nil =>
    intro s hi fuel _ _ _
    cases fuel <;> rfl
  | node a l k v h r ihl ihr =>
    intro s hi fuel hst htg hf
    obtain ⟨hA, hL, hR⟩ := hst
    simp only [Tree.size] at hf
    obtain ⟨f, rfl⟩ : ∃ f, fuel = f + 1 := ⟨fuel - 1, by omega⟩
    simp only [ptr_node, shapeAt, hA, Tree.shape, NODE.actualRight]
    rw [ihl (some a) (some k) f hL ⟨_, hA, rfl⟩ (by omega)]
    cases hr : r.isNil with
    | true =>
      have := eq_nil_of_isNil hr
      subst this
      simp only [if_true, rightPtr_nil, keyAt_of_targets htg, Tree.shape]
      cases f <;> rfl
    | false =>
      simp only [Bool.false_eq_true, if_false,
        rightPtr_of_not_isNil (by simp [hr] : ¬ r.isNil = true)]
      rw [ihr s hi f hR htg (by omega)]

end copyshape

section copyfacts
variable {K V : Type} [LinearOrder K]

theorem linkAll_append (ps qs : List (K × V × Int)) :
    ∀ (n : Nat) (t : Tree K V),
      Tree.linkAll (ps ++ qs) n t = Tree.linkAll qs (n + ps.length) (Tree.linkAll ps n t) := by
  induction ps with
  | nil => intro n t; rfl
  | cons p ps ih =>
    intro n t
    obtain ⟨k, v, h⟩ := p
    rw [List.cons_append, List.length_cons,
      show n + (ps.length + 1) = n + 1 + ps.length by omega]
    exact ih (n + 1) (Tree.link k v h n t)

theorem linkAll_left (ps : List (K × V × Int)) :
    ∀ (n b : Nat) (l r : Tree K V) (k : K) (v : V) (h : Int), (∀ p ∈ ps, p.1 < k) →
      Tree.linkAll ps n (Tree.node b l k v h r) = Tree.node b (Tree.linkAll ps n l) k v h r := by
  induction ps with
  | nil => intro n b l r k v h _; rfl
  | cons p ps ih =>
    intro n b l r k v h hlt
    obtain ⟨kp, vp, hp⟩ := p
    have h1 : kp < k := hlt (kp, vp, hp) (List.mem_cons_self _ _)
    simp only [Tree.linkAll, Tree.link, ne_of_lt h1, h1, if_true, if_false]
    exact ih _ _ _ _ _ _ _ (fun p hp => hlt p (List.mem_cons_of_mem _ hp))

theorem linkAll_right (ps : List (K × V × Int)) :
    ∀ (n b : Nat) (l r : Tree K V) (k : K) (v : V) (h : Int), (∀ p ∈ ps, k < p.1) →
      Tree.linkAll ps n (Tree.node b l k v h r) = Tree.node b l k v h (Tree.linkAll ps n r) := by
  induction ps with
  | nil => intro n b l r k v h _; rfl
  | cons p ps ih =>
    intro n b l r k v h hlt
    obtain ⟨kp, vp, hp⟩ := p
    have h1 : k < kp := hlt (kp, vp, hp) (List.mem_cons_self _ _)
    simp only [Tree.linkAll, Tree.link, ne_of_gt h1, not_lt_of_gt h1, if_false]
    exact ih _ _ _ _ _ _ _ (fun p hp => hlt p (List.mem_cons_of_mem _ hp))

/-- Linking the nodes of a search tree in preorder into the empty tree builds
the same tree again, at the new addresses. -/
theorem linkAll_pre (x : Tree K V) :
    ∀ n : Nat, x.BST → Tree.linkAll x.pre n Tree.nil = Tree.relabel n x := by
  induction x with
  | nil => intro n _; rfl
  | node a l k v h r ihl ihr =>
    intro n hb
    obtain ⟨hbl, hbr, hkl, hkr⟩ := bst_node.mp hb
    simp only [Tree.pre, Tree.linkAll, Tree.link, Tree.relabel]
    rw [linkAll_append, linkAll_left _ _ _ _ _ _ _ _ (fun p hp => hkl _ (mem_pre_key hp)),
      linkAll_right _ _ _ _ _ _ _ _ (fun p hp => hkr _ (mem_pre_key hp)), ihl _ hbl, ihr _ hbr,
      pre_length]

end copyfacts

end AVLT

namespace AVLT

section insertNode
variable {K V : Type} [LinearOrder K]

theorem wp_insertNode_descend (key : K) (t : Tree K V) :
    ∀ (w : World K V) (s : Ptr) (fuel : Nat) (prev : Ptr)
      (Q : Option Ptr → World K V → Prop),
      Tree.Stored w.mem t s → t.BST → t.size < fuel →
      (if key ∈ t.keys then Q none w else Q (some (t.last key prev)) w) →
      wp (_insertNode.descend key fuel t.ptr prev) Q w := by
  induction t with
  | nil =>
    intro w s fuel prev Q _ _ hf hQ
    obtain ⟨f, rfl⟩ : ∃ f, fuel = f + 1 := ⟨fuel - 1, by omega⟩
    simpa [_insertNode.descend, Tree.keys, Tree.last] using hQ
  | node a l k v h r ihl ihr =>
    intro w s fuel prev Q hst hb hf hQ
    obtain ⟨f, rfl⟩ : ∃ f, fuel = f + 1 := ⟨fuel - 1, by omega⟩
    obtain ⟨hbl, hbr, hkl, hkr⟩ := bst_node.mp hb
    obtain ⟨hA, hL, hR⟩ := hst
    simp only [Tree.size] at hf
    simp only [_insertNode.descend, ptr_node, reduceCtorEq, if_false, wp_bind, wp_load, hA,
      Option.some.injEq, exists_eq_left', wp_ite, wp_pure, wp_getActualLeft hA,
      wp_getActualRight hA]
    simp only [Tree.last] at hQ
    by_cases hk1 : key = k
    · simp only [hk1, if_true] at hQ ⊢
      simpa [Tree.keys] using hQ
    · simp only [hk1, if_false] at hQ ⊢
      by_cases hk2 : key < k
      · simp only [hk2, if_true] at hQ ⊢
        simp only [mem_keys_left hb hk2] at hQ
        exact ihl w (some a) f (some a) Q hL hbl (by omega) hQ
      · simp only [hk2, if_false] at hQ ⊢
        simp only [mem_keys_right hb hk1 hk2] at hQ
        exact ihr w s f (some a) Q hR hbr (by omega) hQ

/-- The call `_insertNode(key, value, height)` with a key that is not in the
tree links a new node with the given height, and touches no other tree. -/
theorem wp_insertNode {w : World K V} {t : Tree K V} (key : K) (val : V) (h0 : Int)
    (hm : Models w t) (hb : t.BST) (hk : key ∉ t.keys)
    (Q : Unit → World K V → Prop)
    (hQ : ∀ w', Models w' (Tree.link key val h0 w.mem.length t) →
      w'.obj.Size = w.obj.Size → w'.obj.state = w.obj.state →
      w'.mem.length = w.mem.length + 1 →
      (∀ b, b ∉ t.addrs → b ≠ w.mem.length → rd w'.mem b = rd w.mem b) → Q () w') :
    wp (_insertNode key val h0) Q w := by
  obtain ⟨hst, hroot, hnd⟩ := hm
  have hfresh : w.mem.length ∉ t.addrs := fun h => Nat.lt_irrefl _ (stored_lt hst _ h)
  simp only [_insertNode, wp_bind, wp_storeSize, wp_getRoot, hroot]
  refine wp_insertNode_descend key t w none _ none _ hst hb
    (Nat.lt_succ_of_le (size_le_length hst hnd)) ?_
  simp only [hk, if_false, wp_new, wp_bind]
  have hst0 : Tree.Stored (w.mem ++ [some ⟨key, val, none, none, true, h0⟩]) t none :=
    stored_frame (fun a ha => rd_append_lt _ _ (stored_lt hst a ha)) hst
  have hN0 : rd (w.mem ++ [some ⟨key, val, none, none, true, h0⟩]) w.mem.length
      = some ⟨key, val, none, none, true, h0⟩ := rd_append_length _ _
  cases htn : t.isNil with
  | true =>
    have ht := eq_nil_of_isNil htn
    subst ht
    simp only [Tree.last, insert.link, if_true, wp_bind, setRight, wp_store, hN0,
      Option.some.injEq, exists_eq_left', wp_setRoot]
    refine hQ _ ⟨?_, ?_, ?_⟩ rfl rfl ?_ ?_
    · simp [Tree.link, Tree.Stored, rd_set, hN0]
    · simp [Tree.link]
    · simp [Tree.link, Tree.addrs]
    · simp
    · intro b _ hb2
      simp only [rd_set, Ne.symm hb2, false_and, if_false]
      by_cases hlt : b < w.mem.length
      · exact rd_append_lt _ _ hlt
      · rw [rd_ge (by simp; omega), rd_ge (by omega)]
  | false =>
    refine wp_link key val h0 w.mem.length t _ none none _ htn hst0 hnd hk hfresh hN0
      (fun w1 hst1 hfr1 => ?_)
    refine hQ _ ⟨hst1, ?_, nodup_link hk hfresh hnd⟩ ?_ ?_ ?_ ?_
    · simp [hfr1.1, ptr_link htn, hroot]
    · simp [hfr1.1]
    · simp [hfr1.1]
    · simp [hfr1.2.1]
    · intro b hb1 hb2
      rw [hfr1.2.2 b (by simp [hb1, hb2])]
      by_cases hlt : b < w.mem.length
      · exact rd_append_lt _ _ hlt
      · rw [rd_ge (by simp; omega), rd_ge (by omega)]

end insertNode

end AVLT

namespace AVLT

section walk
variable {K V : Type} [LinearOrder K]

omit [LinearOrder K] in
theorem pre_keys_perm (t : Tree K V) : (t.pre.map Prod.fst).Perm t.keys := by
  induction t with
  | nil => exact List.Perm.refl _
  | node a l k v h r ihl ihr =>
    simp only [Tree.pre, List.map_cons, List.map_append, Tree.keys]
    exact ((ihl.append ihr).cons k).trans List.perm_middle.symm

omit [LinearOrder K] in
theorem mem_pre_iff (t : Tree K V) (k : K) : k ∈ t.pre.map Prod.fst ↔ k ∈ t.keys :=
  (pre_keys_perm t).mem_iff

theorem linkAll_facts (ps : List (K × V × Int)) :
    ∀ (n n0 : Nat) (t : Tree K V), t.BST → (ps.map Prod.fst).Nodup →
      (∀ k ∈ ps.map Prod.fst, k ∉ t.keys) → (∀ b ∈ t.addrs, n0 ≤ b) → n0 ≤ n →
      (Tree.linkAll ps n t).BST ∧
        (∀ k, k ∈ (Tree.linkAll ps n t).keys ↔ k ∈ ps.map Prod.fst ∨ k ∈ t.keys) ∧
        (∀ b ∈ (Tree.linkAll ps n t).addrs, n0 ≤ b) := by
  induction ps with
  | nil =>
    intro n n0 t hb _ _ ha _
    exact ⟨hb, fun k => by simp [Tree.linkAll], ha⟩
  | cons p ps ih =>
    intro n n0 t hb hnd hk ha hn
    obtain ⟨kp, vp, hp⟩ := p
    simp only [List.map_cons, List.nodup_cons, List.mem_cons, forall_eq_or_imp] at hnd hk
    have hperm := keys_link_perm kp vp hp n t hk.1
    obtain ⟨i1, i2, i3⟩ := ih (n + 1) n0 (Tree.link kp vp hp n t) (bst_link hk.1 hb) hnd.2
      (fun k hkin hkl => by
        rcases List.mem_cons.mp (hperm.subset hkl) with h | h
        · exact hnd.1 (h ▸ hkin)
        · exact hk.2 k hkin h)
      (fun b hbin => by
        rcases List.mem_cons.mp ((addrs_link_perm kp vp hp n t hk.1).subset hbin) with h | h
        · omega
        · exact ha b h)
      (by omega)
    refine ⟨i1, fun k => ?_, i3⟩
    simp only [Tree.linkAll, List.map_cons, List.mem_cons]
    rw [i2 k, hperm.mem_iff, List.mem_cons]
    tauto

/-- The walk `_insert(cur)` over a tree `x` stored below the address `n0`
links the nodes of `x` in preorder into the tree `u` of the object, whose
nodes are at `n0` and above; the cells below `n0` are not written. -/
theorem wp_insert_walk (n0 : Nat) (x : Tree K V) :
    ∀ (w : World K V) (u : Tree K V) (sx : Ptr) (fuel : Nat) (Q : Unit → World K V → Prop),
      Tree.Stored w.mem x sx → x.BST → (∀ a ∈ x.addrs, a < n0) →
      Models w u → u.BST → (∀ b ∈ u.addrs, n0 ≤ b) → n0 ≤ w.mem.length →
      (∀ k ∈ x.keys, k ∉ u.keys) → x.size < fuel →
      (∀ w', Models w' (Tree.linkAll x.pre w.mem.length u) →
         w'.obj.Size = w.obj.Size → w'.obj.state = w.obj.state →
         w'.mem.length = w.mem.length + x.size →
         (∀ b, b < n0 → rd w'.mem b = rd w.mem b) → Q () w') →
      wp (_insert fuel x.ptr) Q w := by
  induction x with
  | nil =>
    intro w u sx fuel Q _ _ _ hm _ _ _ _ hf hQ
    obtain ⟨f, rfl⟩ : ∃ f, fuel = f + 1 := ⟨fuel - 1, by omega⟩
    simp only [_insert, ptr_nil, if_true, wp_pure]
    exact hQ w hm rfl rfl rfl (fun _ _ => rfl)
  | node a l k v h r ihl ihr =>
    intro w u sx fuel Q hst hbx hax hm hbu hau hn hku hf hQ
    obtain ⟨f, rfl⟩ : ∃ f, fuel = f + 1 := ⟨fuel - 1, by omega⟩
    obtain ⟨hbl, hbr, hkl, hkr⟩ := bst_node.mp hbx
    obtain ⟨hA, hL, hR⟩ := hst
    simp only [Tree.size] at hf
    have han : a < n0 := hax a (by simp [Tree.addrs])
    have hal : ∀ b ∈ l.addrs, b < n0 := fun b hb => hax b (by simp [Tree.addrs, hb])
    have har : ∀ b ∈ r.addrs, b < n0 := fun b hb => hax b (by simp [Tree.addrs, hb])
    have hk0 : k ∉ u.keys := hku k (by simp [Tree.keys])
    simp only [_insert, ptr_node, reduceCtorEq, if_false, wp_bind, wp_load, hA,
      Option.some.injEq, exists_eq_left']
    -- the node of the root
    refine wp_insertNode k v h hm hbu hk0 _ (fun w1 hm1 hsz1 hs1 hlen1 hfr1 => ?_)
    have hlow1 : ∀ b, b < n0 → rd w1.mem b = rd w.mem b := fun b hb =>
      hfr1 b (fun hin => by have := hau b hin; omega) (by omega)
    have hA1 : rd w1.mem a = some ⟨k, v, l.ptr, Tree.rightPtr r sx, r.isNil, h⟩ := by
      rw [hlow1 a han]; exact hA
    have hperm1 := keys_link_perm k v h w.mem.length u hk0
    have hb1 : (Tree.link k v h w.mem.length u).BST := bst_link hk0 hbu
    have ha1 : ∀ b ∈ (Tree.link k v h w.mem.length u).addrs, n0 ≤ b := fun b hbin => by
      rcases List.mem_cons.mp ((addrs_link_perm k v h _ u hk0).subset hbin) with h | h
      · omega
      · exact hau b h
    simp only [wp_load, hA1, Option.some.injEq, exists_eq_left', wp_bind]
    -- the left subtree
    refine ihl w1 _ (some a) f _ (stored_frame (fun b hb => hlow1 b (hal b hb)) hL) hbl hal
      hm1 hb1 ha1 (by omega)
      (fun x hx hxl => by
        rcases List.mem_cons.mp (hperm1.subset hxl) with h | h
        · exact absurd (hkl x hx) (by rw [h]; exact lt_irrefl _)
        · exact hku x (by simp [Tree.keys, hx]) h)
      (by omega) (fun w2 hm2 hsz2 hs2 hlen2 hfr2 => ?_)
    have hA2 : rd w2.mem a = some ⟨k, v, l.ptr, Tree.rightPtr r sx, r.isNil, h⟩ := by
      rw [hfr2 a han]; exact hA1
    obtain ⟨hb2, hk2, ha2⟩ := linkAll_facts l.pre w1.mem.length n0 _ hb1
      ((pre_keys_perm l).nodup_iff.mpr
        (List.Pairwise.imp (fun hlt => ne_of_lt hlt) hbl))
      (fun x hx hxl => by
        rw [mem_pre_iff] at hx
        rcases List.mem_cons.mp (hperm1.subset hxl) with h | h
        · exact absurd (hkl x hx) (by rw [h]; exact lt_irrefl _)
        · exact hku x (by simp [Tree.keys, hx]) h)
      ha1 (by omega)
    -- the right subtree
    have hgoal : wp (_insert f r.ptr) Q w2 := by
      refine ihr w2 _ sx f _
        (stored_frame (fun b hb => by rw [hfr2 b (har b hb), hlow1 b (har b hb)]) hR) hbr har
        hm2 hb2 ha2 (by omega)
        (fun x hx hxl => by
          rcases (hk2 x).mp hxl with h | h
          · rw [mem_pre_iff] at h
            exact absurd (lt_trans (hkl x h) (hkr x hx)) (lt_irrefl _)
          · rcases List.mem_cons.mp (hperm1.subset h) with h | h
            · exact absurd (hkr x hx) (by rw [h]; exact lt_irrefl _)
            · exact hku x (by simp [Tree.keys, hx]) h)
        (by omega) (fun w3 hm3 hsz3 hs3 hlen3 hfr3 => ?_)
      have hall : Tree.linkAll (Tree.node a l k v h r).pre w.mem.length u
          = Tree.linkAll r.pre w2.mem.length
              (Tree.linkAll l.pre w1.mem.length (Tree.link k v h w.mem.length u)) := by
        simp only [Tree.pre, Tree.linkAll]
        rw [linkAll_append, hlen2, hlen1, pre_length]
      refine hQ w3 (by rw [hall]; exact hm3) (by rw [hsz3, hsz2, hsz1])
        (by rw [hs3, hs2, hs1]) (by rw [hlen3, hlen2, hlen1]; simp only [Tree.size]; omega)
        (fun b hb => by rw [hfr3 b hb, hfr2 b hb, hlow1 b hb])
    simp only [wp_load, hA2, Option.some.injEq, exists_eq_left', wp_bind]
    cases hr : r.isNil with
    | true =>
      simp only [if_true]
      rw [ptr_of_isNil hr] at hgoal
      exact hgoal
    | false =>
      simp only [Bool.false_eq_true, if_false, wp_bind, wp_load, hA2, Option.some.injEq,
        exists_eq_left', rightPtr_of_not_isNil (by simp [hr] : ¬ r.isNil = true)]
      exact hgoal

end walk

end AVLT

namespace AVLT

section clearing
variable {K V : Type}

@[simp] theorem wp_readOther_some (o : avlt) (Q : avlt → World K V → Prop) (w : World K V) :
    wp (readOther (some o)) Q w ↔ Q o w :=
  wp_of_run rfl

@[simp] theorem wp_readOther_none (Q : avlt → World K V → Prop) (w : World K V) :
    wp (readOther none) Q w ↔ Q w.obj w :=
  wp_of_run rfl

/-- The walk `_clearTree(cur)` over a stored tree returns, and writes only
the cells of that tree. -/
theorem wp_clearTree (t : Tree K V) :
    ∀ (w : World K V) (s : Ptr) (fuel : Nat) (Q : Unit → World K V → Prop),
      Tree.Stored w.mem t s → t.addrs.Nodup → t.size < fuel →
      (∀ w', w'.obj = w.obj → w'.mem.length = w.mem.length →
        (∀ b, b ∉ t.addrs → rd w'.mem b = rd w.mem b) → Q () w') →
      wp (_clearTree fuel t.ptr) Q w := by
  induction t with
  | nil =>
    intro w s fuel Q _ _ hf hQ
    obtain ⟨f, rfl⟩ : ∃ f, fuel = f + 1 := ⟨fuel - 1, by omega⟩
    simp only [_clearTree, ptr_nil, if_true, wp_pure]
    exact hQ w rfl rfl (fun _ _ => rfl)
  | node a l k v h r ihl ihr =>
    intro w s fuel Q hst hnd hf hQ
    obtain ⟨f, rfl⟩ : ∃ f, fuel = f + 1 := ⟨fuel - 1, by omega⟩
    obtain ⟨hndl, hndr, hal, har, hlr⟩ := nodup_node.mp hnd
    obtain ⟨hA, hL, hR⟩ := hst
    simp only [Tree.size] at hf
    simp only [_clearTree, ptr_node, reduceCtorEq, if_false, wp_bind, wp_load, hA,
      Option.some.injEq, exists_eq_left']
    refine ihl w (some a) f _ hL hndl (by omega) (fun w1 hobj1 hlen1 hfr1 => ?_)
    have hA1 : rd w1.mem a = some ⟨k, v, l.ptr, Tree.rightPtr r s, r.isNil, h⟩ := by
      rw [hfr1 a hal]; exact hA
    have hgoal : wp (_clearTree f r.ptr)
        (fun _ w2 => wp (delete (some a)) Q w2) w1 := by
      refine ihr w1 s f _
        (stored_frame (fun b hb => hfr1 b (fun hbl => hlr b hbl hb)) hR) hndr (by omega)
        (fun w2 hobj2 hlen2 hfr2 => ?_)
      have hA2 : rd w2.mem a = some ⟨k, v, l.ptr, Tree.rightPtr r s, r.isNil, h⟩ := by
        rw [hfr2 a har]; exact hA1
      simp only [wp_delete, hA2, Option.some.injEq, exists_eq_left']
      refine hQ _ (by rw [hobj2, hobj1]) (by simp [hlen2, hlen1]) (fun b hb => ?_)
      simp only [mem_addrs_node, not_or] at hb
      simp only [rd_set, Ne.symm hb.2.1, false_and, if_false]
      rw [hfr2 b hb.2.2, hfr1 b hb.1]
    simp only [wp_load, hA1, Option.some.injEq, exists_eq_left', wp_bind]
    cases hr : r.isNil with
    | true =>
      simp only [if_true, wp_bind]
      rw [ptr_of_isNil hr] at hgoal
      exact hgoal
    | false =>
      simp only [Bool.false_eq_true, if_false, wp_bind, wp_load, hA1, Option.some.injEq,
        exists_eq_left', rightPtr_of_not_isNil (by simp [hr] : ¬ r.isNil = true)]
      exact hgoal

end clearing

section copying
variable {K V : Type} [LinearOrder K]

/-- The walk `_insert(other.Root)` into an empty tree builds the tree of
`other` again, node for node, at the end of the store. -/
theorem wp_insert_walk_empty {w : World K V} {x : Tree K V}
    (hst : Tree.Stored w.mem x none) (hb : x.BST) (hnd : x.addrs.Nodup)
    (hroot : w.obj.Root = none) (Q : Unit → World K V → Prop)
    (hQ : ∀ w', Models w' (Tree.relabel w.mem.length x) →
      w'.obj.Size = w.obj.Size → w'.obj.state = w.obj.state →
      w'.mem.length = w.mem.length + x.size →
      (∀ b, b < w.mem.length → rd w'.mem b = rd w.mem b) → Q () w') :
    wp (_insert (w.mem.length + 1) x.ptr) Q w := by
  refine wp_insert_walk w.mem.length x w Tree.nil none _ Q hst hb (stored_lt hst)
    ⟨trivial, hroot, List.nodup_nil⟩ (by simp [Tree.BST, Tree.keys])
    (fun b hb => by simp [Tree.addrs] at hb) (le_refl _)
    (fun k _ hk => by simp [Tree.keys] at hk)
    (Nat.lt_succ_of_le (size_le_length hst hnd)) ?_
  rw [linkAll_pre x _ hb]
  exact hQ

omit [LinearOrder K] in
/-- The image read at the root of a copy built by the walk is the image of
the tree that was copied. -/
theorem shapeAt_copy {w w2 : World K V} {x : Tree K V}
    (hst : Tree.Stored w.mem x none) (hnd : x.addrs.Nodup) (n : Nat)
    (hm : Models w2 (Tree.relabel n x)) :
    shapeAt w2.mem w2.mem.length w2.obj.Root = shapeAt w.mem w.mem.length x.ptr := by
  obtain ⟨hst2, hroot2, hnd2⟩ := hm
  rw [hroot2, shapeAt_eq _ none none _ hst2 trivial (size_le_length hst2 hnd2),
    shapeAt_eq _ none none _ hst trivial (size_le_length hst hnd), shape_relabel]

/-- A sequence of `insert` calls on a tree whose nodes are at `n0` and above
does not write the cells below `n0`. -/
theorem run_insertAll_shared (n0 : Nat) (ops : List (K × V)) :
    ∀ (w : World K V) (t : Tree K V), Models w t → t.BST → t.HeightsOK → t.Balanced →
      (∀ b ∈ t.addrs, n0 ≤ b) → n0 ≤ w.mem.length →
      ∃ w2 t2, (insertAll ops).run w = some ((), w2) ∧ Models w2 t2 ∧
        (∀ b ∈ t2.addrs, n0 ≤ b) ∧ n0 ≤ w2.mem.length ∧
        (∀ b, b < n0 → rd w2.mem b = rd w.mem b) := by
  induction ops with
  | nil =>
    intro w t hm _ _ _ ha hn
    exact ⟨w, t, rfl, hm, ha, hn, fun _ _ => rfl⟩
  | cons op rest ih =>
    intro w t hm hb hH hB ha hn
    obtain ⟨key, val⟩ := op
    have hstep : wp (insert key val) (fun _ w1 =>
        Models w1 (Tree.insert key val w.mem.length t) ∧
          (∀ b ∈ (Tree.insert key val w.mem.length t).addrs, n0 ≤ b) ∧
          n0 ≤ w1.mem.length ∧ (∀ b, b < n0 → rd w1.mem b = rd w.mem b)) w := by
      by_cases hk : key ∈ t.keys
      · have hins : Tree.insert key val w.mem.length t = t := by simp [Tree.insert, hk]
        rw [hins]
        exact ⟨(), w, run_insert_dup key val hm hb hk, hm, ha, hn, fun _ _ => rfl⟩
      · refine wp_insert_new key val hm hb hk (pathSafe_link hk hH hB) _
          (fun w1 hm1 _ _ hlen1 hfr1 => ⟨hm1, fun b hbin => ?_, by omega, fun b hlt => ?_⟩)
        · rcases List.mem_cons.mp ((addrs_insert_perm hk).subset hbin) with h | h
          · omega
          · exact ha b h
        · exact hfr1 b (fun hin => by have := ha b hin; omega) (by omega)
    obtain ⟨u, w1, hrun1, hm1, ha1, hn1, hfr1⟩ := hstep
    obtain ⟨i1, i2, i3⟩ := insert_invariants key val w.mem.length hb hH hB
    obtain ⟨w2, t2, hrun2, hm2, ha2, hn2, hfr2⟩ := ih w1 _ hm1 i1 i2 i3 ha1 hn1
    refine ⟨w2, t2, ?_, hm2, ha2, hn2, fun b hlt => by rw [hfr2 b hlt, hfr1 b hlt]⟩
    simp only [insertAll, run_bind, hrun1, Option.bind, hrun2]

/-- The copy constructor builds an image of the tree of `other`. -/
theorem wp_copyConstruct {w : World K V} {x : Tree K V} (other : avlt)
    (hst : Tree.Stored w.mem x none) (hb : x.BST) (hnd : x.addrs.Nodup)
    (hroot : other.Root = x.ptr) :
    wp (copyConstruct other) (fun _ w2 =>
      shapeAt w2.mem w2.mem.length w2.obj.Root = shapeAt w.mem w.mem.length x.ptr ∧
        w2.obj.Size = other.Size ∧
        shapeAt w2.mem w2.mem.length x.ptr = shapeAt w.mem w.mem.length x.ptr) w := by
  simp only [copyConstruct, wp_bind, wp_setRoot, wp_setSize, wp_setState, wp_storeSize, hroot]
  refine wp_insert_walk_empty (w := ⟨w.mem, ⟨none, other.Size, none⟩⟩) hst hb hnd rfl _
    (fun w2 hm2 hsz2 _ hlen2 hfr2 => ?_)
  have hst2 : Tree.Stored w2.mem x none :=
    stored_frame (fun b hb => hfr2 b (stored_lt hst b hb)) hst
  refine ⟨shapeAt_copy hst hnd _ ⟨hm2.1, hm2.2.1, hm2.2.2⟩, hsz2, ?_⟩
  have hle : x.size ≤ w2.mem.length := size_le_length hst2 hnd
  rw [shapeAt_eq _ none none _ hst2 trivial hle,
    shapeAt_eq _ none none _ hst trivial (size_le_length hst hnd)]

/-- The operator `=` with another object as `other` builds an image of the
tree of `other` in place of the tree of the object. -/
theorem wp_assign {w : World K V} {x t : Tree K V} (other : avlt)
    (hst : Tree.Stored w.mem x none) (hb : x.BST) (hnd : x.addrs.Nodup)
    (hroot : other.Root = x.ptr) (hm : Models w t) (hdis : ∀ b ∈ x.addrs, b ∉ t.addrs) :
    wp (assign (some other)) (fun _ w2 =>
      shapeAt w2.mem w2.mem.length w2.obj.Root = shapeAt w.mem w.mem.length x.ptr ∧
        w2.obj.Size = other.Size ∧
        shapeAt w2.mem w2.mem.length x.ptr = shapeAt w.mem w.mem.length x.ptr) w := by
  obtain ⟨hstt, hroott, hndt⟩ := hm
  simp only [assign, clear, wp_bind, wp_storeSize, wp_getRoot, hroott]
  refine wp_clearTree t w none _ _ hstt hndt (Nat.lt_succ_of_le (size_le_length hstt hndt))
    (fun w1 hobj1 hlen1 hfr1 => ?_)
  have hst1 : Tree.Stored w1.mem x none :=
    stored_frame (fun b hb => hfr1 b (hdis b hb)) hst
  simp only [wp_setRoot, wp_setSize, wp_setState, wp_storeSize, wp_bind, wp_readOther_some,
    hroot]
  refine wp_insert_walk_empty (w := ⟨w1.mem, ⟨none, 0, none⟩⟩) hst1 hb hnd rfl _
    (fun w2 hm2 _ _ hlen2 hfr2 => ?_)
  have hst2 : Tree.Stored w2.mem x none :=
    stored_frame (fun b hb => hfr2 b (stored_lt hst1 b hb)) hst1
  refine ⟨?_, trivial, ?_⟩
  · have hsh : shapeAt w2.mem w2.mem.length w2.obj.Root = shapeAt w.mem w.mem.length x.ptr :=
      shapeAt_copy hst hnd _ ⟨hm2.1, hm2.2.1, hm2.2.2⟩
    exact hsh
  · rw [shapeAt_eq _ none none _ hst2 trivial (size_le_length hst2 hnd),
      shapeAt_eq _ none none _ hst trivial (size_le_length hst hnd)]

end copying

end AVLT

namespace AVLT

section subtreekeys
variable {K V : Type}

theorem key_mem_of_subtree {t : Tree K V} {a : Nat} {l r : Tree K V} {k : K} {v : V} {h : Int}
    (hx : Tree.node a l k v h r ∈ t.subtrees) : k ∈ t.keys := by
  induction t with
  | nil => simp [Tree.subtrees] at hx
  | node b tl kb vb hb tr ihl ihr =>
    simp only [Tree.subtrees, List.mem_append, List.mem_cons] at hx
    rw [mem_keys_node]
    rcases hx with hx | hx | hx
    · exact Or.inl (ihl hx)
    · injection hx with _ _ hk
      exact Or.inr (Or.inl hk)
    · exact Or.inr (Or.inr (ihr hx))

end subtreekeys

end AVLT

namespace AVLT

section lookups
variable {K V : Type} [LinearOrder K]

omit [LinearOrder K] in
theorem subtrees_left {a : Nat} {l r x : Tree K V} {k : K} {v : V} {h : Int}
    (hx : x ∈ l.subtrees) : x ∈ (Tree.node a l k v h r).subtrees := by
  simp [Tree.subtrees, hx]

omit [LinearOrder K] in
theorem subtrees_right {a : Nat} {l r x : Tree K V} {k : K} {v : V} {h : Int}
    (hx : x ∈ r.subtrees) : x ∈ (Tree.node a l k v h r).subtrees := by
  simp [Tree.subtrees, hx]

/-- The loop of `operator%` ends at the node of the key, with its stored
height, or with -1 when the key is not in the tree. -/
theorem wp_heightOf_loop (key : K) (t : Tree K V) :
    ∀ (w : World K V) (s : Ptr) (fuel : Nat) (Q : Int → World K V → Prop),
      Tree.Stored w.mem t s → t.BST → t.size < fuel →
      (∀ res : Int, ((key ∉ t.keys ∧ res = -1) ∨
        ∃ a l v r, Tree.node a l key v res r ∈ t.subtrees) → Q res w) →
      wp (heightOf.loop key fuel t.ptr) Q w := by
  induction t with
  | nil =>
    intro w s fuel Q _ _ hf hQ
    obtain ⟨f, rfl⟩ : ∃ f, fuel = f + 1 := ⟨fuel - 1, by omega⟩
    simp only [heightOf.loop, ptr_nil, if_true, wp_pure]
    exact hQ _ (Or.inl ⟨by simp [Tree.keys], rfl⟩)
  | node a l k v h r ihl ihr =>
    intro w s fuel Q hst hb hf hQ
    obtain ⟨f, rfl⟩ : ∃ f, fuel = f + 1 := ⟨fuel - 1, by omega⟩
    obtain ⟨hbl, hbr, hkl, hkr⟩ := bst_node.mp hb
    obtain ⟨hA, hL, hR⟩ := hst
    simp only [Tree.size] at hf
    simp only [heightOf.loop, ptr_node, reduceCtorEq, if_false, wp_bind, wp_load, hA,
      Option.some.injEq, exists_eq_left', wp_ite, wp_pure, wp_getActualLeft hA,
      wp_getActualRight hA]
    by_cases hk1 : key = k
    · simp only [hk1, if_true]
      subst hk1
      exact hQ _ (Or.inr ⟨a, l, v, r, mem_subtrees_self _ _ _ _ _ _⟩)
    · simp only [hk1, if_false]
      by_cases hk2 : key < k
      · simp only [hk2, if_true]
        refine ihl w (some a) f Q hL hbl (by omega) (fun res hres => hQ res ?_)
        rcases hres with ⟨h1, h2⟩ | ⟨a2, l2, v2, r2, hx⟩
        · exact Or.inl ⟨fun hin => h1 ((mem_keys_left hb hk2).mp hin), h2⟩
        · exact Or.inr ⟨a2, l2, v2, r2, subtrees_left hx⟩
      · simp only [hk2, if_false]
        refine ihr w s f Q hR hbr (by omega) (fun res hres => hQ res ?_)
        rcases hres with ⟨h1, h2⟩ | ⟨a2, l2, v2, r2, hx⟩
        · exact Or.inl ⟨fun hin => h1 ((mem_keys_right hb hk1 hk2).mp hin), h2⟩
        · exact Or.inr ⟨a2, l2, v2, r2, subtrees_right hx⟩

/-- A call of `operator%` returns and leaves the machine state unchanged. -/
theorem run_heightOf {w : World K V} {t : Tree K V} (hm : Models w t) (hb : t.BST) (key : K) :
    ∃ res : Int, (heightOf key).run w = some (res, w) ∧
      ((key ∉ t.keys ∧ res = -1) ∨ ∃ a l v r, Tree.node a l key v res r ∈ t.subtrees) := by
  obtain ⟨hst, hroot, hnd⟩ := hm
  have hwp : wp (heightOf key) (fun res w' => w' = w ∧
      ((key ∉ t.keys ∧ res = -1) ∨ ∃ a l v r, Tree.node a l key v res r ∈ t.subtrees)) w := by
    simp only [heightOf, wp_bind, wp_storeSize, wp_getRoot, hroot]
    exact wp_heightOf_loop key t w none _ _ hst hb
      (Nat.lt_succ_of_le (size_le_length hst hnd)) (fun res hres => ⟨rfl, hres⟩)
  obtain ⟨res, w', hrun, rfl, hres⟩ := hwp
  exact ⟨res, hrun, hres⟩

/-- The loop of `operator()` ends at the node of the key, with the key of
the node its `Right` pointer targets, or with the default key. -/
theorem wp_successorOf_loop [Inhabited K] (key : K) (t : Tree K V) :
    ∀ (w : World K V) (s : Ptr) (fuel : Nat) (Q : K → World K V → Prop),
      Tree.Stored w.mem t s → (∀ b, s = some b → ∃ nb, rd w.mem b = some nb) →
      t.BST → t.size < fuel →
      (∀ res : K, ((key ∉ t.keys ∧ res = default) ∨
        ∃ a l v h r nd, Tree.node a l key v h r ∈ t.subtrees ∧ rd w.mem a = some nd ∧
          res = (keyAt w.mem nd.Right).getD default ∧
          (nd.Right ≠ none → (keyAt w.mem nd.Right).isSome = true)) → Q res w) →
      wp (successorOf.loop key fuel t.ptr) Q w := by
  induction t with
  | nil =>
    intro w s fuel Q _ _ _ hf hQ
    obtain ⟨f, rfl⟩ : ∃ f, fuel = f + 1 := ⟨fuel - 1, by omega⟩
    simp only [successorOf.loop, ptr_nil, if_true, wp_pure]
    exact hQ _ (Or.inl ⟨by simp [Tree.keys], rfl⟩)
  | node a l k v h r ihl ihr =>
    intro w s fuel Q hst hs hb hf hQ
    obtain ⟨f, rfl⟩ : ∃ f, fuel = f + 1 := ⟨fuel - 1, by omega⟩
    obtain ⟨hbl, hbr, hkl, hkr⟩ := bst_node.mp hb
    obtain ⟨hA, hL, hR⟩ := hst
    simp only [Tree.size] at hf
    simp only [successorOf.loop, ptr_node, reduceCtorEq, if_false, wp_bind, wp_load, hA,
      Option.some.injEq, exists_eq_left', wp_ite, wp_pure, wp_getActualLeft hA,
      wp_getActualRight hA]
    by_cases hk1 : key = k
    · simp only [hk1, if_true]
      subst hk1
      cases hrp : Tree.rightPtr r s with
      | none =>
        simp only [if_true]
        exact hQ _ (Or.inr ⟨a, l, v, h, r, _, mem_subtrees_self _ _ _ _ _ _, hA,
          by simp [hrp, keyAt], by simp [hrp]⟩)
      | some b =>
        simp only [reduceCtorEq, if_false, wp_load]
        obtain ⟨nb, hnb⟩ : ∃ nb, rd w.mem b = some nb := by
          cases r with
          | nil => exact hs b hrp
          | node rb rl rk rv rh rr =>
            simp only [rightPtr_node, Option.some.injEq] at hrp
            subst hrp
            exact ⟨_, hR.1⟩
        refine ⟨nb, hnb, ?_⟩
        exact hQ _ (Or.inr ⟨a, l, v, h, r, _, mem_subtrees_self _ _ _ _ _ _, hA,
          by simp [hrp, keyAt, hnb], by simp [hrp, keyAt, hnb]⟩)
    · simp only [hk1, if_false]
      by_cases hk2 : key < k
      · simp only [hk2, if_true]
        refine ihl w (some a) f Q hL (fun b hb2 => ⟨_, (Option.some.inj hb2) ▸ hA⟩)
          hbl (by omega) (fun res hres => hQ res ?_)
        rcases hres with ⟨h1, h2⟩ | ⟨a2, l2, v2, h2, r2, nd, hx, hrest⟩
        · exact Or.inl ⟨fun hin => h1 ((mem_keys_left hb hk2).mp hin), h2⟩
        · exact Or.inr ⟨a2, l2, v2, h2, r2, nd, subtrees_left hx, hrest⟩
      · simp only [hk2, if_false]
        refine ihr w s f Q hR hs hbr (by omega) (fun res hres => hQ res ?_)
        rcases hres with ⟨h1, h2⟩ | ⟨a2, l2, v2, h2, r2, nd, hx, hrest⟩
        · exact Or.inl ⟨fun hin => h1 ((mem_keys_right hb hk1 hk2).mp hin), h2⟩
        · exact Or.inr ⟨a2, l2, v2, h2, r2, nd, subtrees_right hx, hrest⟩

end lookups

end AVLT

namespace AVLT

section observations
variable {K V : Type}

theorem countNodes_eq {H : Mem K V} (t : Tree K V) :
    ∀ (s : Ptr) (fuel : Nat), Tree.Stored H t s → t.size ≤ fuel →
      countNodes H fuel t.ptr = t.size := by
  induction t with
  | nil =>
    intro s fuel _ _
    cases fuel <;> rfl
  | node a l k v h r ihl ihr =>
    intro s fuel hst hf
    obtain ⟨hA, hL, hR⟩ := hst
    simp only [Tree.size] at hf
    obtain ⟨f, rfl⟩ : ∃ f, fuel = f + 1 := ⟨fuel - 1, by omega⟩
    simp only [ptr_node, countNodes, hA, Tree.size, NODE.actualRight]
    rw [ihl (some a) f hL (by omega)]
    cases hr : r.isNil with
    | true =>
      have := eq_nil_of_isNil hr
      subst this
      simp only [if_true]
      cases f <;> rfl
    | false =>
      simp only [Bool.false_eq_true, if_false,
        rightPtr_of_not_isNil (by simp [hr] : ¬ r.isNil = true)]
      rw [ihr s f hR (by omega)]

theorem keysAt_eq {H : Mem K V} (t : Tree K V) :
    ∀ (s : Ptr) (fuel : Nat), Tree.Stored H t s → t.size ≤ fuel →
      keysAt H fuel t.ptr = t.keys := by
  induction t with
  | nil =>
    intro s fuel _ _
    cases fuel <;> rfl
  | node a l k v h r ihl ihr =>
    intro s fuel hst hf
    obtain ⟨hA, hL, hR⟩ := hst
    simp only [Tree.size] at hf
    obtain ⟨f, rfl⟩ : ∃ f, fuel = f + 1 := ⟨fuel - 1, by omega⟩
    simp only [ptr_node, keysAt, hA, Tree.keys, NODE.actualRight]
    rw [ihl (some a) f hL (by omega)]
    cases hr : r.isNil with
    | true =>
      have := eq_nil_of_isNil hr
      subst this
      simp only [if_true]
      cases f <;> rfl
    | false =>
      simp only [Bool.false_eq_true, if_false,
        rightPtr_of_not_isNil (by simp [hr] : ¬ r.isNil = true)]
      rw [ihr s f hR (by omega)]

theorem keys_length (t : Tree K V) : t.keys.length = t.size := by
  rw [keys_eq_map, List.length_map, size_eq_nodes_length]

theorem bst_subtree [LinearOrder K] {t x : Tree K V} (h : t.BST) (hx : x ∈ t.subtrees) :
    x.BST := by
  induction t with
  | nil => simp [Tree.subtrees] at hx
  | node a l k v h0 r ihl ihr =>
    obtain ⟨hbl, hbr, _, _⟩ := bst_node.mp h
    simp only [Tree.subtrees, List.mem_append, List.mem_cons] at hx
    rcases hx with hx | rfl | hx
    · exact ihl hbl hx
    · exact h
    · exact ihr hbr hx

/-- Every cell of the store of a tree that has only received `insert` calls
is the root of a subtree of the tree. -/
theorem cell_subtree [LinearOrder K] {w : World K V} {t : Tree K V} {ops : List (K × V)}
    (hinv : Inv w t ops) {a : Nat} {nd : NODE K V} (hrd : rd w.mem a = some nd) :
    ∃ l r, Tree.node a l nd.Key nd.Value nd.Height r ∈ t.subtrees ∧
      nd.isThreaded = r.isNil ∧ nd.Left = l.ptr ∧ nd.actualRight = r.ptr := by
  obtain ⟨⟨hst, _, hnd⟩, _, _, _, _, _, hall⟩ := hinv
  obtain ⟨l, k, v, h, r, hx⟩ := exists_subtree_of_addr (hall a (rd_lt hrd))
  obtain ⟨nd2, hrd2, e1, e2, e3, e4, e5, e6, _, _⟩ :=
    cell_of_subtree hst hx (size_le_length hst hnd)
  rw [hrd] at hrd2
  obtain rfl := Option.some.inj hrd2
  subst e1 e2 e3
  exact ⟨l, r, hx, e4, e5, e6⟩

theorem cell_key_mem [LinearOrder K] {w : World K V} {t : Tree K V} {ops : List (K × V)}
    (hinv : Inv w t ops) {a : Nat} {nd : NODE K V} (hrd : rd w.mem a = some nd) :
    nd.Key ∈ ops.map Prod.fst := by
  obtain ⟨l, r, hx, _⟩ := cell_subtree hinv hrd
  exact (mem_keys_iff hinv _).mp (key_mem_of_subtree hx)

/-- The nodes of a search tree are told apart by their keys. -/
theorem subtree_of_key_unique [LinearOrder K] {t : Tree K V} (hb : t.BST)
    {a a2 : Nat} {l l2 r r2 : Tree K V} {k : K} {v v2 : V} {h h2 : Int}
    (hx : Tree.node a l k v h r ∈ t.subtrees) (hy : Tree.node a2 l2 k v2 h2 r2 ∈ t.subtrees) :
    Tree.node a l k v h r = Tree.node a2 l2 k v2 h2 r2 := by
  induction t with
  | nil => simp [Tree.subtrees] at hx
  | node b tl kb vb hb0 tr ihl ihr =>
    obtain ⟨hbl, hbr, hkl, hkr⟩ := bst_node.mp hb
    simp only [Tree.subtrees, List.mem_append, List.mem_cons] at hx hy
    rcases hx with hx | hx | hx
    · have h1 := hkl k (key_mem_of_subtree hx)
      rcases hy with hy | hy | hy
      · exact ihl hbl hx hy
      · injection hy with _ _ hk
        exact absurd h1 (by rw [hk]; exact lt_irrefl _)
      · exact absurd (lt_trans h1 (hkr k (key_mem_of_subtree hy))) (lt_irrefl _)
    · rcases hy with hy | hy | hy
      · injection hx with _ _ hk
        exact absurd (hkl k (key_mem_of_subtree hy)) (by rw [hk]; exact lt_irrefl _)
      · rw [hx, hy]
      · injection hx with _ _ hk
        exact absurd (hkr k (key_mem_of_subtree hy)) (by rw [hk]; exact lt_irrefl _)
    · have h1 := hkr k (key_mem_of_subtree hx)
      rcases hy with hy | hy | hy
      · exact absurd (lt_trans h1 (hkl k (key_mem_of_subtree hy))) (lt_irrefl _)
      · injection hy with _ _ hk
        exact absurd h1 (by rw [hk]; exact lt_irrefl _)
      · exact ihr hbr hx hy

/-- A call of `operator()` returns and leaves the machine state unchanged. -/
theorem run_successorOf [LinearOrder K] [Inhabited K] {w : World K V} {t : Tree K V}
    (hm : Models w t) (hb : t.BST) (key : K) :
    ∃ res : K, (successorOf key).run w = some (res, w) ∧
      ((key ∉ t.keys ∧ res = default) ∨
        ∃ a l v h r nd, Tree.node a l key v h r ∈ t.subtrees ∧ rd w.mem a = some nd ∧
          res = (keyAt w.mem nd.Right).getD default ∧
          (nd.Right ≠ none → (keyAt w.mem nd.Right).isSome = true)) := by
  obtain ⟨hst, hroot, hnd⟩ := hm
  have hwp : wp (successorOf key) (fun res w' => w' = w ∧
      ((key ∉ t.keys ∧ res = default) ∨
        ∃ a l v h r nd, Tree.node a l key v h r ∈ t.subtrees ∧ rd w.mem a = some nd ∧
          res = (keyAt w.mem nd.Right).getD default ∧
          (nd.Right ≠ none → (keyAt w.mem nd.Right).isSome = true))) w := by
    simp only [successorOf, wp_bind, wp_storeSize, wp_getRoot, hroot]
    exact wp_successorOf_loop key t w none _ _ hst (fun b hb2 => by simp at hb2) hb
      (Nat.lt_succ_of_le (size_le_length hst hnd)) (fun res hres => ⟨rfl, hres⟩)
  obtain ⟨res, w', hrun, rfl, hres⟩ := hwp
  exact ⟨res, hrun, hres⟩

end observations

end AVLT

namespace AVLT

section heightbound
variable {K V : Type}

/-- A balanced tree with `d` levels has at least `fib (d + 2) - 1` nodes. -/
theorem fib_le_size (t : Tree K V) (hB : t.Balanced) :
    Nat.fib ((t.height + 1).toNat + 2) ≤ t.size + 1 := by
  induction t with
  | nil => simp [Tree.height, Tree.size]
  | node a l k v h r ihl ihr =>
    obtain ⟨hBl, hBr, hbal⟩ := hB
    have il := ihl hBl
    have ir := ihr hBr
    have hl := height_ge l
    have hr := height_ge r
    rw [abs_le] at hbal
    have key : ∀ n, Nat.fib (n + 3) = Nat.fib (n + 1) + Nat.fib (n + 2) :=
      fun n => @Nat.fib_add_two (n + 1)
    simp only [Tree.height, Tree.size]
    rcases le_total r.height l.height with hle | hle
    · have e1 : (1 + max l.height r.height + 1).toNat + 2 = (l.height + 1).toNat + 3 := by
        rw [max_eq_left hle]; omega
      have e2 : (l.height + 1).toNat + 1 ≤ (r.height + 1).toNat + 2 := by omega
      rw [e1, key]
      have := Nat.fib_mono e2
      omega
    · have e1 : (1 + max l.height r.height + 1).toNat + 2 = (r.height + 1).toNat + 3 := by
        rw [max_eq_right hle]; omega
      have e2 : (r.height + 1).toNat + 1 ≤ (l.height + 1).toNat + 2 := by omega
      rw [e1, key]
      have := Nat.fib_mono e2
      omega

end heightbound

theorem fib_47 : Nat.fib 47 = 2971215073 := by
  norm_num [Nat.fib_add_two]

/-- The bound of the height against the least number of nodes, level by
level, up to the trees with less than `2 ^ 31` nodes. -/
theorem pow_lt_fib_pow : ∀ d : Nat, d ≤ 44 → 2 ^ (25 * (d - 2)) < (Nat.fib (d + 2) + 1) ^ 36 := by
  intro d hd
  interval_cases d <;> norm_num [Nat.fib_add_two]

end AVLT

namespace AVLT

section visits
variable {K V : Type} [LinearOrder K]

theorem wp_searchCounted (lower upper : K) (t : Tree K V) :
    ∀ (w : World K V) (s : Ptr) (fuel : Nat) (acc : List K × Nat)
      (Q : List K × Nat → World K V → Prop),
      Tree.Stored w.mem t s → t.BST → t.size < fuel →
      Q (acc.1 ++ t.keys.filter (fun x => decide (lower ≤ x ∧ x ≤ upper)),
        acc.2 + t.visits lower upper) w →
      wp (_searchCounted lower upper fuel t.ptr acc) Q w := by
  induction t with
  | nil =>
    intro w s fuel acc Q _ _ hf hQ
    obtain ⟨f, rfl⟩ : ∃ f, fuel = f + 1 := ⟨fuel - 1, by omega⟩
    simpa [_searchCounted, Tree.keys, Tree.visits] using hQ
  | node a l k v h r ihl ihr =>
    intro w s fuel acc Q hst hb hf hQ
    obtain ⟨f, rfl⟩ : ∃ f, fuel = f + 1 := ⟨fuel - 1, by omega⟩
    obtain ⟨hA, hL, hR⟩ := hst
    obtain ⟨hbl, hbr, hkl, hkr⟩ := bst_node.mp hb
    simp only [Tree.size] at hf
    have hfl : ¬ lower ≤ k → l.keys.filter (fun x => decide (lower ≤ x ∧ x ≤ upper)) = [] := by
      intro hlk
      refine List.filter_eq_nil_iff.mpr (fun x hx => ?_)
      have := hkl x hx
      simp only [decide_eq_true_eq, not_and]
      intro h1
      exact absurd (le_trans h1 (le_of_lt this)) hlk
    have hfr : ¬ k ≤ upper → r.keys.filter (fun x => decide (lower ≤ x ∧ x ≤ upper)) = [] := by
      intro hku
      refine List.filter_eq_nil_iff.mpr (fun x hx => ?_)
      have := hkr x hx
      simp only [decide_eq_true_eq, not_and]
      intro _ h2
      exact absurd (le_trans (le_of_lt this) h2) hku
    simp only [Tree.keys, List.filter_append, List.filter_cons, Tree.visits] at hQ
    simp only [_searchCounted, ptr_node, reduceCtorEq, if_false, wp_bind, wp_load, hA,
      Option.some.injEq, exists_eq_left', wp_ite, wp_pure, ge_iff_le]
    have hright : ∀ acc2 : List K × Nat,
        Q (acc2.1 ++ r.keys.filter (fun x => decide (lower ≤ x ∧ x ≤ upper)),
          acc2.2 + r.visits lower upper) w →
        (if r.isNil = true then wp (_searchCounted lower upper f none acc2) Q w
         else wp (_searchCounted lower upper f (r.rightPtr s) acc2) Q w) := by
      intro acc2 hq
      have h1 := ihr w s f acc2 Q hR hbr (by omega) hq
      cases hr : r.isNil with
      | true =>
        have h2 := eq_nil_of_isNil hr
        subst h2
        simpa using h1
      | false =>
        simp only [Bool.false_eq_true, if_false,
          rightPtr_of_not_isNil (by simp [hr] : ¬ r.isNil = true)]
        exact h1
    by_cases hlo : lower ≤ k
    · simp only [hlo, if_true, true_and]
      refine ihl w (some a) f _ _ hL hbl (by omega) ?_
      simp only [hA, Option.some.injEq, exists_eq_left']
      by_cases hup : k ≤ upper
      · simp only [hup, if_true, hlo, and_self]
        refine hright _ ?_
        simp only [hlo, hup, and_self, decide_True, if_true, List.append_assoc,
          List.singleton_append] at hQ ⊢
        convert hQ using 2
        omega
      · simp only [hup, if_false, and_false]
        rw [hfr hup] at hQ
        simp only [hlo, hup, and_false, decide_False, if_true, if_false, List.append_nil,
          Bool.false_eq_true, Nat.add_zero] at hQ ⊢
        convert hQ using 2
        omega
    · simp only [hlo, if_false, false_and]
      rw [hfl hlo] at hQ
      by_cases hup : k ≤ upper
      · simp only [hup, if_true]
        refine hright _ ?_
        simp only [hlo, hup, false_and, decide_False, if_true, if_false, List.nil_append,
          Bool.false_eq_true, Nat.add_zero] at hQ ⊢
        convert hQ using 2
        omega
      · simp only [hup, if_false]
        rw [hfr hup] at hQ
        simp only [hlo, hup, false_and, decide_False, if_false, List.append_nil,
          Bool.false_eq_true, Nat.add_zero] at hQ ⊢
        convert hQ using 2

/-- A call of the instrumented `range_search` returns the keys `range_search`
returns, and the number of nodes visited. -/
theorem run_range_searchCounted {w : World K V} {t : Tree K V} (hm : Models w t) (hb : t.BST)
    (lower upper : K) :
    (range_searchCounted lower upper).run w
      = some ((t.keys.filter (fun x => decide (lower ≤ x ∧ x ≤ upper)),
          t.visits lower upper), w) := by
  obtain ⟨hst, hroot, hnd⟩ := hm
  have hwp : wp (range_searchCounted lower upper)
      (fun r w' => r = (t.keys.filter (fun x => decide (lower ≤ x ∧ x ≤ upper)),
        t.visits lower upper) ∧ w' = w) w := by
    simp only [range_searchCounted, wp_bind, wp_storeSize, wp_getRoot, hroot]
    refine wp_searchCounted lower upper t w none _ ([], 0) _ hst hb
      (Nat.lt_succ_of_le (size_le_length hst hnd)) ?_
    simp
  obtain ⟨r, w', hrun, rfl, rfl⟩ := hwp
  exact hrun

end visits

end AVLT

namespace AVLT

section pruning
variable {K V : Type} [LinearOrder K]

omit [LinearOrder K] in
theorem filter_keys_node (p : K → Bool) (a : Nat) (l r : Tree K V) (k : K) (v : V) (h : Int) :
    ((Tree.node a l k v h r).keys.filter p).length
      = (l.keys.filter p).length + (if p k = true then 1 else 0) + (r.keys.filter p).length := by
  simp only [Tree.keys, List.filter_append, List.filter_cons, List.length_append]
  split
  · simp; omega
  · simp

omit [LinearOrder K] in
theorem filter_keys_nil (p : K → Bool) (t : Tree K V) (h : ∀ x ∈ t.keys, p x = false) :
    (t.keys.filter p).length = 0 := by
  rw [List.length_eq_zero, List.filter_eq_nil_iff]
  intro x hx
  simp [h x hx]

/-- Where every key is in the range, the walk visits every node, and returns
every key. -/
theorem visits_all (lower upper : K) (t : Tree K V)
    (h : ∀ x ∈ t.keys, lower ≤ x ∧ x ≤ upper) :
    t.visits lower upper = (t.keys.filter (fun x => decide (lower ≤ x ∧ x ≤ upper))).length := by
  induction t with
  | nil => rfl
  | node a l k v h0 r ihl ihr =>
    have hk := h k (by simp [Tree.keys])
    rw [filter_keys_node, Tree.visits,
      ihl (fun x hx => h x (by simp [Tree.keys, hx])),
      ihr (fun x hx => h x (by simp [Tree.keys, hx]))]
    simp only [hk.1, hk.2, and_self, decide_True, if_true]
    omega

/-- Below the upper bound the walk leaves the search path of the lower bound
only into subtrees that lie in the range. -/
theorem visits_below (lower upper : K) (t : Tree K V) (hb : t.BST)
    (h : ∀ x ∈ t.keys, x ≤ upper) :
    (t.visits lower upper : Int)
      ≤ (t.keys.filter (fun x => decide (lower ≤ x ∧ x ≤ upper))).length + (t.height + 1) := by
  induction t with
  | nil => simp [Tree.visits, Tree.keys, Tree.height]
  | node a l k v h0 r ihl ihr =>
    obtain ⟨hbl, hbr, hkl, hkr⟩ := bst_node.mp hb
    have hk := h k (by simp [Tree.keys])
    have hl := height_ge l
    have hr := height_ge r
    have il := ihl hbl (fun x hx => h x (by simp [Tree.keys, hx]))
    have ir := ihr hbr (fun x hx => h x (by simp [Tree.keys, hx]))
    rw [filter_keys_node, Tree.visits, Tree.height]
    simp only [hk, if_true, and_true, decide_eq_true_eq]
    by_cases hlo : lower ≤ k
    · have hall := visits_all lower upper r
        (fun x hx => ⟨le_trans hlo (le_of_lt (hkr x hx)), h x (by simp [Tree.keys, hx])⟩)
      simp only [hlo, if_true]
      push_cast
      omega
    · have hnil := filter_keys_nil (fun x => decide (lower ≤ x ∧ x ≤ upper)) l
        (fun x hx => by
          simp only [decide_eq_false_iff_not, not_and]
          intro hx1
          exact absurd (le_trans hx1 (le_of_lt (hkl x hx))) hlo)
      simp only [hlo, if_false]
      push_cast
      omega

/-- Above the lower bound the walk leaves the search path of the upper bound
only into subtrees that lie in the range. -/
theorem visits_above (lower upper : K) (t : Tree K V) (hb : t.BST)
    (h : ∀ x ∈ t.keys, lower ≤ x) :
    (t.visits lower upper : Int)
      ≤ (t.keys.filter (fun x => decide (lower ≤ x ∧ x ≤ upper))).length + (t.height + 1) := by
  induction t with
  | nil => simp [Tree.visits, Tree.keys, Tree.height]
  | node a l k v h0 r ihl ihr =>
    obtain ⟨hbl, hbr, hkl, hkr⟩ := bst_node.mp hb
    have hk := h k (by simp [Tree.keys])
    have hl := height_ge l
    have hr := height_ge r
    have il := ihl hbl (fun x hx => h x (by simp [Tree.keys, hx]))
    have ir := ihr hbr (fun x hx => h x (by simp [Tree.keys, hx]))
    rw [filter_keys_node, Tree.visits, Tree.height]
    simp only [hk, if_true, true_and, decide_eq_true_eq]
    by_cases hup : k ≤ upper
    · have hall := visits_all lower upper l
        (fun x hx => ⟨h x (by simp [Tree.keys, hx]), le_trans (le_of_lt (hkl x hx)) hup⟩)
      simp only [hup, if_true]
      push_cast
      omega
    · have hnil := filter_keys_nil (fun x => decide (lower ≤ x ∧ x ≤ upper)) r
        (fun x hx => by
          simp only [decide_eq_false_iff_not, not_and]
          intro _ hx2
          exact absurd (le_trans (le_of_lt (hkr x hx)) hx2) hup)
      simp only [hup, if_false]
      push_cast
      omega

/-- The walk of `_search` visits the keys it returns and at most two nodes on
every level of the tree. -/
theorem visits_le (lower upper : K) (hlu : lower ≤ upper) (t : Tree K V) (hb : t.BST) :
    (t.visits lower upper : Int)
      ≤ (t.keys.filter (fun x => decide (lower ≤ x ∧ x ≤ upper))).length
        + 2 * (t.height + 1) := by
  induction t with
  | nil => simp [Tree.visits, Tree.keys, Tree.height]
  | node a l k v h0 r ihl ihr =>
    obtain ⟨hbl, hbr, hkl, hkr⟩ := bst_node.mp hb
    have hl := height_ge l
    have hr := height_ge r
    have il := ihl hbl
    have ir := ihr hbr
    rw [filter_keys_node, Tree.visits, Tree.height]
    simp only [decide_eq_true_eq]
    by_cases hlo : lower ≤ k
    · by_cases hup : k ≤ upper
      · have h1 := visits_below lower upper l hbl
          (fun x hx => le_trans (le_of_lt (hkl x hx)) hup)
        have h2 := visits_above lower upper r hbr
          (fun x hx => le_trans hlo (le_of_lt (hkr x hx)))
        simp only [hlo, hup, and_self, if_true]
        push_cast
        omega
      · have hnil := filter_keys_nil (fun x => decide (lower ≤ x ∧ x ≤ upper)) r
          (fun x hx => by
            simp only [decide_eq_false_iff_not, not_and]
            intro _ hx2
            exact absurd (le_trans (le_of_lt (hkr x hx)) hx2) hup)
        simp only [hlo, hup, and_false, if_true, if_false]
        push_cast
        omega
    · have hup : k ≤ upper := le_trans (le_of_lt (not_le.mp hlo)) hlu
      have hnil := filter_keys_nil (fun x => decide (lower ≤ x ∧ x ≤ upper)) l
        (fun x hx => by
          simp only [decide_eq_false_iff_not, not_and]
          intro hx1
          exact absurd (le_trans hx1 (le_of_lt (hkl x hx))) hlo)
      simp only [hlo, hup, false_and, if_true, if_false]
      push_cast
      omega

end pruning

end AVLT

namespace AVLT

section context
variable {K V : Type} [LinearOrder K]

omit [LinearOrder K] in
theorem addr_mem_of_subtree {t x : Tree K V} {n : Nat} (hx : x ∈ t.subtrees)
    (hp : x.ptr = some n) : n ∈ t.addrs := by
  induction t with
  | nil => simp [Tree.subtrees] at hx
  | node a l k v h r ihl ihr =>
    simp only [Tree.subtrees, List.mem_append, List.mem_cons] at hx
    rw [mem_addrs_node]
    rcases hx with hx | rfl | hx
    · exact Or.inl (ihl hx)
    · simp only [ptr_node, Option.some.injEq] at hp
      exact Or.inr (Or.inl hp.symm)
    · exact Or.inr (Or.inr (ihr hx))

omit [LinearOrder K] in
theorem keys_of_nodes {t t2 : Tree K V} (h : t2.nodes = t.nodes) : t2.keys = t.keys := by
  rw [keys_eq_map, keys_eq_map, h]

omit [LinearOrder K] in
theorem addrs_of_nodes {t t2 : Tree K V} (h : t2.nodes = t.nodes) : t2.addrs = t.addrs := by
  rw [addrs_eq_map, addrs_eq_map, h]

omit [LinearOrder K] in
theorem isNil_eq_of_nodes {t t2 : Tree K V} (h : t2.nodes = t.nodes) : t2.isNil = t.isNil := by
  cases h1 : t.isNil with
  | true => rw [isNil_of_nodes, h, ← isNil_of_nodes]; exact h1
  | false =>
    cases h2 : t2.isNil with
    | false => rfl
    | true =>
      rw [isNil_of_nodes, h, ← isNil_of_nodes] at h2
      rw [h1] at h2
      exact absurd h2 (by simp)

/-- A command that rebuilds the subtree `x` in its place, from the pointer to
the parent of `x`, rebuilds the tree around `x`: the nodes of the tree stay
in their inorder sequence and the store holds the rebuilt tree. -/
theorem wp_in_context (m : Ptr → Cmd K V Unit) (x : Tree K V) (n : Nat) (hxp : x.ptr = some n)
    (hlocal : ∀ (w : World K V) (sl : Slot) (s : Ptr), Tree.Stored w.mem x s →
      x.addrs.Nodup → sl.Above w x.keys → sl.Outside x.addrs →
      (∀ b, s = some b → ∃ nb, rd w.mem b = some nb) → (∀ b ∈ x.addrs, s ≠ some b) →
      ∀ Q : Unit → World K V → Prop,
        (∀ w2 x2, Tree.Stored w2.mem x2 s → x2.nodes = x.nodes →
          Frame x.addrs (sl.write x2.ptr w) w2 → Q () w2) →
        wp (m sl.parent) Q w)
    (t : Tree K V) :
    ∀ (w : World K V) (sl : Slot) (s : Ptr) (Q : Unit → World K V → Prop),
      Tree.Stored w.mem t s → t.addrs.Nodup → t.BST →
      sl.Above w t.keys → sl.Outside t.addrs → sl.Holds w t.ptr →
      (∀ b, s = some b → ∃ nb, rd w.mem b = some nb) → (∀ b ∈ t.addrs, s ≠ some b) →
      x ∈ t.subtrees →
      (∀ w2 t2, Tree.Stored w2.mem t2 s → t2.nodes = t.nodes →
        Frame t.addrs (sl.write t2.ptr w) w2 → Q () w2) →
      wp (m (t.parentOf n sl.parent)) Q w := by
  induction t with
  | nil =>
    intro w sl s Q _ _ _ _ _ _ _ _ hx
    simp [Tree.subtrees] at hx
  | node a l k v h r ihl ihr =>
    intro w sl s Q hst hnd hbst hab hout hholds hsv hSo hx hQ
    obtain ⟨hndl, hndr, hal, har, hlr⟩ := nodup_node.mp hnd
    obtain ⟨hbl, hbr, hkl, hkr⟩ := bst_node.mp hbst
    have hst' := hst
    simp only [Tree.Stored] at hst'
    obtain ⟨hA, hL, hR⟩ := hst'
    have hlt_a := rd_lt hA
    have hfr0 : Frame (Tree.node a l k v h r).addrs (sl.write (some a) w) w :=
      frame_mono (frame_write_of_holds hholds) (by simp)
    simp only [Tree.subtrees, List.mem_append, List.mem_cons] at hx
    rcases hx with hx | hx | hx
    · -- the subtree is in the left subtree
      have hnl : n ∈ l.addrs := addr_mem_of_subtree hx hxp
      have han : a ≠ n := fun e => hal (e ▸ hnl)
      simp only [Tree.parentOf, han, if_false, hnl, if_true]
      refine ihl w (Slot.left a) (some a) Q hL hndl hbl ⟨_, hA, hkl⟩ hal ⟨_, hA, rfl⟩
        (fun b hb => ⟨_, (Option.some.inj hb) ▸ hA⟩)
        (fun b hb => by rintro ⟨rfl⟩; exact hal hb) hx (fun w1 l2 hst1 hn1 hfr1 => ?_)
      have hfrW : Frame (Tree.node a l k v h r).addrs w w1 :=
        frame_trans (frame_write_inside_left _ (by simp [Tree.addrs]))
          (frame_mono hfr1 (by intro y hy; simp [Tree.addrs]; tauto))
      have hA1 : rd w1.mem a = some ⟨k, v, l2.ptr, r.rightPtr s, r.isNil, h⟩ := by
        rw [hfr1.2.2 a hal]
        simp [rd_set, hlt_a, hA]
      have hstT : Tree.Stored w1.mem (.node a l2 k v h r) s := by
        refine ⟨hA1, hst1, ?_⟩
        refine stored_of_frame hfr1 (fun y hy hy2 => hlr y hy2 hy) ?_
        exact (stored_set har).mpr hR
      refine hQ w1 _ hstT (by simp only [Tree.nodes, hn1]) ?_
      simpa using frame_trans hfr0 hfrW
    · -- the subtree is the tree
      subst hx
      simp only [ptr_node, Option.some.injEq] at hxp
      simp only [Tree.parentOf, hxp, if_true]
      exact hlocal w sl s hst hnd hab hout hsv hSo Q hQ
    · -- the subtree is in the right subtree
      have hnr : n ∈ r.addrs := addr_mem_of_subtree hx hxp
      have han : a ≠ n := fun e => har (e ▸ hnr)
      have hnl : n ∉ l.addrs := fun e => hlr n e hnr
      simp only [Tree.parentOf, han, if_false, hnl]
      have hrn : r.isNil = false := by
        cases r with
        | nil => simp [Tree.subtrees] at hx
        | node _ _ _ _ _ _ => rfl
      have hrp : r.rightPtr s = r.ptr := rightPtr_of_not_isNil (by simp [hrn])
      refine ihr w (Slot.right a) s Q hR hndr hbr ⟨_, hA, hkr⟩ har ⟨_, hA, hrp⟩ hsv
        (fun b hb => hSo b (by simp [Tree.addrs, hb])) hx (fun w1 r2 hst1 hn1 hfr1 => ?_)
      have hrn2 : r2.isNil = false := by rw [isNil_eq_of_nodes hn1, hrn]
      have hrp2 : r2.rightPtr s = r2.ptr := rightPtr_of_not_isNil (by simp [hrn2])
      have hfrW : Frame (Tree.node a l k v h r).addrs w w1 :=
        frame_trans (frame_write_inside_right _ (by simp [Tree.addrs]))
          (frame_mono hfr1 (by intro y hy; simp [Tree.addrs]; tauto))
      have hA1 : rd w1.mem a = some ⟨k, v, l.ptr, r2.rightPtr s, r2.isNil, h⟩ := by
        rw [hfr1.2.2 a har, hrp2, hrn2]
        simp [rd_set, hlt_a, hA, hrn]
      have hstT : Tree.Stored w1.mem (.node a l k v h r2) s := by
        refine ⟨hA1, ?_, hst1⟩
        refine stored_of_frame hfr1 (fun y hy hy2 => hlr y hy hy2) ?_
        exact (stored_set hal).mpr hL
      refine hQ w1 _ hstT (by simp only [Tree.nodes, hn1]) ?_
      simpa using frame_trans hfr0 hfrW

end context

end AVLT

namespace AVLT

section rotations
variable {K V : Type} [LinearOrder K]

omit [LinearOrder K] in
theorem succHt_exists {H : Mem K V} {s : Ptr}
    (hsv : ∀ b, s = some b → ∃ nb, rd H b = some nb) : ∃ hs, Tree.SuccHt H s hs := by
  cases s with
  | none => exact ⟨-1, rfl⟩
  | some b =>
    obtain ⟨nb, hnb⟩ := hsv b rfl
    exact ⟨nb.Height, nb, hnb, rfl⟩

theorem wp_LeftRotate_local {n r : Nat} {A B C : Tree K V} {kn kr : K} {vn vr : V}
    {hn hr : Int} (w : World K V) (sl : Slot) (s : Ptr)
    (hst : Tree.Stored w.mem (.node n A kn vn hn (.node r B kr vr hr C)) s)
    (hnd : (Tree.node n A kn vn hn (.node r B kr vr hr C)).addrs.Nodup)
    (hab : sl.Above w (Tree.node n A kn vn hn (.node r B kr vr hr C)).keys)
    (hout : sl.Outside (Tree.node n A kn vn hn (.node r B kr vr hr C)).addrs)
    (hsv : ∀ b, s = some b → ∃ nb, rd w.mem b = some nb)
    (hSo : ∀ b ∈ (Tree.node n A kn vn hn (.node r B kr vr hr C)).addrs, s ≠ some b)
    (Q : Unit → World K V → Prop)
    (hQ : ∀ w2 x2, Tree.Stored w2.mem x2 s →
      x2.nodes = (Tree.node n A kn vn hn (.node r B kr vr hr C)).nodes →
      Frame (Tree.node n A kn vn hn (.node r B kr vr hr C)).addrs (sl.write x2.ptr w) w2 →
      Q () w2) :
    wp (_LeftRotate sl.parent (some n)) Q w := by
  obtain ⟨hs, hS⟩ := succHt_exists hsv
  refine wp_LeftRotate sl hst hnd (above_mono (by simp [Tree.keys]) hab) hout hS
    (hSo n (by simp [Tree.addrs])) (hSo r (by simp [Tree.addrs])) Q (fun w2 hst2 hfr2 => ?_)
  exact hQ w2 _ hst2 (nodes_rotL hs _) (by simpa using hfr2)

theorem wp_RightRotate_local {n l : Nat} {A B C : Tree K V} {kn kl : K} {vn vl : V}
    {hn hl : Int} (w : World K V) (sl : Slot) (s : Ptr)
    (hst : Tree.Stored w.mem (.node n (.node l A kl vl hl B) kn vn hn C) s)
    (hnd : (Tree.node n (.node l A kl vl hl B) kn vn hn C).addrs.Nodup)
    (hab : sl.Above w (Tree.node n (.node l A kl vl hl B) kn vn hn C).keys)
    (hout : sl.Outside (Tree.node n (.node l A kl vl hl B) kn vn hn C).addrs)
    (Q : Unit → World K V → Prop)
    (hQ : ∀ w2 x2, Tree.Stored w2.mem x2 s →
      x2.nodes = (Tree.node n (.node l A kl vl hl B) kn vn hn C).nodes →
      Frame (Tree.node n (.node l A kl vl hl B) kn vn hn C).addrs (sl.write x2.ptr w) w2 →
      Q () w2) :
    wp (_RightRotate sl.parent (some n)) Q w := by
  refine wp_RightRotate sl hst hnd (above_mono (by simp [Tree.keys]) hab) hout Q
    (fun w2 hst2 hfr2 => ?_)
  exact hQ w2 _ hst2 (nodes_rotR _) (by simpa using hfr2)

/-- The state after a command that has rebuilt a subtree of the tree of the
object in its place. -/
theorem models_of_rebuilt {w w2 : World K V} {t t2 : Tree K V} (hm : Models w t) (hb : t.BST)
    (hst2 : Tree.Stored w2.mem t2 none) (hn : t2.nodes = t.nodes)
    (hfr : Frame t.addrs (Slot.root.write t2.ptr w) w2) :
    Models w2 t2 ∧ t2.BST ∧ w2.obj.Size = w.obj.Size ∧ w2.obj.state = w.obj.state ∧
      w2.mem.length = w.mem.length ∧ (∀ b, b ∉ t.addrs → rd w2.mem b = rd w.mem b) := by
  obtain ⟨_, _, hnd⟩ := hm
  refine ⟨⟨hst2, ?_, ?_⟩, ?_, ?_, ?_, ?_, ?_⟩
  · rw [hfr.1]; rfl
  · rw [addrs_of_nodes hn]; exact hnd
  · unfold Tree.BST; rw [keys_of_nodes hn]; exact hb
  · rw [hfr.1]; rfl
  · rw [hfr.1]; rfl
  · rw [hfr.2.1]; rfl
  · intro b hb2
    rw [hfr.2.2 b hb2]
    rfl

/-- A left rotation at a node of the tree of the object that has a real right
child, called with the parent of the node. -/
theorem wp_LeftRotate_tree {w : World K V} {t : Tree K V} (hm : Models w t) (hb : t.BST)
    {n r : Nat} {A B C : Tree K V} {kn kr : K} {vn vr : V} {hn hr : Int}
    (hx : Tree.node n A kn vn hn (.node r B kr vr hr C) ∈ t.subtrees)
    (Q : Unit → World K V → Prop)
    (hQ : ∀ w2 t2, Tree.Stored w2.mem t2 none → t2.nodes = t.nodes →
      Frame t.addrs (Slot.root.write t2.ptr w) w2 → Q () w2) :
    wp (_LeftRotate (t.parentOf n none) (some n)) Q w := by
  obtain ⟨hst, hroot, hnd⟩ := hm
  exact wp_in_context (fun P => _LeftRotate P (some n))
    (Tree.node n A kn vn hn (.node r B kr vr hr C)) n rfl
    (fun w1 sl s h1 h2 h3 h4 h5 h6 Q1 hQ1 => wp_LeftRotate_local w1 sl s h1 h2 h3 h4 h5 h6 Q1 hQ1)
    t w Slot.root none Q hst hnd hb trivial trivial hroot (fun b hb2 => by simp at hb2)
    (fun b _ => by simp) hx hQ

/-- A right rotation at a node of the tree of the object that has a real left
child, called with the parent of the node. -/
theorem wp_RightRotate_tree {w : World K V} {t : Tree K V} (hm : Models w t) (hb : t.BST)
    {n l : Nat} {A B C : Tree K V} {kn kl : K} {vn vl : V} {hn hl : Int}
    (hx : Tree.node n (.node l A kl vl hl B) kn vn hn C ∈ t.subtrees)
    (Q : Unit → World K V → Prop)
    (hQ : ∀ w2 t2, Tree.Stored w2.mem t2 none → t2.nodes = t.nodes →
      Frame t.addrs (Slot.root.write t2.ptr w) w2 → Q () w2) :
    wp (_RightRotate (t.parentOf n none) (some n)) Q w := by
  obtain ⟨hst, hroot, hnd⟩ := hm
  exact wp_in_context (fun P => _RightRotate P (some n))
    (Tree.node n (.node l A kl vl hl B) kn vn hn C) n rfl
    (fun w1 sl s h1 h2 h3 h4 _ _ Q1 hQ1 => wp_RightRotate_local w1 sl s h1 h2 h3 h4 Q1 hQ1)
    t w Slot.root none Q hst hnd hb trivial trivial hroot (fun b hb2 => by simp at hb2)
    (fun b _ => by simp) hx hQ

/-- In a stored search tree every node is threaded exactly when it has no
real right child, and the thread of a threaded node targets its inorder
successor. -/
theorem threads_of_models {w : World K V} {t : Tree K V} (hm : Models w t) (hb : t.BST)
    {a : Nat} {nd : NODE K V} (ha : a ∈ t.addrs) (hrd : rd w.mem a = some nd) :
    (nd.isThreaded = true ↔ nd.actualRight = none) ∧
      (nd.isThreaded = true → ThreadOK w.mem t.keys nd) := by
  obtain ⟨hst, _, hnd⟩ := hm
  obtain ⟨l, k, v, h, r, hx⟩ := exists_subtree_of_addr ha
  obtain ⟨nd2, hrd2, _, _, _, e1, _, e2, _, _⟩ :=
    cell_of_subtree hst hx (size_le_length hst hnd)
  rw [hrd] at hrd2
  obtain rfl := Option.some.inj hrd2
  have hiff : nd.isThreaded = true ↔ r = Tree.nil := by
    rw [e1]
    constructor
    · exact eq_nil_of_isNil
    · rintro rfl; rfl
  refine ⟨?_, fun hthr => ?_⟩
  · rw [e2, hiff]
    cases r with
    | nil => simp
    | node b rl rk rv rh rr => simp
  · have hr := hiff.mp hthr
    subst hr
    obtain ⟨nd3, hrd3, hok⟩ := threadOK_subtree t none none none hst hb
      (fun _ _ => ⟨trivial, trivial⟩) (fun x hx _ _ => hx) trivial a l k v h hx
    rw [hrd] at hrd3
    obtain rfl := Option.some.inj hrd3
    exact hok

end rotations

end AVLT

namespace AVLT

section walk
variable {K V : Type} [LinearOrder K]

theorem rotationSafe_of_stepSafe {key : K} {b : Nat} {l r : Tree K V} {k : K} {v : V} {h : Int}
    (hss : Tree.StepSafe key (.node b l k v h r))
    (hmag : -2 ≤ l.ht - r.ht ∧ l.ht - r.ht ≤ 2) :
    Tree.RotationSafe key (.node b l k v h r) := by
  simp only [Tree.StepSafe, gt_iff_lt] at hss
  simp only [Tree.RotationSafe, gt_iff_lt]
  intro h1 h2
  rcases hss with hss | hss | hss
  · exact absurd hss h1
  · exact absurd hss h2
  · refine ⟨?_, hss⟩
    simp only [not_or] at h2
    obtain ⟨h3, h4⟩ := h2
    split_ifs at h3 h4 ⊢ <;> omega

theorem walkSafe_link (key : K) (val : V) (a : Nat) (t : Tree K V) :
    ∀ hs : Int, key ∉ t.keys → t.HeightsOK → t.Balanced →
      Tree.WalkSafe key hs (Tree.link key val 0 a t) := by
  induction t with
  | nil =>
    intro hs _ _ _
    simp [Tree.WalkSafe, Tree.link]
  | node b l k v h r ihl ihr =>
    intro hs hk hH hB
    simp only [mem_keys_node, not_or] at hk
    obtain ⟨hlH, hrH, hh⟩ := heightsOK_node.mp hH
    obtain ⟨hlB, hrB, hb1, hb2⟩ := balanced_node.mp hB
    simp only [Tree.link, hk.2.1, if_false]
    by_cases hlt : key < k
    · simp only [hlt, if_true, Tree.WalkSafe, hk.2.1, if_false]
      obtain ⟨_, hH2, hB2, _, ht⟩ := rebalance_link key val a l h _ rfl hk.1 hlH hlB
      refine ⟨ihl h hk.1 hlH hlB, fun hc => ?_⟩
      obtain ⟨hgrow, hG⟩ := ht hc
      obtain ⟨hss, _⟩ := @rebalStep_left _ _ _ key hs b l _ r k v h hH2 hB2 hrH hrB hh hb1 hb2
        hgrow hG hlt _ rfl
      refine rotationSafe_of_stepSafe hss ?_
      rw [ht_eq_height hH2, ht_eq_height hrH, hgrow]
      omega
    · have hgt : k < key := lt_of_le_of_ne (not_lt.mp hlt) (Ne.symm hk.2.1)
      simp only [hlt, if_false, Tree.WalkSafe, hk.2.1]
      obtain ⟨_, hH2, hB2, _, ht⟩ := rebalance_link key val a r hs _ rfl hk.2.2 hrH hrB
      refine ⟨ihr hs hk.2.2 hrH hrB, fun hc => ?_⟩
      obtain ⟨hgrow, hG⟩ := ht hc
      obtain ⟨hss, _⟩ := @rebalStep_right _ _ _ key hs b l r _ k v h hlH hlB hH2 hB2 hh hb1 hb2
        hgrow hG hgt _ rfl
      refine rotationSafe_of_stepSafe hss ?_
      rw [ht_eq_height hlH, ht_eq_height hH2, hgrow]
      omega

end walk

end AVLT

namespace AVLT

section statements
variable {K V : Type} [LinearOrder K]

/-- C1: for every finite sequence of `insert` calls on an initially empty
tree, `begin()` followed by `next()` until it returns `false` yields a
strictly increasing sequence of keys, which is the sorted list of the
distinct inserted keys (empty for the empty tree). -/
theorem traverse_inserted_keys_sorted (ops : List (K × V)) :
    ∃ w ks w2, (insertAll ops).run World.empty = some ((), w) ∧
      traverse.run w = some (ks, w2) ∧
      ks.Pairwise (· < ·) ∧ (∀ k, k ∈ ks ↔ k ∈ ops.map Prod.fst) ∧
      ks = (ops.map Prod.fst).toFinset.sort (· ≤ ·) ∧ (ops = [] → ks = []) := by
  obtain ⟨w, t, hrun, hinv, _⟩ := reach ops
  refine ⟨w, t.keys, _, hrun, run_traverse hinv.1, hinv.2.1, mem_keys_iff hinv,
    keys_eq_sort hinv, ?_⟩
  rintro rfl
  have := mem_keys_iff hinv
  simp only [List.map_nil, List.not_mem_nil, iff_false] at this
  exact List.eq_nil_iff_forall_not_mem.mpr this

/-- C2: after any finite sequence of `insert` calls on an initially empty
tree, every node of the store satisfies |h(left) - h(actualRight)| <= 1,
with h the true height computed over the real children (-1 for an absent or
threaded relation). -/
theorem avl_balance_every_node (ops : List (K × V)) :
    ∃ w, (insertAll ops).run World.empty = some ((), w) ∧
      ∀ a nd, rd w.mem a = some nd →
        |trueHeight w.mem w.mem.length nd.Left
          - trueHeight w.mem w.mem.length nd.actualRight| ≤ 1 := by
  obtain ⟨w, t, hrun, hinv, _⟩ := reach ops
  obtain ⟨⟨hst, _, hnd⟩, _, _, hB, _, _, hall⟩ := hinv
  refine ⟨w, hrun, fun a nd hrd => ?_⟩
  obtain ⟨l, k, v, h, r, hx⟩ := exists_subtree_of_addr (hall a (rd_lt hrd))
  obtain ⟨nd2, hrd2, _, _, _, _, _, _, e1, e2⟩ :=
    cell_of_subtree hst hx (size_le_length hst hnd)
  rw [hrd] at hrd2
  obtain rfl := Option.some.inj hrd2
  rw [e1, e2]
  exact (balanced_subtree hB hx).2.2

/-- C3: after any finite sequence of `insert` calls on an initially empty
tree, the `Height` stored in every node is 1 + max of the true heights of its
left and of its real right subtree (-1 for an absent or threaded relation);
`height()` returns the true height of the tree, -1 for the empty tree. -/
theorem stored_heights_true (ops : List (K × V)) :
    ∃ w, (insertAll ops).run World.empty = some ((), w) ∧
      (∀ a nd, rd w.mem a = some nd →
        nd.Height = 1 + max (trueHeight w.mem w.mem.length nd.Left)
          (trueHeight w.mem w.mem.length nd.actualRight)) ∧
      height.run w = some (trueHeight w.mem w.mem.length w.obj.Root, w) ∧
      (ops = [] → height.run w = some (-1, w)) := by
  obtain ⟨w, t, hrun, hinv, _⟩ := reach ops
  have hkeys := mem_keys_iff hinv
  obtain ⟨⟨hst, hroot, hnd⟩, _, hH, _, _, _, hall⟩ := hinv
  have hsz := size_le_length hst hnd
  have hht : height.run w = some (trueHeight w.mem w.mem.length w.obj.Root, w) := by
    rw [run_height ⟨hst, hroot, hnd⟩, hroot, trueHeight_eq t none _ hst hsz, ht_eq_height hH]
  refine ⟨w, hrun, fun a nd hrd => ?_, hht, ?_⟩
  · obtain ⟨l, k, v, h, r, hx⟩ := exists_subtree_of_addr (hall a (rd_lt hrd))
    obtain ⟨nd2, hrd2, _, _, e0, _, _, _, e1, e2⟩ := cell_of_subtree hst hx hsz
    rw [hrd] at hrd2
    obtain rfl := Option.some.inj hrd2
    rw [e1, e2, e0]
    exact (heightsOK_subtree hH hx).2.2
  · rintro rfl
    have ht : t = Tree.nil := by
      cases t with
      | nil => rfl
      | node a l k v h r =>
        have := (hkeys k).mp (by simp [Tree.keys])
        simp at this
    subst ht
    rw [run_height ⟨hst, hroot, hnd⟩]
    rfl

/-- C4: for every finite sequence of `insert` calls on an initially empty
tree and every key `k`, `search(k, value)` returns `true` exactly when some
`insert` of the sequence had key `k`, and then delivers the value passed to
the first `insert` of `k`. -/
theorem search_finds_first_insert (ops : List (K × V)) (k : K) :
    ∃ w, (insertAll ops).run World.empty = some ((), w) ∧
      (search k).run w = some (firstValue k ops, w) ∧
      ((firstValue k ops).isSome = true ↔ k ∈ ops.map Prod.fst) := by
  obtain ⟨w, t, hrun, hinv, _⟩ := reach ops
  refine ⟨w, hrun, ?_, firstValue_isSome_iff k ops⟩
  rw [run_search hinv.1, find_eq_firstValue hinv]

/-- C5: for every tree reached by `insert` calls and every `lower <= upper`,
`range_search(lower, upper)` returns exactly the inserted keys `k` with
`lower <= k <= upper`, each once, in strictly increasing order; the result is
empty when no inserted key is in the range, and it is the whole inorder
sequence when the range covers every inserted key. -/
theorem range_search_exact (ops : List (K × V)) (lower upper : K) (_h : lower ≤ upper) :
    ∃ w ks, (insertAll ops).run World.empty = some ((), w) ∧
      (range_search lower upper).run w = some (ks, w) ∧
      ks.Pairwise (· < ·) ∧
      (∀ k, k ∈ ks ↔ (k ∈ ops.map Prod.fst ∧ lower ≤ k ∧ k ≤ upper)) ∧
      ((∀ k ∈ ops.map Prod.fst, ¬ (lower ≤ k ∧ k ≤ upper)) → ks = []) ∧
      ((∀ k ∈ ops.map Prod.fst, lower ≤ k ∧ k ≤ upper) →
        ∃ w2, traverse.run w = some (ks, w2)) := by
  obtain ⟨w, t, hrun, hinv, _⟩ := reach ops
  have hmem : ∀ k, k ∈ t.keys.filter (fun x => decide (lower ≤ x ∧ x ≤ upper))
      ↔ (k ∈ ops.map Prod.fst ∧ lower ≤ k ∧ k ≤ upper) := by
    intro k
    rw [List.mem_filter, mem_keys_iff hinv k]
    simp
  refine ⟨w, _, hrun, run_range_search hinv.1 hinv.2.1 lower upper,
    List.Pairwise.sublist (List.filter_sublist _) hinv.2.1, hmem, fun hno => ?_,
    fun hall => ⟨⟨w.mem, ⟨w.obj.Root, w.obj.Size, none⟩⟩, ?_⟩⟩
  · refine List.eq_nil_iff_forall_not_mem.mpr (fun k hk => ?_)
    have := (hmem k).mp hk
    exact hno k this.1 this.2
  · rw [run_traverse hinv.1]
    have hfl : t.keys.filter (fun x => decide (lower ≤ x ∧ x ≤ upper)) = t.keys := by
      refine List.filter_eq_self.mpr (fun k hk => ?_)
      have := hall k ((mem_keys_iff hinv k).mp hk)
      simpa using this
    rw [hfl]

/-- C6: after any finite sequence of `insert` calls on an initially empty
tree, the store holds a tree in which every node holds an inserted key, has
`isThreaded` set exactly when it has no real right child, and, when it is
threaded, has a `Right` pointer that targets the node with the smallest
inserted key above its own, or that is null when its key is the largest. -/
theorem threads_target_successor (ops : List (K × V)) :
    ∃ w t, (insertAll ops).run World.empty = some ((), w) ∧ Models w t ∧
      ∀ a nd, rd w.mem a = some nd →
        nd.Key ∈ ops.map Prod.fst ∧
        (nd.isThreaded = true ↔ nd.actualRight = none) ∧
        (∃ l k v h r, Tree.node a l k v h r ∈ t.subtrees ∧ nd.Key = k ∧
          (nd.isThreaded = true ↔ r = Tree.nil)) ∧
        (nd.isThreaded = true → ThreadOK w.mem (ops.map Prod.fst) nd) := by
  obtain ⟨w, t, hrun, hinv, _⟩ := reach ops
  have hkeys := mem_keys_iff hinv
  obtain ⟨⟨hst, hroot, hnd⟩, hb, _, _, _, _, hall⟩ := hinv
  refine ⟨w, t, hrun, ⟨hst, hroot, hnd⟩, fun a nd hrd => ?_⟩
  obtain ⟨l, k, v, h, r, hx⟩ := exists_subtree_of_addr (hall a (rd_lt hrd))
  obtain ⟨nd2, hrd2, e0, _, _, e1, _, e2, _, _⟩ :=
    cell_of_subtree hst hx (size_le_length hst hnd)
  rw [hrd] at hrd2
  obtain rfl := Option.some.inj hrd2
  have hiff : nd.isThreaded = true ↔ r = Tree.nil := by
    rw [e1]
    constructor
    · exact eq_nil_of_isNil
    · rintro rfl; rfl
  have hiff2 : nd.isThreaded = true ↔ nd.actualRight = none := by
    rw [e2, hiff]
    cases r with
    | nil => simp
    | node b rl rk rv rh rr => simp
  refine ⟨?_, hiff2, ⟨l, k, v, h, r, hx, e0, hiff⟩, fun hthr => ?_⟩
  · rw [e0]
    exact (hkeys k).mp (key_mem_of_subtree hx)
  have hr := hiff.mp hthr
  subst hr
  obtain ⟨nd3, hrd3, hok⟩ := threadOK_subtree t none none none hst hb
    (fun _ _ => ⟨trivial, trivial⟩) (fun x hx _ _ => (hkeys x).mpr hx) trivial a l k v h hx
  rw [hrd] at hrd3
  obtain rfl := Option.some.inj hrd3
  exact hok

/-- C7: in every state reached by `insert` calls, whatever the cursor,
`insert(k, v)` with a key `k` already present returns with the whole machine
state unchanged: size, shape, stored heights, threads, values and cursor. -/
theorem insert_present_key_unchanged (ops : List (K × V)) (key : K) (val : V) (c : Ptr)
    (h : key ∈ ops.map Prod.fst) :
    ∃ w, (insertAll ops).run World.empty = some ((), w) ∧
      (insert key val).run ⟨w.mem, ⟨w.obj.Root, w.obj.Size, c⟩⟩
        = some ((), ⟨w.mem, ⟨w.obj.Root, w.obj.Size, c⟩⟩) := by
  obtain ⟨w, t, hrun, hinv, _⟩ := reach ops
  refine ⟨w, hrun, ?_⟩
  exact run_insert_dup key val ⟨hinv.1.1, hinv.1.2.1, hinv.1.2.2⟩ hinv.2.1
    ((mem_keys_iff hinv key).mpr h)

end statements

/-- Witness of C5 on the tree of the worked example and the range [61, 70]. -/
theorem range_search_exact_witness :
    (61 : Int) ≤ 70 ∧
    ∃ (w : World Int Int) (ks : List Int),
      (insertAll [(60, 60), (65, 65), (63, 63)]).run World.empty = some ((), w) ∧
      (range_search 61 70).run w = some (ks, w) ∧
      ks.Pairwise (· < ·) ∧
      (∀ k, k ∈ ks ↔
        (k ∈ ([(60, 60), (65, 65), (63, 63)] : List (Int × Int)).map Prod.fst ∧ 61 ≤ k ∧ k ≤ 70)) ∧
      ((∀ k ∈ ([(60, 60), (65, 65), (63, 63)] : List (Int × Int)).map Prod.fst,
          ¬ (61 ≤ k ∧ k ≤ 70)) → ks = []) ∧
      ((∀ k ∈ ([(60, 60), (65, 65), (63, 63)] : List (Int × Int)).map Prod.fst,
          61 ≤ k ∧ k ≤ 70) → ∃ w2, traverse.run w = some (ks, w2)) :=
  ⟨by decide, range_search_exact [(60, 60), (65, 65), (63, 63)] 61 70 (by decide)⟩

/-- Witness of C7: a second `insert` of key 65 into the tree of the worked
example, with a null cursor. -/
theorem insert_present_key_unchanged_witness :
    (65 : Int) ∈ ([(60, 60), (65, 65), (63, 63)] : List (Int × Int)).map Prod.fst ∧
    ∃ w : World Int Int,
      (insertAll [(60, 60), (65, 65), (63, 63)]).run World.empty = some ((), w) ∧
      (insert 65 (7 : Int)).run ⟨w.mem, ⟨w.obj.Root, w.obj.Size, none⟩⟩
        = some ((), ⟨w.mem, ⟨w.obj.Root, w.obj.Size, none⟩⟩) :=
  ⟨by decide, insert_present_key_unchanged [(60, 60), (65, 65), (63, 63)] 65 7 none (by decide)⟩

end AVLT

namespace AVLT

section example_steps

theorem example_step1 : (insert (60 : Int) (60 : Int)).run World.empty = some ((), example1) := rfl

theorem example_step2 : (insert (65 : Int) (65 : Int)).run example1 = some ((), example2) := rfl

theorem example_step3 : (insert (63 : Int) (63 : Int)).run example2 = some ((), example3) := rfl

theorem example_run :
    (insertAll [((60 : Int), (60 : Int)), (65, 65), (63, 63)]).run World.empty
      = some ((), example3) := by
  simp only [insertAll, run_bind, example_step1, example_step2, example_step3, Option.bind,
    run_pure]

theorem example_height : height.run example3 = some (1, example3) := rfl

theorem example_search : (search (63 : Int)).run example3 = some (some 63, example3) := rfl

theorem example_index : (index (63 : Int)).run example3 = some (63, example3) := rfl

theorem example_successor : (successorOf (63 : Int)).run example3 = some (65, example3) := rfl

theorem example_begin : begin.run example3 = some ((), ⟨exampleMem, objA⟩) := rfl

theorem example_drain :
    (drain 4 []).run ⟨exampleMem, objA⟩ = some ([60, 63, 65], ⟨exampleMem, ⟨some 2, 3, none⟩⟩) :=
  rfl

theorem example_traverse :
    traverse.run example3 = some ([60, 63, 65], ⟨exampleMem, ⟨some 2, 3, none⟩⟩) := by
  simp only [traverse, run_bind, example_begin, Option.bind]
  rfl

end example_steps

end AVLT

namespace AVLT

section copy_steps

theorem copy_begin :
    (insertAll [((60 : Int), (60 : Int)), (65, 65), (63, 63)] >>= fun _ => begin).run World.empty
      = some ((), ⟨exampleMem, objA⟩) := by
  simp only [run_bind, example_run, Option.bind, example_begin]

theorem copy_construct (o : avlt) :
    (copyConstruct objA).run ⟨exampleMem, o⟩ = some ((), ⟨copyMem, objB⟩) := rfl

theorem copy_assign :
    (assign (some objA)).run ⟨exampleMem, ⟨none, 0, none⟩⟩ = some ((), ⟨copyMem, objB⟩) := rfl

theorem copy_drain :
    (drain 7 []).run ⟨copyMem, objB⟩ = some ([60, 63, 65], ⟨copyMem, ⟨some 3, 3, none⟩⟩) := rfl

theorem copy_insert :
    (insert (61 : Int) (61 : Int)).run ⟨copyMem, objA⟩
      = some ((), ⟨copyMemInsert, ⟨some 2, 4, some 0⟩⟩) := rfl

theorem copy_drain_insert :
    (drain 8 []).run ⟨copyMemInsert, objB⟩
      = some ([60, 61, 63, 65], ⟨copyMemInsert, ⟨some 3, 3, none⟩⟩) := rfl

theorem copy_clear :
    clear.run ⟨copyMem, objA⟩ = some ((), ⟨copyMemClear, ⟨none, 0, none⟩⟩) := rfl

theorem copy_next_clear : next.run ⟨copyMemClear, objB⟩ = none := rfl

end copy_steps

/-- C9 (the code breaks the claim): the copy constructor and `operator=`
copy the cursor `state` of the source as it is, a pointer to a node of the
source.  With `A` the tree of 60, 65, 63 after `A.begin()` and `B` a copy of
`A`, the keys `B.next()` returns are 60, 63, 65 before `A.insert(61, 61)`
and 60, 61, 63, 65 after it; after `A.clear()` instead, `B.next()` reads a
node that has been deleted. -/
theorem copy_cursor_shared_with_source :
    (insertAll [((60 : Int), (60 : Int)), (65, 65), (63, 63)] >>= fun _ => begin).run World.empty
        = some ((), ⟨exampleMem, objA⟩) ∧
      (∀ o, (copyConstruct objA).run ⟨exampleMem, o⟩ = some ((), ⟨copyMem, objB⟩)) ∧
      (assign (some objA)).run ⟨exampleMem, ⟨none, 0, none⟩⟩ = some ((), ⟨copyMem, objB⟩) ∧
      objB.state = objA.state ∧
      (drain 7 []).run ⟨copyMem, objB⟩ = some ([60, 63, 65], ⟨copyMem, ⟨some 3, 3, none⟩⟩) ∧
      (insert (61 : Int) (61 : Int)).run ⟨copyMem, objA⟩
        = some ((), ⟨copyMemInsert, ⟨some 2, 4, some 0⟩⟩) ∧
      (drain 8 []).run ⟨copyMemInsert, objB⟩
        = some ([60, 61, 63, 65], ⟨copyMemInsert, ⟨some 3, 3, none⟩⟩) ∧
      clear.run ⟨copyMem, objA⟩ = some ((), ⟨copyMemClear, ⟨none, 0, none⟩⟩) ∧
      next.run ⟨copyMemClear, objB⟩ = none :=
  ⟨copy_begin, copy_construct, copy_assign, rfl, copy_drain, copy_insert, copy_drain_insert,
    copy_clear, copy_next_clear⟩

/-- C10: the worked example.  After `insert(60, 60)`, `insert(65, 65)`,
`insert(63, 63)` on an empty `avlt<int, int>`: `height()` is 1, `search(63)`
returns `true` with value 63, `tree[63]` is 63, `tree(63)` is 65, and
`begin()` followed by `next()` until it returns `false` yields 60, 63, 65. -/
theorem worked_example :
    ∃ w : World Int Int,
      (insertAll [(60, 60), (65, 65), (63, 63)]).run World.empty = some ((), w) ∧
      height.run w = some (1, w) ∧
      (search 63).run w = some (some 63, w) ∧
      (index 63).run w = some (63, w) ∧
      (successorOf 63).run w = some (65, w) ∧
      ∃ w2, traverse.run w = some ([60, 63, 65], w2) :=
  ⟨example3, example_run, example_height, example_search, example_index, example_successor,
    _, example_traverse⟩

end AVLT

namespace AVLT

section copy_claim
variable {K V : Type} [LinearOrder K]

/-- Copies are images of the source when the source is another object.  For
every tree `A` reached by `insert` calls, whatever its cursor `c`, the copy
constructor, and `operator=` on another tree `B` of the same store (itself
reached by `insert` calls), return with the object holding an image of `A`:
the same shape with the same key, value, stored height, flag `isThreaded`
and thread-target key at every position, and the same `size()`; the nodes
of `A` are left as they were. -/
theorem copy_is_isomorphic (opsA opsB : List (K × V)) (c : Ptr) (o : avlt) :
    ∃ wA wC wB wD : World K V,
      (insertAll opsA).run World.empty = some ((), wA) ∧
      (copyConstruct ⟨wA.obj.Root, wA.obj.Size, c⟩).run ⟨wA.mem, o⟩ = some ((), wC) ∧
      shapeAt wC.mem wC.mem.length wC.obj.Root = shapeAt wA.mem wA.mem.length wA.obj.Root ∧
      size.run wC = some (wA.obj.Size, wC) ∧
      shapeAt wC.mem wC.mem.length wA.obj.Root = shapeAt wA.mem wA.mem.length wA.obj.Root ∧
      (insertAll opsB).run ⟨wA.mem, ⟨none, 0, none⟩⟩ = some ((), wB) ∧
      (assign (some ⟨wA.obj.Root, wA.obj.Size, c⟩)).run wB = some ((), wD) ∧
      shapeAt wD.mem wD.mem.length wD.obj.Root = shapeAt wA.mem wA.mem.length wA.obj.Root ∧
      size.run wD = some (wA.obj.Size, wD) ∧
      shapeAt wD.mem wD.mem.length wA.obj.Root = shapeAt wA.mem wA.mem.length wA.obj.Root := by
  obtain ⟨wA, tA, hrunA, hinvA, _⟩ := reach opsA
  obtain ⟨⟨hstA, hrootA, hndA⟩, hbA, _, _, _, _, _⟩ := hinvA
  -- the copy constructor
  obtain ⟨_, wC, hrunC, hC1, hC2, hC3⟩ :=
    wp_copyConstruct (w := ⟨wA.mem, o⟩) ⟨wA.obj.Root, wA.obj.Size, c⟩ hstA hbA hndA hrootA
  -- the tree B, built after A in the same store
  obtain ⟨wB, tB, hrunB, hmB, haB, hnB, hfrB⟩ :=
    run_insertAll_shared wA.mem.length opsB ⟨wA.mem, ⟨none, 0, none⟩⟩ Tree.nil
      ⟨trivial, rfl, List.nodup_nil⟩ (by simp [Tree.BST, Tree.keys]) trivial trivial
      (fun b hb => by simp [Tree.addrs] at hb) (le_refl _)
  have hstB : Tree.Stored wB.mem tA none :=
    stored_frame (fun b hb => hfrB b (stored_lt hstA b hb)) hstA
  have hshB : shapeAt wB.mem wB.mem.length tA.ptr = shapeAt wA.mem wA.mem.length tA.ptr := by
    rw [shapeAt_eq _ none none _ hstB trivial (size_le_length hstB hndA),
      shapeAt_eq _ none none _ hstA trivial (size_le_length hstA hndA)]
  obtain ⟨_, wD, hrunD, hD1, hD2, hD3⟩ :=
    wp_assign (w := wB) ⟨wA.obj.Root, wA.obj.Size, c⟩ hstB hbA hndA hrootA hmB
      (fun b hb hbt => by
        have h1 := stored_lt hstA b hb
        have h2 := haB b hbt
        omega)
  refine ⟨wA, wC, wB, wD, hrunA, hrunC, ?_, ?_, ?_, hrunB, hrunD, ?_, ?_, ?_⟩
  · rw [hrootA]; exact hC1
  · simp only [size, Cmd.run, getSize] at hC2 ⊢
    rw [hC2]
  · rw [hrootA]; exact hC3
  · rw [hrootA, hD1, hshB]
  · simp only [size, Cmd.run, getSize] at hD2 ⊢
    rw [hD2]
  · rw [hrootA, hD3, hshB]

end copy_claim

theorem assign_self_run :
    (assign none).run example3 = some ((), ⟨[none, none, none], ⟨none, 0, none⟩⟩) := rfl

theorem assign_self_shape :
    shapeAt exampleMem 3 (some 2) ≠ shapeAt ([none, none, none] : Mem Int Int) 3 none := by
  decide

/-- C8 (the code breaks the claim): `operator=` runs `clear()` before it
reads `other`, and has no guard for `other` being the object itself.  With
`T` the tree of 60, 65, 63, the assignment `T = T` returns with all nodes
deleted, `Root` null and `Size` 0: the tree it produces is empty, not an
image of `T`, and `size()` is 0 where it was 3. -/
theorem assign_self_empties_tree :
    (insertAll [((60 : Int), (60 : Int)), (65, 65), (63, 63)]).run World.empty
        = some ((), example3) ∧
      (assign none).run example3 = some ((), ⟨[none, none, none], ⟨none, 0, none⟩⟩) ∧
      shapeAt example3.mem 3 example3.obj.Root
        ≠ shapeAt ([none, none, none] : Mem Int Int) 3 none ∧
      size.run example3 = some (3, example3) ∧
      size.run (⟨[none, none, none], ⟨none, 0, none⟩⟩ : World Int Int)
        = some (0, ⟨[none, none, none], ⟨none, 0, none⟩⟩) :=
  ⟨example_run, assign_self_run, assign_self_shape, rfl, rfl⟩

end AVLT

namespace AVLT

theorem example_heightOf_root : (heightOf (63 : Int)).run example3 = some (1, example3) := rfl

theorem example_heightOf_left : (heightOf (60 : Int)).run example3 = some (0, example3) := rfl

theorem example_heightOf_right : (heightOf (65 : Int)).run example3 = some (0, example3) := rfl

/-- C11 as stated fails: after `insert(60, 60)`, `insert(65, 65)`,
`insert(63, 63)` on an empty `avlt<int, int>`, `tree%63` does not return 0. -/
theorem heightOf_example_not_zero :
    ¬ ∃ w : World Int Int,
      (insertAll [(60, 60), (65, 65), (63, 63)]).run World.empty = some ((), w) ∧
        ∃ w2, (heightOf 63).run w = some (0, w2) := by
  rintro ⟨w, hrun, w2, hres⟩
  rw [example_run] at hrun
  obtain rfl : example3 = w := by
    injection hrun with hrun
    injection hrun
  rw [example_heightOf_root] at hres
  injection hres with hres
  injection hres with h1 _
  exact absurd h1 (by decide)

/-- C11, amended: after `insert(60, 60)`, `insert(65, 65)`, `insert(63, 63)`
on an empty `avlt<int, int>`, `tree%63` returns 1, the height of the root the
double rotation has made of 63, and `tree%60` and `tree%65` return 0. -/
theorem heightOf_example :
    ∃ w : World Int Int,
      (insertAll [(60, 60), (65, 65), (63, 63)]).run World.empty = some ((), w) ∧
      (heightOf 63).run w = some (1, w) ∧
      (heightOf 60).run w = some (0, w) ∧
      (heightOf 65).run w = some (0, w) :=
  ⟨example3, example_run, example_heightOf_root, example_heightOf_left, example_heightOf_right⟩

section lookups
variable {K V : Type} [LinearOrder K]

/-- C12: for every tree reached by `insert` calls and every key `k`,
`tree%k` returns -1 exactly when `k` has not been inserted; when `k` is in
the tree it returns a value that is at least 0 and is the true height of the
subtree at the node of `k`, 0 for a leaf. -/
theorem heightOf_true_height (ops : List (K × V)) (k : K) :
    ∃ w res, (insertAll ops).run World.empty = some ((), w) ∧
      (heightOf k).run w = some (res, w) ∧
      (res = -1 ↔ k ∉ ops.map Prod.fst) ∧
      (k ∈ ops.map Prod.fst → 0 ≤ res ∧
        ∃ a nd, rd w.mem a = some nd ∧ nd.Key = k ∧
          res = trueHeight w.mem w.mem.length (some a) ∧
          (nd.Left = none → nd.actualRight = none → res = 0)) := by
  obtain ⟨w, t, hrun, hinv, _⟩ := reach ops
  have hkeys := mem_keys_iff hinv k
  obtain ⟨⟨hst, hroot, hnd⟩, hb, hH, _, _, _, _⟩ := hinv
  obtain ⟨res, hres, hcase⟩ := run_heightOf ⟨hst, hroot, hnd⟩ hb k
  refine ⟨w, res, hrun, hres, ?_⟩
  rcases hcase with ⟨h1, h2⟩ | ⟨a, l, v, r, hx⟩
  · rw [hkeys] at h1
    exact ⟨⟨fun _ => h1, fun _ => h2⟩, fun hin => absurd hin h1⟩
  · have hk : k ∈ ops.map Prod.fst := hkeys.mp (key_mem_of_subtree hx)
    have hhx := (heightsOK_subtree hH hx).2.2
    have hl := height_ge l
    have hr := height_ge r
    have h0 : 0 ≤ res := by rw [hhx]; omega
    refine ⟨⟨fun h => by omega, fun h => absurd hk h⟩, fun _ => ⟨h0, ?_⟩⟩
    obtain ⟨nd, hrd, e1, _, _, _, e5, e6, _, _⟩ :=
      cell_of_subtree hst hx (size_le_length hst hnd)
    obtain ⟨s2, hsx⟩ := stored_subtree hst hx
    have hsz := Nat.le_trans (size_subtree hx) (size_le_length hst hnd)
    refine ⟨a, nd, hrd, e1, ?_, fun hl0 hr0 => ?_⟩
    · have := trueHeight_eq _ s2 _ hsx hsz
      simp only [ptr_node] at this
      rw [this, Tree.height, hhx]
    · rw [e5] at hl0
      rw [e6] at hr0
      have hl1 : l = Tree.nil := by cases l with
        | nil => rfl
        | node _ _ _ _ _ _ => simp at hl0
      have hr1 : r = Tree.nil := by cases r with
        | nil => rfl
        | node _ _ _ _ _ _ => simp at hr0
      rw [hhx, hl1, hr1]
      rfl

/-- C13: for every tree reached by `insert` calls and every key `k`,
`tree(k)` returns the key that the `Right` pointer of the node of `k`
targets: the default key when `k` is not in the tree; the key of the right
child when the node has a real right child; and for a threaded node the
smallest key of the tree above `k`, or the default key when `k` is the largest
key. -/
theorem successor_query [Inhabited K] (ops : List (K × V)) (k : K) :
    ∃ w res, (insertAll ops).run World.empty = some ((), w) ∧
      (successorOf k).run w = some (res, w) ∧
      (k ∉ ops.map Prod.fst → res = default) ∧
      (k ∈ ops.map Prod.fst →
        ∃ a nd, rd w.mem a = some nd ∧ nd.Key = k ∧
          res = (keyAt w.mem nd.Right).getD default ∧
          (nd.isThreaded = false →
            ∃ b nb, nd.actualRight = some b ∧ rd w.mem b = some nb ∧ res = nb.Key) ∧
          (nd.isThreaded = true →
            ((∃ x ∈ ops.map Prod.fst, k < x) →
              res ∈ ops.map Prod.fst ∧ k < res ∧ ∀ x ∈ ops.map Prod.fst, k < x → res ≤ x) ∧
            ((∀ x ∈ ops.map Prod.fst, x ≤ k) → res = default))) := by
  obtain ⟨w, t, hrun, hinv, _⟩ := reach ops
  have hkeys := mem_keys_iff hinv
  have hcell := fun (b : Nat) (nb : NODE K V) (h : rd w.mem b = some nb) => cell_key_mem hinv h
  obtain ⟨⟨hst, hroot, hnd⟩, hb, _, _, _, _, _⟩ := hinv
  obtain ⟨res, hres, hcase⟩ := run_successorOf ⟨hst, hroot, hnd⟩ hb k
  refine ⟨w, res, hrun, hres, ?_⟩
  rcases hcase with ⟨h1, h2⟩ | ⟨a, l, v, h, r, nd, hx, hrd, hres2, hsome⟩
  · rw [hkeys] at h1
    exact ⟨fun _ => h2, fun hin => absurd hin h1⟩
  · have hk : k ∈ ops.map Prod.fst := (hkeys k).mp (key_mem_of_subtree hx)
    refine ⟨fun h => absurd hk h, fun _ => ?_⟩
    obtain ⟨nd2, hrd2, e1, _, _, e4, _, e6, _, _⟩ :=
      cell_of_subtree hst hx (size_le_length hst hnd)
    rw [hrd] at hrd2
    obtain rfl := Option.some.inj hrd2
    refine ⟨a, nd, hrd, e1, hres2, fun hthr => ?_, fun hthr => ?_⟩
    · -- a real right child
      have hR : nd.Right = nd.actualRight := by simp [NODE.actualRight, hthr]
      cases r with
      | nil => rw [e4] at hthr; simp at hthr
      | node b rl rk rv rh rr =>
        obtain ⟨s2, hsx⟩ := stored_subtree hst hx
        have hB := hsx.2.2.1
        refine ⟨b, _, by rw [e6]; rfl, hB, ?_⟩
        rw [hres2, hR, e6]
        simp [keyAt, hB]
    · -- a thread
      have hr : r = Tree.nil := eq_nil_of_isNil (by rw [← e4]; exact hthr)
      subst hr
      obtain ⟨nd3, hrd3, hok⟩ := threadOK_subtree t none none none hst hb
        (fun _ _ => ⟨trivial, trivial⟩) (fun x hx _ _ => (hkeys x).mpr hx) trivial a l k v h hx
      rw [hrd] at hrd3
      obtain rfl := Option.some.inj hrd3
      unfold ThreadOK at hok
      cases hR : nd.Right with
      | none =>
        rw [hR] at hok
        simp only [] at hok
        rw [e1] at hok
        refine ⟨fun ⟨x, hx1, hx2⟩ => absurd (hok x hx1) (not_le.mpr hx2), fun _ => ?_⟩
        rw [hres2, hR]
        rfl
      | some b =>
        rw [hR] at hok
        simp only [] at hok
        obtain ⟨nb, hnb, hlt, hmin⟩ := hok
        rw [e1] at hlt hmin
        have hresb : res = nb.Key := by
          rw [hres2, hR]
          simp [keyAt, hnb]
        rw [hresb]
        refine ⟨fun _ => ⟨hcell b nb hnb, hlt, hmin⟩, fun hmax => ?_⟩
        exact absurd (hmax nb.Key (hcell b nb hnb)) (not_le.mpr hlt)

/-- After any sequence of `insert` calls on an empty tree, `size()` returns
the number of distinct keys as the `int` member `Size` holds it, and the
tree has one node for every distinct key. -/
theorem run_size_wrapped (ops : List (K × V)) :
    ∃ w, (insertAll ops).run World.empty = some ((), w) ∧
      size.run w = some (wrapInt32 ((ops.map Prod.fst).toFinset.card : Int), w) ∧
      countNodes w.mem w.mem.length w.obj.Root = (ops.map Prod.fst).toFinset.card := by
  obtain ⟨w, t, hrun, hinv, _⟩ := reach ops
  have hsort := keys_eq_sort hinv
  obtain ⟨⟨hst, hroot, hnd⟩, _, _, _, _, hsz, _⟩ := hinv
  have hcard : t.size = (ops.map Prod.fst).toFinset.card := by
    rw [← keys_length, hsort, Finset.length_sort]
  refine ⟨w, hrun, ?_, ?_⟩
  · simp only [size, Cmd.run, getSize]
    rw [hsz, hcard]
  · rw [hroot, countNodes_eq t none _ hst (size_le_length hst hnd), hcard]

/-- C14, amended: after any finite sequence of `insert` calls with less than
`2 ^ 31` distinct keys on an initially empty tree, `size()` returns the
number of distinct keys of the sequence, which is the number of nodes reached
from the root over the real child links; it is 0 for the empty tree. -/
theorem size_counts_distinct_keys (ops : List (K × V))
    (hn : (ops.map Prod.fst).toFinset.card < 2 ^ 31) :
    ∃ w, (insertAll ops).run World.empty = some ((), w) ∧
      size.run w = some (((ops.map Prod.fst).toFinset.card : Int), w) ∧
      countNodes w.mem w.mem.length w.obj.Root = (ops.map Prod.fst).toFinset.card ∧
      (ops = [] → size.run w = some (0, w)) := by
  obtain ⟨w, hrun, hsize, hcount⟩ := run_size_wrapped ops
  have hw : wrapInt32 ((ops.map Prod.fst).toFinset.card : Int)
      = ((ops.map Prod.fst).toFinset.card : Int) :=
    wrapInt32_of_lt (by omega) (by omega)
  rw [hw] at hsize
  refine ⟨w, hrun, hsize, hcount, ?_⟩
  rintro rfl
  simpa using hsize

/-- C15: after any finite sequence of `insert` calls on an initially empty
tree, at every node the keys of the left subtree are below the key of the
node and the keys of the real right subtree are above it; the keys of the
tree, in inorder, increase strictly, and no two nodes hold the same key. -/
theorem bst_order_every_node (ops : List (K × V)) :
    ∃ w, (insertAll ops).run World.empty = some ((), w) ∧
      (∀ a nd, rd w.mem a = some nd →
        (∀ x ∈ keysAt w.mem w.mem.length nd.Left, x < nd.Key) ∧
        (∀ x ∈ keysAt w.mem w.mem.length nd.actualRight, nd.Key < x)) ∧
      (keysAt w.mem w.mem.length w.obj.Root).Pairwise (· < ·) ∧
      (∀ a b nd nd2, rd w.mem a = some nd → rd w.mem b = some nd2 → nd.Key = nd2.Key →
        a = b) := by
  obtain ⟨w, t, hrun, hinv, _⟩ := reach ops
  have hcell := fun (a : Nat) (nd : NODE K V) (h : rd w.mem a = some nd) => cell_subtree hinv h
  obtain ⟨⟨hst, hroot, hnd⟩, hb, _, _, _, _, _⟩ := hinv
  have hlen := size_le_length hst hnd
  refine ⟨w, hrun, fun a nd hrd => ?_, ?_, fun a b nd nd2 hrd hrd2 hk => ?_⟩
  · obtain ⟨l, r, hx, _, e5, e6⟩ := hcell a nd hrd
    obtain ⟨s2, _, hL, hR⟩ := stored_subtree hst hx
    have hsz := size_subtree hx
    simp only [Tree.size] at hsz
    obtain ⟨_, _, hkl, hkr⟩ := bst_node.mp (bst_subtree hb hx)
    rw [e5, e6, keysAt_eq l _ _ hL (by omega), keysAt_eq r _ _ hR (by omega)]
    exact ⟨hkl, hkr⟩
  · rw [hroot, keysAt_eq t none _ hst hlen]
    exact hb
  · obtain ⟨l, r, hx, _⟩ := hcell a nd hrd
    obtain ⟨l2, r2, hy, _⟩ := hcell b nd2 hrd2
    rw [hk] at hx
    have := subtree_of_key_unique hb hx hy
    injection this

end lookups

/-- Witness of C14 on the insert calls of the worked example. -/
theorem size_counts_distinct_keys_witness :
    (([(60, 60), (65, 65), (63, 63)] : List (Int × Int)).map Prod.fst).toFinset.card < 2 ^ 31 ∧
    ∃ w : World Int Int,
      (insertAll [(60, 60), (65, 65), (63, 63)]).run World.empty = some ((), w) ∧
      size.run w
        = some ((((([(60, 60), (65, 65), (63, 63)] : List (Int × Int)).map Prod.fst).toFinset.card
            : Nat) : Int), w) ∧
      countNodes w.mem w.mem.length w.obj.Root
        = (([(60, 60), (65, 65), (63, 63)] : List (Int × Int)).map Prod.fst).toFinset.card ∧
      (([(60, 60), (65, 65), (63, 63)] : List (Int × Int)) = [] → size.run w = some (0, w)) :=
  ⟨by decide, size_counts_distinct_keys [(60, 60), (65, 65), (63, 63)] (by decide)⟩

theorem card_range_keys (n : Nat) :
    (((List.range n).map (fun i : Nat => ((i : Int), (i : Int)))).map Prod.fst).toFinset.card
      = n := by
  rw [List.map_map, List.toFinset_card_of_nodup, List.length_map, List.length_range]
  exact (List.nodup_range n).map (fun a b hab => Int.ofNat.inj hab)

theorem wrapInt32_at_range_end : wrapInt32 ((2147483648 : Nat) : Int) = -2147483648 := by
  decide

/-- C14 as stated fails: after `insert(i, i)` for `i = 0, ..., 2 ^ 31 - 1` on
an empty `avlt<int, int>`, a sequence with `2 ^ 31` distinct keys, `size()`
does not return `2 ^ 31`, which is no value of the `int` member `Size`: the
last `Size++` has wrapped to `-2 ^ 31`. -/
theorem size_wraps_beyond_int :
    ∃ w : World Int Int,
      (insertAll ((List.range 2147483648).map (fun i : Nat => ((i : Int), (i : Int))))).run
          World.empty = some ((), w) ∧
      size.run w = some (-2147483648, w) ∧
      (((List.range 2147483648).map (fun i : Nat => ((i : Int), (i : Int)))).map
          Prod.fst).toFinset.card = 2147483648 ∧
      size.run w ≠ some ((((((List.range 2147483648).map
          (fun i : Nat => ((i : Int), (i : Int)))).map Prod.fst).toFinset.card : Nat) : Int), w) := by
  obtain ⟨w, hrun, hsize, _⟩ :=
    run_size_wrapped ((List.range 2147483648).map (fun i : Nat => ((i : Int), (i : Int))))
  rw [card_range_keys 2147483648, wrapInt32_at_range_end] at hsize
  refine ⟨w, hrun, hsize, card_range_keys 2147483648, ?_⟩
  rw [card_range_keys 2147483648, hsize]
  intro h
  injection h with h
  injection h with h1 _
  exact absurd h1 (by decide)

end AVLT

namespace AVLT

section heightbound
variable {K V : Type} [LinearOrder K]

/-- C16: for every sequence of `insert` calls with `n >= 1` distinct keys,
`n < 2 ^ 31`, on an empty tree, the result `h` of `height()` satisfies
`(n + 2) ^ 36 > 2 ^ (25 * (h - 1))`, the exact form of
`h <= ceil (1.44 * log2 (n + 2))`; for `h = 0` the power of 2 is taken with
the exponent 0, which is the stronger statement. -/
theorem height_logarithmic (ops : List (K × V))
    (h1 : 1 ≤ (ops.map Prod.fst).toFinset.card)
    (h2 : (ops.map Prod.fst).toFinset.card < 2 ^ 31) :
    ∃ w h, (insertAll ops).run World.empty = some ((), w) ∧
      height.run w = some (h, w) ∧
      (2 : Int) ^ (25 * (h - 1)).toNat < (((ops.map Prod.fst).toFinset.card : Int) + 2) ^ 36 := by
  obtain ⟨w, t, hrun, hinv, _⟩ := reach ops
  have hsort := keys_eq_sort hinv
  obtain ⟨hm, _, hH, hB, _, _, _⟩ := hinv
  have hcard : t.size = (ops.map Prod.fst).toFinset.card := by
    rw [← keys_length, hsort, Finset.length_sort]
  refine ⟨w, t.ht, hrun, run_height hm, ?_⟩
  rw [ht_eq_height hH, ← hcard]
  rw [← hcard] at h1 h2
  have hfib := fib_le_size t hB
  have hge := height_ge t
  have hd : (t.height + 1).toNat ≤ 44 := by
    by_contra hcon
    have h47 : 47 ≤ (t.height + 1).toNat + 2 := by omega
    have := Nat.fib_mono h47
    rw [fib_47] at this
    omega
  have hpow := pow_lt_fib_pow _ hd
  have hexp : (25 * (t.height - 1)).toNat = 25 * ((t.height + 1).toNat - 2) := by omega
  rw [hexp]
  have hmono : (Nat.fib ((t.height + 1).toNat + 2) + 1) ^ 36 ≤ (t.size + 2) ^ 36 :=
    Nat.pow_le_pow_left (by omega) 36
  have hnat : 2 ^ (25 * ((t.height + 1).toNat - 2)) < (t.size + 2) ^ 36 :=
    lt_of_lt_of_le hpow hmono
  exact_mod_cast hnat

end heightbound

/-- Witness of C16 on the tree of the worked example. -/
theorem height_logarithmic_witness :
    1 ≤ (([(60, 60), (65, 65), (63, 63)] : List (Int × Int)).map Prod.fst).toFinset.card ∧
    (([(60, 60), (65, 65), (63, 63)] : List (Int × Int)).map Prod.fst).toFinset.card < 2 ^ 31 ∧
    ∃ (w : World Int Int) (h : Int),
      (insertAll [(60, 60), (65, 65), (63, 63)]).run World.empty = some ((), w) ∧
      height.run w = some (h, w) ∧
      (2 : Int) ^ (25 * (h - 1)).toNat
        < (((([(60, 60), (65, 65), (63, 63)] : List (Int × Int)).map Prod.fst).toFinset.card
            : Int) + 2) ^ 36 :=
  ⟨by decide, by decide,
    height_logarithmic [(60, 60), (65, 65), (63, 63)] (by decide) (by decide)⟩

end AVLT

namespace AVLT

section pruning_claim
variable {K V : Type} [LinearOrder K]

/-- C17: for every tree reached by `insert` calls and every `lower <= upper`,
`range_search(lower, upper)` invokes the helper `_search` on at most
`m + 2 * (height() + 1)` nodes, where `m` is the number of keys returned. -/
theorem range_search_prunes (ops : List (K × V)) (lower upper : K) (hlu : lower ≤ upper) :
    ∃ w ks n h, (insertAll ops).run World.empty = some ((), w) ∧
      (range_searchCounted lower upper).run w = some ((ks, n), w) ∧
      (range_search lower upper).run w = some (ks, w) ∧
      height.run w = some (h, w) ∧
      (n : Int) ≤ ks.length + 2 * (h + 1) := by
  obtain ⟨w, t, hrun, hinv, _⟩ := reach ops
  obtain ⟨hm, hb, hH, _, _, _, _⟩ := hinv
  refine ⟨w, _, _, t.ht, hrun, run_range_searchCounted hm hb lower upper,
    run_range_search hm hb lower upper, run_height hm, ?_⟩
  rw [ht_eq_height hH]
  exact visits_le lower upper hlu t hb

end pruning_claim

/-- Witness of C17 on the tree of the worked example and the range [61, 70]. -/
theorem range_search_prunes_witness :
    (61 : Int) ≤ 70 ∧
    ∃ (w : World Int Int) (ks : List Int) (n : Nat) (h : Int),
      (insertAll [(60, 60), (65, 65), (63, 63)]).run World.empty = some ((), w) ∧
      (range_searchCounted 61 70).run w = some ((ks, n), w) ∧
      (range_search 61 70).run w = some (ks, w) ∧
      height.run w = some (h, w) ∧
      (n : Int) ≤ ks.length + 2 * (h + 1) :=
  ⟨by decide, range_search_prunes [(60, 60), (65, 65), (63, 63)] 61 70 (by decide)⟩

end AVLT

namespace AVLT

section rotation_example

theorem rot_step1 : (insert (65 : Int) (65 : Int)).run World.empty
    = some ((), ⟨[some ⟨65, 65, none, none, true, 0⟩], ⟨some 0, 1, none⟩⟩) := rfl

theorem rot_step2 : (insert (60 : Int) (60 : Int)).run
    ⟨[some ⟨65, 65, none, none, true, 0⟩], ⟨some 0, 1, none⟩⟩ = some ((), rotStart) := rfl

theorem rot_start :
    (insertAll [((65 : Int), (65 : Int)), (60, 60)]).run World.empty = some ((), rotStart) := by
  simp only [insertAll, run_bind, rot_step1, rot_step2, Option.bind, run_pure]

theorem rot_insert : (insert (63 : Int) (63 : Int)).run rotStart = some ((), rotFinal) := rfl

theorem rot_walk :
    (insert.rebalance (some 2) [some 1, some 0]).run rotLinked = some ((), rotFinal) := rfl

theorem rot_walk_top :
    (insert.rebalance (some 2) [some 0]).run rotBefore = some ((), rotFinal) := rfl

theorem rot_left : (_LeftRotate (some 0) (some 1)).run rotBefore = some ((), rotMid) := rfl

theorem rot_right : (_RightRotate none (some 0)).run rotMid = some ((), rotFinal) := rfl

theorem models_rotBefore : Models rotBefore rotBeforeTree := by
  refine ⟨⟨rfl, ⟨rfl, trivial, rfl, trivial, trivial⟩, trivial⟩, rfl, by decide⟩

theorem bst_rotBeforeTree : rotBeforeTree.BST := by
  unfold Tree.BST
  decide

theorem models_rotMid : Models rotMid rotMidTree := by
  refine ⟨⟨rfl, ⟨rfl, ⟨rfl, trivial, trivial⟩, trivial⟩, trivial⟩, rfl, by decide⟩

theorem bst_rotMidTree : rotMidTree.BST := by
  unfold Tree.BST
  decide

theorem models_rotStart : Models rotStart rotStartTree := by
  refine ⟨⟨rfl, ⟨rfl, trivial, trivial⟩, trivial⟩, rfl, by decide⟩

theorem bst_rotStartTree : rotStartTree.BST := by
  unfold Tree.BST
  decide

end rotation_example

/-- C18 (the code breaks the claim): `_LeftRotate` reads the height of
`C = R->Right` without a test of `R->isThreaded`.  In `insert(63, 63)` on the
tree of 65, 60 the loop of step 5 calls `_LeftRotate` on the node `N` of 60,
whose right child `R`, the node of 63, has a thread to the node of 65 with
stored height 1.  The rotation stores the height 2 in `R`, where
`1 + max(height(N), height(C))` with `C` nil is 1; the call of `_RightRotate`
that follows stores the height of `R` anew. -/
theorem leftRotate_height_through_thread :
    (insertAll [((65 : Int), (65 : Int)), (60, 60)]).run World.empty = some ((), rotStart) ∧
      (insert (63 : Int) (63 : Int)).run rotStart = some ((), rotFinal) ∧
      (insert.rebalance (some 2) [some 1, some 0]).run rotLinked = some ((), rotFinal) ∧
      (insert.rebalance (some 2) [some 0]).run rotBefore = some ((), rotFinal) ∧
      (_LeftRotate (some 0) (some 1)).run rotBefore = some ((), rotMid) ∧
      (_RightRotate none (some 0)).run rotMid = some ((), rotFinal) ∧
      (rd rotMid.mem 2).map (fun nd => (nd.Key, nd.isThreaded, nd.actualRight, nd.Height))
        = some (63, true, none, 2) ∧
      (rd rotMid.mem 1).map (fun nd => (nd.Key, nd.Height)) = some (60, 0) ∧
      1 + max (trueHeight rotMid.mem 3 (some 1)) (trueHeight rotMid.mem 3 none) = 1 :=
  ⟨rot_start, rot_insert, rot_walk, rot_walk_top, rot_left, rot_right, rfl, rfl, by decide⟩

section rotation_claims
variable {K V : Type} [LinearOrder K]

/-- What holds of the state after a rotation in the tree `t` of the state
`w`. -/
theorem rebuilt_facts {w w2 : World K V} {t t2 : Tree K V} (hm : Models w t) (hb : t.BST)
    (hst2 : Tree.Stored w2.mem t2 none) (hn : t2.nodes = t.nodes)
    (hfr : Frame t.addrs (Slot.root.write t2.ptr w) w2) :
    Models w2 t2 ∧ t2.BST ∧ t2.nodes = t.nodes ∧
      keysAt w2.mem w2.mem.length w2.obj.Root = keysAt w.mem w.mem.length w.obj.Root ∧
      (∀ a nd, a ∈ t.addrs → rd w2.mem a = some nd →
        (nd.isThreaded = true ↔ nd.actualRight = none) ∧
          (nd.isThreaded = true → ThreadOK w2.mem t.keys nd)) ∧
      (∀ b, b ∉ t.addrs → rd w2.mem b = rd w.mem b) := by
  obtain ⟨hm2, hb2, _, _, _, hout⟩ := models_of_rebuilt hm hb hst2 hn hfr
  refine ⟨hm2, hb2, hn, ?_, fun a nd ha hrd => ?_, hout⟩
  · rw [hm2.2.1, hm.2.1, keysAt_eq t2 none _ hm2.1 (size_le_length hm2.1 hm2.2.2),
      keysAt_eq t none _ hm.1 (size_le_length hm.1 hm.2.2), keys_of_nodes hn]
  · have := threads_of_models hm2 hb2 (by rw [addrs_of_nodes hn]; exact ha) hrd
    rw [keys_of_nodes hn] at this
    exact this

/-- C19: in a state whose tree satisfies the search-tree order and the
threading invariant, `_LeftRotate(P, N)` on a node `N` with a real right
child and its parent `P` (null for the root), and `_RightRotate(P, N)` on a
node with a real left child, return with a tree that satisfies the
search-tree order and the threading invariant and has the same nodes in the
same inorder sequence, every thread targeting the inorder successor. -/
theorem rotations_preserve_order_and_threads {w : World K V} {t : Tree K V}
    (hm : Models w t) (hb : t.BST) :
    (∀ (n r : Nat) (A B C : Tree K V) (kn kr : K) (vn vr : V) (hn hr : Int),
      Tree.node n A kn vn hn (.node r B kr vr hr C) ∈ t.subtrees →
      ∃ w2 t2, (_LeftRotate (t.parentOf n none) (some n)).run w = some ((), w2) ∧
        Models w2 t2 ∧ t2.BST ∧ t2.nodes = t.nodes ∧
        keysAt w2.mem w2.mem.length w2.obj.Root = keysAt w.mem w.mem.length w.obj.Root ∧
        (∀ a nd, a ∈ t.addrs → rd w2.mem a = some nd →
          (nd.isThreaded = true ↔ nd.actualRight = none) ∧
            (nd.isThreaded = true → ThreadOK w2.mem t.keys nd)) ∧
        (∀ b, b ∉ t.addrs → rd w2.mem b = rd w.mem b)) ∧
    (∀ (n l : Nat) (A B C : Tree K V) (kn kl : K) (vn vl : V) (hn hl : Int),
      Tree.node n (.node l A kl vl hl B) kn vn hn C ∈ t.subtrees →
      ∃ w2 t2, (_RightRotate (t.parentOf n none) (some n)).run w = some ((), w2) ∧
        Models w2 t2 ∧ t2.BST ∧ t2.nodes = t.nodes ∧
        keysAt w2.mem w2.mem.length w2.obj.Root = keysAt w.mem w.mem.length w.obj.Root ∧
        (∀ a nd, a ∈ t.addrs → rd w2.mem a = some nd →
          (nd.isThreaded = true ↔ nd.actualRight = none) ∧
            (nd.isThreaded = true → ThreadOK w2.mem t.keys nd)) ∧
        (∀ b, b ∉ t.addrs → rd w2.mem b = rd w.mem b)) := by
  constructor
  · intro n r A B C kn kr vn vr hn hr hx
    obtain ⟨_, w2, hrun, t2, hfacts⟩ := wp_LeftRotate_tree hm hb hx
      (fun _ w2 => ∃ t2, Models w2 t2 ∧ t2.BST ∧ t2.nodes = t.nodes ∧
        keysAt w2.mem w2.mem.length w2.obj.Root = keysAt w.mem w.mem.length w.obj.Root ∧
        (∀ a nd, a ∈ t.addrs → rd w2.mem a = some nd →
          (nd.isThreaded = true ↔ nd.actualRight = none) ∧
            (nd.isThreaded = true → ThreadOK w2.mem t.keys nd)) ∧
        (∀ b, b ∉ t.addrs → rd w2.mem b = rd w.mem b))
      (fun w2 t2 hst2 hn2 hfr2 => ⟨t2, rebuilt_facts hm hb hst2 hn2 hfr2⟩)
    exact ⟨w2, t2, hrun, hfacts⟩
  · intro n l A B C kn kl vn vl hn hl hx
    obtain ⟨_, w2, hrun, t2, hfacts⟩ := wp_RightRotate_tree hm hb hx
      (fun _ w2 => ∃ t2, Models w2 t2 ∧ t2.BST ∧ t2.nodes = t.nodes ∧
        keysAt w2.mem w2.mem.length w2.obj.Root = keysAt w.mem w.mem.length w.obj.Root ∧
        (∀ a nd, a ∈ t.addrs → rd w2.mem a = some nd →
          (nd.isThreaded = true ↔ nd.actualRight = none) ∧
            (nd.isThreaded = true → ThreadOK w2.mem t.keys nd)) ∧
        (∀ b, b ∉ t.addrs → rd w2.mem b = rd w.mem b))
      (fun w2 t2 hst2 hn2 hfr2 => ⟨t2, rebuilt_facts hm hb hst2 hn2 hfr2⟩)
    exact ⟨w2, t2, hrun, hfacts⟩

/-- C20: in `insert` of a new key on a tree that satisfies the search-tree
order, the AVL balance, the height correctness and the threading invariant,
whenever the loop of step 5 enters the rotation branch at an ancestor, the
balance magnitude is 2, the child on the heavy side is a real node, and in a
double rotation the inner grandchild is a real node; `insert` returns, no
rotation having dereferenced a null pointer. -/
theorem rotation_branch_safe {w : World K V} {t : Tree K V} (key : K) (val : V)
    (hm : Models w t) (hb : t.BST) (hH : t.HeightsOK) (hB : t.Balanced) (hk : key ∉ t.keys) :
    Tree.WalkSafe key (-1) (Tree.link key val 0 w.mem.length t) ∧
      ∃ w2, (insert key val).run w = some ((), w2) ∧
        Models w2 (Tree.insert key val w.mem.length t) := by
  refine ⟨walkSafe_link key val _ t (-1) hk hH hB, ?_⟩
  obtain ⟨_, w2, hrun, hm2⟩ := wp_insert_new key val hm hb hk (pathSafe_link hk hH hB)
    (fun _ w2 => Models w2 (Tree.insert key val w.mem.length t))
    (fun w2 hm2 _ _ _ _ => hm2)
  exact ⟨w2, hrun, hm2⟩

end rotation_claims

/-- Witness of C19: the left rotation at the node of 60 and the right
rotation at the node of 65 in `insert(63, 63)` on the tree of 65, 60. -/
theorem rotations_preserve_witness :
    Models rotBefore rotBeforeTree ∧ rotBeforeTree.BST ∧
    Tree.node 1 Tree.nil 60 60 1 (Tree.node 2 Tree.nil 63 63 0 Tree.nil)
      ∈ rotBeforeTree.subtrees ∧
    ∃ w2 t2, (_LeftRotate (rotBeforeTree.parentOf 1 none) (some 1)).run rotBefore
        = some ((), w2) ∧
      Models w2 t2 ∧ t2.BST ∧ t2.nodes = rotBeforeTree.nodes ∧
      keysAt w2.mem w2.mem.length w2.obj.Root
        = keysAt rotBefore.mem rotBefore.mem.length rotBefore.obj.Root ∧
      (∀ a nd, a ∈ rotBeforeTree.addrs → rd w2.mem a = some nd →
        (nd.isThreaded = true ↔ nd.actualRight = none) ∧
          (nd.isThreaded = true → ThreadOK w2.mem rotBeforeTree.keys nd)) ∧
      (∀ b, b ∉ rotBeforeTree.addrs → rd w2.mem b = rd rotBefore.mem b) :=
  ⟨models_rotBefore, bst_rotBeforeTree, by decide,
    (rotations_preserve_order_and_threads models_rotBefore bst_rotBeforeTree).1
      1 2 Tree.nil Tree.nil Tree.nil 60 63 60 63 1 0 (by decide)⟩

/-- Witness of C20: `insert(63, 63)` on the tree of 65, 60, which enters the
rotation branch at the node of 65 for a left-right double rotation. -/
theorem rotation_branch_safe_witness :
    Models rotStart rotStartTree ∧ rotStartTree.BST ∧ rotStartTree.HeightsOK ∧
    rotStartTree.Balanced ∧ (63 : Int) ∉ rotStartTree.keys ∧
    Tree.WalkSafe 63 (-1) (Tree.link 63 (63 : Int) 0 rotStart.mem.length rotStartTree) ∧
    ∃ w2, (insert 63 63).run rotStart = some ((), w2) ∧
      Models w2 (Tree.insert 63 63 rotStart.mem.length rotStartTree) :=
  ⟨models_rotStart, bst_rotStartTree, by simp [rotStartTree, Tree.HeightsOK, Tree.height],
    by simp [rotStartTree, Tree.Balanced, Tree.height], by decide,
    rotation_branch_safe 63 63 models_rotStart bst_rotStartTree
      (by simp [rotStartTree, Tree.HeightsOK, Tree.height])
      (by simp [rotStartTree, Tree.Balanced, Tree.height]) (by decide)⟩

end AVLT

namespace AVLT

section inverted
variable {K V : Type} [LinearOrder K]

/-- C21: for every tree reached by `insert` calls and every `lower > upper`,
`range_search(lower, upper)` returns, with the empty vector, and leaves the
whole machine state, the tree included, as it was. -/
theorem range_search_inverted (ops : List (K × V)) (lower upper : K) (hlu : upper < lower) :
    ∃ w, (insertAll ops).run World.empty = some ((), w) ∧
      (range_search lower upper).run w = some ([], w) := by
  obtain ⟨w, t, hrun, hinv, _⟩ := reach ops
  refine ⟨w, hrun, ?_⟩
  rw [run_range_search hinv.1 hinv.2.1 lower upper]
  have hnil : t.keys.filter (fun x => decide (lower ≤ x ∧ x ≤ upper)) = [] := by
    refine List.filter_eq_nil_iff.mpr (fun x _ => ?_)
    simp only [decide_eq_true_eq, not_and, not_le]
    intro h1
    exact lt_of_lt_of_le hlu h1
  rw [hnil]

end inverted

/-- Witness of C21 on the tree of the worked example and the bounds 70, 61. -/
theorem range_search_inverted_witness :
    (61 : Int) < 70 ∧
    ∃ w : World Int Int,
      (insertAll [(60, 60), (65, 65), (63, 63)]).run World.empty = some ((), w) ∧
      (range_search 70 61).run w = some ([], w) :=
  ⟨by decide, range_search_inverted [(60, 60), (65, 65), (63, 63)] 70 61 (by decide)⟩

end AVLT
